import Mathlib

/-!
# Content-defined chunking in `lib/bup/_hashsplit.c`

A shallow embedding of the stream hashsplitter, its two boundary scanners and the
buffer manager, followed by the properties established about them.

Conventions.  Machine integers are natural numbers reduced modulo the width of the C
type wherever the C arithmetic can wrap (`U32` for `uint32_t` and `unsigned int`,
`U64` for `uint64_t`); `size_t` is the 64-bit type of an LP64 platform.  Memory is a
function from byte index to byte value, so that what the C code reads past the end of
the live data is whatever the function holds there.  An out-parameter such as
`*extrabits` is threaded: the function takes the value the variable has before the
call and returns the value it has afterwards.
-/

namespace Hashsplit

/-- Modulus of `uint32_t` and of `unsigned int`. -/
def U32 : Nat := 4294967296

/-- Modulus of `uint64_t` and of `size_t`. -/
def U64 : Nat := 18446744073709551616

/-- Modelled from the spec: the macro `BUP_WINDOWSIZE` of `bupsplit.h`, a header that is not
part of the source tree; the spec fixes the window size `W = 64`. -/
def BUP_WINDOWSIZE : Nat := 64

/-- Modelled from the spec: the macro `ROLLSUM_CHAR_OFFSET` of `bupsplit.h`, a header that is
not part of the source tree; the spec fixes the character offset `O = 31`. -/
def ROLLSUM_CHAR_OFFSET : Nat := 31

/-! ## Bit helpers of the compiler -/

/-- Rounds of `__builtin_ctz`: count the zero bits below the lowest set bit. -/
def builtin_ctz_loop : Nat → Nat → Nat → Nat
  | 0, _, n => n
  | fuel + 1, x, n => if x % 2 = 0 then builtin_ctz_loop fuel (x / 2) (n + 1) else n

/-- The compiler builtin `__builtin_ctz` on a 32-bit operand: the number of trailing zero
bits.  C leaves the value at `0` undefined; here it is 32. -/
def builtin_ctz (x : Nat) : Nat := builtin_ctz_loop 32 x 0

/-- Rounds of `__builtin_popcountll`. -/
def builtin_popcountll_loop : Nat → Nat → Nat
  | 0, _ => 0
  | fuel + 1, x => x % 2 + builtin_popcountll_loop fuel (x / 2)

/-- The compiler builtin `__builtin_popcountll`: the number of set bits of a 64-bit operand. -/
def builtin_popcountll (x : Nat) : Nat := builtin_popcountll_loop 64 x

/-! ## Legacy scanner -/

/-- The loop `while (v & 1) { (*extrabits)++; v >>= 1; }`.  The first argument bounds the
number of rounds; a 32-bit `v` is exhausted after 32 of them. -/
def count_ones_loop : Nat → Nat → Nat → Nat
  | 0, _, eb => eb
  | fuel + 1, v, eb => if v &&& 1 ≠ 0 then count_ones_loop fuel (v >>> 1) (eb + 1) else eb

/-- The function `split_found` as compiled where `__builtin_ctz` is available.  Returns the C
return value (as a Boolean) and the content of `*extrabits` after the call. -/
def split_found (v nbits extrabits : Nat) : Bool × Nat :=
  let mask := ((1 <<< nbits) - 1) % U32
  if v &&& mask = mask then
    let v1 := v >>> nbits
    let v2 := v1 >>> 1
    (true, builtin_ctz (U32 - 1 - v2))
  else
    (false, extrabits)

/-- The function `split_found` as compiled without `__builtin_ctz` (the `#else` branch). -/
def split_found_loop (v nbits extrabits : Nat) : Bool × Nat :=
  let mask := ((1 <<< nbits) - 1) % U32
  if v &&& mask = mask then
    let v1 := v >>> nbits
    let v2 := v1 >>> 1
    (true, count_ones_loop 32 v2 0)
  else
    (false, extrabits)

/-- The update `state.s1 += add - drop` on a `uint32_t`, with `add` and `drop` of type
`uint8_t`: the difference is computed in `int` and the sum wraps modulo `2 ^ 32`. -/
def legacy_s1 (s1 add drop : Nat) : Nat :=
  (((s1 : Int) + ((add % 256 : Nat) : Int) - ((drop % 256 : Nat) : Int)) % (U32 : Int)).toNat

/-- The update `state.s2 += state.s1 - BUP_WINDOWSIZE * (drop + ROLLSUM_CHAR_OFFSET)` on a
`uint32_t`, wrapping modulo `2 ^ 32`; `s1` is the value already updated. -/
def legacy_s2 (s2 s1 drop : Nat) : Nat :=
  (((s2 : Int) + (s1 : Int)
      - ((BUP_WINDOWSIZE * (drop % 256 + ROLLSUM_CHAR_OFFSET) : Nat) : Int)) % (U32 : Int)).toNat

/-- The digest `(state.s1 << 16) | (state.s2 & 0xffff)` as a `uint32_t`. -/
def legacy_digest (s1 s2 : Nat) : Nat :=
  ((s1 <<< 16) % U32) ||| (s2 &&& 0xffff)

/-- The first loop of `HashSplitter_find_offs_legacy`,
`for (pos = 0; pos < BUP_WINDOWSIZE; pos++)`, with `drop = 0`.  The first argument is the
number of rounds left.  The result is `Sum.inl (ofs, extrabits)` when the function returns
from inside the loop and `Sum.inr (s1, s2)` when the loop runs to its end. -/
def legacy_fill_loop (nbits : Nat) (buf : Nat → Nat) (extrabits : Nat) :
    Nat → Nat → Nat → Nat → Sum (Nat × Nat) (Nat × Nat)
  | 0, _, s1, s2 => Sum.inr (s1, s2)
  | n + 1, pos, s1, s2 =>
    let add := buf pos
    let drop := 0
    let s1a := legacy_s1 s1 add drop
    let s2a := legacy_s2 s2 s1a drop
    let s := legacy_digest s1a s2a
    let found := split_found s nbits extrabits
    if found.1 = true then Sum.inl (pos + 1, found.2)
    else legacy_fill_loop nbits buf extrabits n (pos + 1) s1a s2a

/-- The second loop of `HashSplitter_find_offs_legacy`,
`for (pos = BUP_WINDOWSIZE; pos < len; pos++)`, dropping `buf[pos - BUP_WINDOWSIZE]`.  The
first argument is the number of rounds left, `len - pos`. -/
def legacy_main_loop (nbits : Nat) (buf : Nat → Nat) (extrabits : Nat) :
    Nat → Nat → Nat → Nat → Nat × Nat
  | 0, _, _, _ => (0, extrabits)
  | n + 1, pos, s1, s2 =>
    let add := buf pos
    let drop := buf (pos - BUP_WINDOWSIZE)
    let s1a := legacy_s1 s1 add drop
    let s2a := legacy_s2 s2 s1a drop
    let s := legacy_digest s1a s2a
    let found := split_found s nbits extrabits
    if found.1 = true then (pos + 1, found.2)
    else legacy_main_loop nbits buf extrabits n (pos + 1) s1a s2a

/-- The function `HashSplitter_find_offs_legacy`.  `buf` is the memory starting at the pointer
passed in, `len` the length passed in, `extrabits` the content of the out-parameter before
the call.  Returns the offset and the content of `*extrabits` afterwards. -/
def HashSplitter_find_offs_legacy (nbits : Nat) (buf : Nat → Nat) (len extrabits : Nat) :
    Nat × Nat :=
  let s1 := BUP_WINDOWSIZE * ROLLSUM_CHAR_OFFSET
  let s2 := BUP_WINDOWSIZE * (BUP_WINDOWSIZE - 1) * ROLLSUM_CHAR_OFFSET
  match legacy_fill_loop nbits buf extrabits BUP_WINDOWSIZE 0 s1 s2 with
  | Sum.inl r => r
  | Sum.inr (s1a, s2a) =>
    legacy_main_loop nbits buf extrabits (len - BUP_WINDOWSIZE) BUP_WINDOWSIZE s1a s2a

/-! ## Record scanner -/

/-- Modelled from the spec: the structure `Rollsum` of `bupsplit.h`, a header that is not part
of the source tree.  The spec (sections 3 and 4.1) gives it two accumulators held in 32-bit
words and a ring of the last `W` bytes; `window` is that ring and `wofs` the slot to fill. -/
structure Rollsum where
  s1 : Nat
  s2 : Nat
  window : Nat → Nat
  wofs : Nat

/-- Modelled from the spec: `rollsum_init` of `bupsplit.h`; the initial values are
`s1 = W * O` and `s2 = W * (W - 1) * O`, over an empty (zero) window. -/
def rollsum_init : Rollsum :=
  { s1 := BUP_WINDOWSIZE * ROLLSUM_CHAR_OFFSET
    s2 := BUP_WINDOWSIZE * (BUP_WINDOWSIZE - 1) * ROLLSUM_CHAR_OFFSET
    window := fun _ => 0
    wofs := 0 }

/-- Modelled from the spec: `rollsum_roll` of `bupsplit.h`; one byte enters, the byte the
ring holds in its place leaves: `s1 <- s1 + add - drop`, `s2 <- s2 + s1 - W * (drop + O)`. -/
def rollsum_roll (r : Rollsum) (ch : Nat) : Rollsum :=
  let drop := r.window r.wofs
  let s1 := legacy_s1 r.s1 ch drop
  { s1 := s1
    s2 := legacy_s2 r.s2 s1 drop
    window := fun i => if i = r.wofs then ch % 256 else r.window i
    wofs := (r.wofs + 1) % BUP_WINDOWSIZE }

/-- Modelled from the spec: `rollsum_digest` of `bupsplit.h`,
`(s1 << 16) | (s2 & 0xffff)`. -/
def rollsum_digest (r : Rollsum) : Nat :=
  legacy_digest r.s1 r.s2

/-- The loop `for (count = 0; count < len; count++)` of `HashSplitter_roll`, over the bytes
not yet rolled.  Returns the C return value, the content of `*extrabits` and the rollsum
afterwards. -/
def roll_loop (nbits s2_mask s1_mask : Nat) :
    List Nat → Nat → Rollsum → Nat → Nat × Nat × Rollsum
  | [], _, r, extrabits => (0, extrabits, r)
  | b :: rest, count, r, extrabits =>
    let r1 := rollsum_roll r b
    if r1.s2 &&& s2_mask = s2_mask ∧ r1.s1 &&& s1_mask = s1_mask then
      let rsum := rollsum_digest r1
      let rsum1 := rsum >>> nbits
      let rsum2 := rsum1 >>> 1
      (count + 1, count_ones_loop 32 rsum2 0, r1)
    else roll_loop nbits s2_mask s1_mask rest (count + 1) r1 extrabits

/-- The function `HashSplitter_roll` on the record `buf`; `len` is its length. -/
def HashSplitter_roll (r : Rollsum) (nbits : Nat) (buf : List Nat) (extrabits : Nat) :
    Nat × Nat × Rollsum :=
  let s2_mask := ((1 <<< nbits) - 1) % 65536
  let s1_mask := if nbits ≤ 16 then 0 else ((1 <<< (nbits - 16)) - 1) % 65536
  roll_loop nbits s2_mask s1_mask buf 0 r extrabits

/-! ## FastCDC scanner -/

/-- The table `GEAR_TABLE` of `HashSplitter_find_offs_fastcdc`. -/
def GEAR_TABLE : List Nat := [
  0x651748f5a15f8222, 0xd6eda276c877d8ea, 0x66896ef9591b326b,
  0xcd97506b21370a12, 0x8c9c5c9acbeb2a05, 0xb8b9553ee17665ef,
  0x1784a989315b1de6, 0x947666c9c50df4bd, 0xb3f660ea7ff2d6a4,
  0xbcd6adb8d6d70eb5, 0xb0909464f9c63538, 0xe50e3e46a8e1b285,
  0x21ed7b80c0163ce0, 0xf209acd115f7b43b, 0xb8c9cb07eaf16a58,
  0xb60478aa97ba854c, 0x8fb213a0b5654c3d, 0x42e8e7bd9fb03710,
  0x737e3de60a90b54f, 0x9172885f5aa79c8b, 0x787faae7be109c36,
  0x86ad156f5274cb9f, 0x6ac0a8daa59ee1ab, 0x5e55bc229d5c618e,
  0xa54fb69a5f181d41, 0xc433d4cf44d8e974, 0xd9efe85b722e48a3,
  0x7a5e64f9ea3d9759, 0xba3771e13186015d, 0x5d468c5fad6ef629,
  0x96b1af02152ebfde, 0x63706f4aa70e0111, 0xe7a9169252de4749,
  0xf548d62570bc8329, 0xee639a9117e8c946, 0xd31b0f46f3ff6847,
  0xfed7938495624fc5, 0x1ef2271c5a28122e, 0x7fd8e0e95eac73ef,
  0x920558e0ee131d4c, 0xce2e67cb1034bcd1, 0x6f4b338d34b004ae,
  0x92f5e7271cf95c9a, 0x12e1305a9c558342, 0x1e30d88013ad77ae,
  0x09acc1a57bbb604e, 0xaf187082c6f56192, 0xd2e5d987f04ac6f0,
  0x3b22fca40423da70, 0x7dfba8ce699a9a87, 0xe8b15f90ea96bd2a,
  0xcda1a1089cc2cbe7, 0x72f70448459de898, 0x1ab992dbb61cd46e,
  0x912ad04becbb29da, 0x98c6bb3aa3ce09ed, 0x6373bd2e7a041f3a,
  0x1f98f28bd178c53a, 0xe6adbc82ba5d9f96, 0x7456da7d805cbe01,
  0xd673662dcc135eeb, 0xb299e26eaadcb311, 0x2c2582172f8114af,
  0xeded114d7f623da6, 0xb3462a0e623276e4, 0x3af752be3d34bfaa,
  0x1311ccc0a1855a89, 0x0812bbcecc92b2e4, 0x9974b5747289f2f5,
  0x3a030eff770f2026, 0x52462b2aa42a847a, 0x2beaa107d15a012b,
  0x0c0035e0fe073398, 0x4f2f9de2ac206766, 0x5dd51a617c291deb,
  0x1ac66905652cc03b, 0x11067b0947fc07a1, 0x02b5fcd96ad06d52,
  0x74244ec1aa2821fd, 0xf6089e32060e9439, 0xd8f076a33bcbf1a7,
  0x5162743c755d8d5e, 0x8d34fc683e4e3d06, 0x46efe9b21a0252a3,
  0x4631e8d0109c6145, 0xfdf7a14bc0223957, 0x750934b3d0b8bb1e,
  0x2ecd1b3efed5ddb9, 0x2bcbd89a83ccfbce, 0x3507c79e58dd5886,
  0x5476a67ecd4a772f, 0xaa0be3856dd76405, 0x22289a358a4dd421,
  0xf570433f14503ad1, 0x8a9f440251a722c3, 0x77dd711752b4398c,
  0xbbd9edf9c6160a31, 0xb94b59220b23f079, 0xfdca3d75d2f33ccf,
  0xb29452c460c9e977, 0xe89afe2dd4bf3b02, 0x47ec6f32c91bfee4,
  0x1aab5ec3445706b8, 0x588bf4fa55334006, 0xe2290ca1e29acd96,
  0x3c49e189f831c37c, 0x6448c973b5177498, 0x556a6e09ba158de7,
  0x90b25013a8d9a067, 0xa4f2f7a50c58e1c4, 0x5e765e871008700e,
  0x242f5ae7738327af, 0xc1e6a2819cc5a219, 0xcb48d801fd6a5449,
  0xa208de2301931383, 0xde3c143fe44e39b0, 0x6bb74b09c73e4133,
  0xb5b1ed1b63d54c11, 0x587567d454ce7716, 0xf47ddbc987cb0392,
  0x87b19254448f03f1, 0x985fd00ec372fafa, 0x64b92ba521aa46e4,
  0xce63f4013d587b0f, 0xa691ae698726030e, 0xeaefbf690264e9aa,
  0x68edd400523eb152, 0x35d9353aa1957c60, 0x2e2c2d7a9cb68385,
  0xfc7549edaf43bf9e, 0x48b2adb23026e2c7, 0x3777cb79a024bcf9,
  0x644128f7c184102d, 0x70189d3ca4390de9, 0x085fea7986d4cd34,
  0x6dbe7626c8457464, 0x9fa41cfa9c4265eb, 0xdaa163a641946463,
  0x02f5c4bd9efa2074, 0x783201871822c3c9, 0xb0dfec499202bce0,
  0x1f1c9c12d84dccab, 0x1596f8819f2ed68e, 0xb0352c3e9fc84468,
  0x24a6673db9122956, 0x84f5b9e60b274739, 0x7216b28a0b54ac46,
  0xc7789de20e9cdca4, 0x903db5d289dd6563, 0xce66a947f7033516,
  0x3677dbc62307b2ca, 0x8d8e9d5530eb46ac, 0x79c4bad281bd93e2,
  0x287d942042068c36, 0xde4b98e5464b6ad5, 0x612534b97d1d21bf,
  0xdf98659772d822a1, 0x93053df791aa6264, 0x2254a8a2d54528ba,
  0x2301164aeb69c43d, 0xf56863474ac2417f, 0x6136b73e1b75de42,
  0xc7c3bd487e06b532, 0x7232fbed1eb9be85, 0x36d60f0bd7909e43,
  0xe08cbf774a4ce1f2, 0xf75fbc0d97cb8384, 0xa5097e5af367637b,
  0x7bce2dcfa856dbb2, 0xfbfb729dd808c894, 0x3dc8eba10ad7112e,
  0xf2d1854eedce4928, 0xb705f5c1aebd2104, 0x78fa4d004417d956,
  0x9e5162660729f858, 0xda0bcd5eb9f91f0e, 0x748d1be11e06b362,
  0xf4c2be9a04547734, 0x6f2bcd7c88abdf9a, 0x50865dafdfd8a404,
  0x9d820665691728f0, 0x59fe7a56aa07118e, 0x4df1d768c23660ec,
  0xab6310b8edfb8c5e, 0x029b47623fc9ffe4, 0x50c2cca231374860,
  0x0561505a8dbbdc69, 0x8d07fe136de385f3, 0xc7fb6bb1731b1c1c,
  0x2496d1256f1fac7a, 0x79508cee90d84273, 0x09f51a2108676501,
  0x2ef72d3dc6a50061, 0xe4ad98f5792dd6d6, 0x69fa05e609ae7d33,
  0xf7f30a8b9ae54285, 0x04a2cb6a0744764b, 0xc4b0762f39679435,
  0x60401bc93ef6047b, 0x76f6aa76e23dbe0c, 0x8a209197811e39da,
  0x4489a9683fa03888, 0x2604ad5741a6f8d8, 0x7faa9e0c64a94532,
  0x0dbfee8cdae8f54e, 0x0a7c5885f0b76d4a, 0x55dfb1ac12e83645,
  0xedc967651c4938cc, 0x4e006ab71a48b85e, 0x193f621602de413c,
  0xb56458b71d56944f, 0xf2b639509a2fa5da, 0xb4a76f284c365450,
  0x4d3b65d2d2ae22f7, 0xbcc5f8303efca485, 0x8a044f312671aaea,
  0x688d69e89af0f57a, 0x229957dc1facede8, 0x2ed75c321073da13,
  0xf199e7ece5fcefef, 0x50c85b5c837a6c64, 0x71703c6e676bf698,
  0xc1b4eb52b1e5a518, 0x0f46a5e6c9cb68ca, 0xebb933688d69d7f7,
  0x5ab7404b8d1e3ef4, 0x261acc20c5a64a90, 0xb88788798adc718a,
  0x3e44e9b6bad5bc15, 0xf6bb456f086346bc, 0xd66e17e5734cbde1,
  0x392036dae96e389d, 0x4a62ceac9d4202de, 0x9d55f412f32e5f6e,
  0x0e1d841509d9ee9d, 0xc3130bdc638ed9e2, 0x0cd0e82af24964d9,
  0x3ec4c59463ba9b50, 0x055bc4d8685ab1bc, 0xb9e343c96a3a4253,
  0x8eba190d8688f7f9, 0xd31df36c792c629b, 0xddf82f659b127104,
  0x6f12dc8ba930fbb7, 0xa0aee6bb7e81a7f0, 0x8c6ba78747ae8777,
  0x86f00167eda1f9bc, 0x3a6f8b8f8a3790c9, 0x7845bb4a1c3bfbbb,
  0xc875ab077f66cf23, 0xa68b83d8d69b97ee, 0xb967199139f9a0a6,
  0x8a3a1a4d3de036b7, 0xdf3c5c0c017232a4, 0x8e60e63156990620,
  0xd31b4b03145f02fa
]

/-- The constant `tmask_c`. -/
def tmask_c : Nat := 0x575d590003570000

/-- The constant `tmask_j`. -/
def tmask_j : Nat := 0x575d590003560000

/-- The constant `jump_length`. -/
def jump_length : Nat := 585

/-- The loop `while (tmp) { if (tmask_c & (1ULL << pos)) tmp--; pos += 1; }`; returns `pos`.
The first argument bounds the number of rounds by the 64 bit positions that exist. -/
def mask_pos_loop : Nat → Nat → Nat → Nat
  | 0, _, pos => pos
  | fuel + 1, tmp, pos =>
    if tmp ≠ 0 then
      if tmask_c &&& ((1 <<< pos) % U64) ≠ 0 then mask_pos_loop fuel (tmp - 1) (pos + 1)
      else mask_pos_loop fuel tmp (pos + 1)
    else pos

/-- The value `mask_j = tmask_j & ~(~0ULL << pos)` for the `pos` the loop above ends at. -/
def fastcdc_mask_j (nbits : Nat) : Nat :=
  let pos := mask_pos_loop 64 nbits 0
  tmask_j &&& (U64 - 1 - ((U64 - 1) <<< pos) % U64)

/-- The loop `for (; i < len; i++)` of `HashSplitter_find_offs_fastcdc`.  The first argument
bounds the number of rounds; `len` rounds are enough since `i` grows in each. -/
def fastcdc_loop (nbits : Nat) (buf : Nat → Nat) (len mask_j : Nat) :
    Nat → Nat → Nat → Nat → Nat × Nat
  | 0, _, _, extrabits => (0, extrabits)
  | fuel + 1, i, fp, extrabits =>
    if i < len then
      let fp1 := ((fp <<< 1) + GEAR_TABLE.getD (buf i % 256) 0) % U64
      if fp1 &&& mask_j = 0 then
        if fp1 &&& (tmask_c - tmask_j) = 0 then
          (i, (builtin_popcountll (U64 - 1 - (fp1 &&& tmask_c)) + (U32 - nbits % U32)) % U32)
        else
          let i1 := i + jump_length
          if i1 > len then (0, extrabits)
          else fastcdc_loop nbits buf len mask_j fuel (i1 + 1) fp1 extrabits
      else fastcdc_loop nbits buf len mask_j fuel (i + 1) fp1 extrabits
    else (0, extrabits)

/-- The function `HashSplitter_find_offs_fastcdc`. -/
def HashSplitter_find_offs_fastcdc (nbits : Nat) (buf : Nat → Nat) (len extrabits : Nat) :
    Nat × Nat :=
  let i := 1 <<< (nbits - 2)
  let mask_j := fastcdc_mask_j nbits
  if len ≤ i then (len, 0)
  else fastcdc_loop nbits buf len mask_j len i 0 extrabits

/-! ## Module initialisation -/

/-- Python exceptions the module raises. -/
inductive PyError where
  | ValueError
  | TypeError
  | IOError
  | OverflowError
  | MemoryError
  | OSError
  | Exception
  deriving DecidableEq

/-- Ways in which a call does not return a value: a Python exception, a failed `assert`
(the file undefines `NDEBUG`, so the process aborts), an access through a pointer that is
null or points nowhere (the process ends with a segmentation fault), or a model loop that ran
out of its round bound. -/
inductive Fault where
  | raised (e : PyError)
  | assertion
  | crashed
  | diverged
  deriving DecidableEq

/-- Rounds of the binary logarithm below. -/
def log2_loop : Nat → Nat → Nat
  | 0, _ => 0
  | fuel + 1, n => if n < 2 then 0 else log2_loop fuel (n / 2) + 1

/-- The C library function `log2` at the arguments the module passes to it, which are powers
of two below `2 ^ 64`: there the result is the exact integer logarithm. -/
def log2 (n : Nat) : Nat := log2_loop 64 n

/-- Largest value of `size_t` (LP64). -/
def SIZE_MAX : Nat := U64 - 1

/-- Largest value of `Py_ssize_t` (LP64). -/
def PY_SSIZE_T_MAX : Nat := 2 ^ 63 - 1

/-- Largest value of `long` (LP64). -/
def LONG_MAX : Int := 2 ^ 63 - 1

/-- The module globals `page_size`, `fmincore_chunk_size`, `advise_chunk` and `max_bits`. -/
structure Globals where
  page_size : Nat
  fmincore_chunk_size : Nat
  advise_chunk : Nat
  max_bits : Nat
  deriving DecidableEq

/-- The value of the C constant `EINVAL` (Linux). -/
def EINVAL : Int := 22

/-- The function `hashsplit_init`, from the value `sysconf(_SC_PAGESIZE)` returns (a `long`)
and the value of `errno` after that call.  The import of `io.UnsupportedOperation` and the
two `PyType_Ready` calls are taken to succeed. -/
def hashsplit_init (sc_page_size : Int) (errno : Int) : Except PyError Globals :=
  if sc_page_size < 0 then
    if errno = EINVAL then Except.error PyError.ValueError
    else Except.error PyError.OSError
  else if sc_page_size = 0 then Except.error PyError.Exception
  else
    let page_size := sc_page_size.toNat
    if page_size > SIZE_MAX then Except.error PyError.OverflowError
    else if (page_size : Int) > LONG_MAX then Except.error PyError.OverflowError
    else
      let pref_chunk_size := 64 * 1024 * 1024
      let fmincore_chunk_size :=
        if page_size < pref_chunk_size then page_size * (pref_chunk_size / page_size)
        else page_size
      if fmincore_chunk_size > SIZE_MAX then Except.error PyError.OverflowError
      else
        let advise_chunk0 := 8 * 1024 * 1024
        let max_bits := log2 advise_chunk0 - 2
        let advise_chunk := if page_size > advise_chunk0 then page_size else advise_chunk0
        if advise_chunk > PY_SSIZE_T_MAX then Except.error PyError.OverflowError
        else Except.ok
          { page_size := page_size, fmincore_chunk_size := fmincore_chunk_size,
            advise_chunk := advise_chunk, max_bits := max_bits }

/-! ## Sources and the splitter object -/

/-- A byte source, as the splitter sees it.  `data` are the bytes it has not delivered yet.
`sizes` is the schedule of short reads: the next read delivers at most `sizes.head + 1` bytes
(one entry is used up by each read; once the schedule is empty a read delivers all it is
asked for).  A read never delivers more than it is asked for, and delivers nothing exactly
when `data` is empty.  `fd` is the descriptor `PyObject_AsFileDescriptor` finds (`none` when
the object has none), and `mincore` is the page map that the `mmap`/`mincore` pass of
`HashSplitter_nextfile` obtains for the descriptor (`none` when the pass gives up, as for a
pipe). -/
structure Source where
  data : List Nat
  sizes : List Nat
  fd : Option Nat
  mincore : Option (Nat → Nat)

/-- One read of at most `n` bytes from a source: the system call `read` on its descriptor,
or its method `read(n)`.  Returns the bytes delivered and the source afterwards. -/
def Source.read (f : Source) (n : Nat) : List Nat × Source :=
  let avail := match f.sizes with
    | [] => f.data.length
    | m :: _ => min (m + 1) f.data.length
  let k := min n avail
  (f.data.take k, { f with data := f.data.drop k, sizes := f.sizes.tail })

/-- The C enumeration `bup_splitter_mode`. -/
inductive bup_splitter_mode where
  | SPLIT_MODE_LEGACY
  | SPLIT_MODE_FASTCDC
  deriving DecidableEq

/-- The C structure `HashSplitter`, together with the part of the environment its methods
act on.  `files` holds the sources the iterator has not handed out yet.  `buf` is the memory
of the bytes object (indices below `bufsz`) and what lies behind it.  `progress` tells whether
a callback is installed, and `calls` records its invocations.  `heap k` is the content the
`k`-th buffer allocation comes with (`PyBytes_FromStringAndSize(NULL, n)` does not initialise
it), `nalloc` counts the allocations, and `advised` records the ranges passed to
`posix_fadvise`.  `freed` tells that the pointer `buf` is `NULL`: the end branch of
`HashSplitter_iternext` has dropped the buffer.  That branch is the only place that sets it,
and it is taken only without a current source; `HashSplitter_read`, which does nothing
without a current source, and `HashSplitter_realloc` are modelled for a buffer that exists. -/
structure HashSplitter where
  files : List Source
  fobj : Option Source
  bits : Nat
  filenum : Int
  max_blob : Nat
  fd : Int
  mode : bup_splitter_mode
  buf : Nat → Nat
  progress : Bool
  bufsz : Nat
  eof : Bool
  start : Nat
  end_ : Nat
  boundaries : Bool
  fanbits : Nat
  mincore : Option (Nat → Nat)
  uncached : Nat
  read : Nat
  glob : Globals
  heap : Nat → Nat → Nat
  nalloc : Nat
  calls : List (Int × Nat)
  advised : List (Nat × Nat)
  freed : Bool

/-- The function `HashSplitter_realloc` when an old buffer exists: a fresh buffer receives
the live bytes at its front.  The allocation is taken to succeed. -/
def HashSplitter_realloc (self : HashSplitter) : Except Fault HashSplitter :=
  if ¬ (self.end_ ≥ self.start) then Except.error Fault.assertion
  else if ¬ (self.end_ ≤ self.bufsz) then Except.error Fault.assertion
  else
    let fresh := self.heap self.nalloc
    let oldbuf := self.buf
    let n := self.end_ - self.start
    Except.ok { self with
      buf := fun i => if i < n then oldbuf (self.start + i) else fresh i
      end_ := self.end_ - self.start
      start := 0
      nalloc := self.nalloc + 1 }

/-- The function `HashSplitter_nextfile`.  Returns the C return value and the object
afterwards.  Of the system calls on a descriptor only the outcome is modelled: the page map
of the source, if it has one. -/
def HashSplitter_nextfile (self : HashSplitter) : Int × HashSplitter :=
  let s0 := { self with uncached := 0, read := 0, mincore := none }
  if s0.filenum + 1 > LONG_MAX then (-1, s0)
  else
    let s1 := { s0 with filenum := s0.filenum + 1 }
    match s1.files with
    | [] => (0, { s1 with fobj := none })
    | f :: rest =>
      let s2 := { s1 with fobj := some f, files := rest }
      let s3 := if s2.progress then { s2 with calls := s2.calls ++ [(s2.filenum, 0)] } else s2
      let s4 := { s3 with eof := false }
      match f.fd with
      | none => (0, { s4 with fd := -1 })
      | some d => (0, { s4 with fd := (d : Int), mincore := f.mincore })

/-- The loop `for (i = 0, len = 0; i < pages; i++)` of `HashSplitter_uncache`.  The first
argument is the number of rounds left; the state is `i`, `start`, `len` and the advisories
issued so far.  `posix_fadvise` is taken to succeed. -/
def uncache_loop (page_size : Nat) (mincore : Nat → Nat) (pgstart : Nat) :
    Nat → Nat → Nat → Nat → List (Nat × Nat) → Nat × Nat × List (Nat × Nat)
  | 0, _, start, len, adv => (start, len, adv)
  | n + 1, i, start, len, adv =>
    if mincore (pgstart + i) % 2 = 1 then
      let adv1 := if len ≠ 0 then adv ++ [(start, len)] else adv
      uncache_loop page_size mincore pgstart n (i + 1) (start + len + page_size) 0 adv1
    else
      uncache_loop page_size mincore pgstart n (i + 1) start (len + page_size) adv

/-- The function `HashSplitter_uncache` (compiled when `HASHSPLITTER_ADVISE` is defined, with
`HASHSPLITTER_MINCORE_INCORE = 1`). -/
def HashSplitter_uncache (self : HashSplitter) (last : Bool) : Except Fault HashSplitter :=
  match self.mincore with
  | none => Except.ok self
  | some mincore =>
    if ¬ (self.uncached ≤ self.read) then Except.error Fault.assertion
    else
      let len0 := self.read - self.uncached
      let len1 := if ¬ last then len0 / self.glob.advise_chunk * self.glob.advise_chunk else len0
      let pages := len1 / self.glob.page_size
      let start := self.uncached
      let pgstart := self.uncached / self.glob.page_size
      if pgstart + pages > SIZE_MAX then Except.error (Fault.raised PyError.OverflowError)
      else if pages = SIZE_MAX then Except.error (Fault.raised PyError.OverflowError)
      else
        match uncache_loop self.glob.page_size mincore pgstart pages 0 start 0 self.advised with
        | (start1, len2, adv) =>
          let adv1 := if len2 ≠ 0 then adv ++ [(start1, len2)] else adv
          if start1 + len2 > SIZE_MAX then Except.error (Fault.raised PyError.OverflowError)
          else Except.ok { self with advised := adv1, uncached := start1 + len2 }

/-- Copy of `bytes` into the buffer at offset `pos`, as `read` and `PyBuffer_ToContiguous`
do. -/
def store (buf : Nat → Nat) (pos : Nat) (bytes : List Nat) : Nat → Nat :=
  fun i => if pos ≤ i ∧ i < pos + bytes.length then bytes.getD (i - pos) 0 else buf i

/-- The `do ... while (len && self->bufsz > self->end)` loop of `HashSplitter_read` for a
source with a descriptor.  The first argument bounds the number of rounds; every round but
the last takes at least one byte from the source.  Returns the last `len` and the object. -/
def read_fd_loop : Nat → Source → HashSplitter → Except Fault (Nat × HashSplitter)
  | 0, _, _ => Except.error Fault.diverged
  | fuel + 1, f, self =>
    match f.read (self.bufsz - self.end_) with
    | (bytes, f1) =>
      let len := bytes.length
      let s1 := { self with
        fobj := some f1
        buf := store self.buf self.end_ bytes
        end_ := self.end_ + len }
      if s1.read + len > SIZE_MAX then Except.error (Fault.raised PyError.OverflowError)
      else
        let s2 := { s1 with read := s1.read + len }
        if ¬ (s2.uncached ≤ s2.read) then Except.error Fault.assertion
        else
          let adv :=
            if len = 0 ∧ s2.read > s2.uncached ∧ s2.read - s2.uncached ≥ s2.glob.advise_chunk
            then HashSplitter_uncache s2 (decide (len = 0))
            else Except.ok s2
          match adv with
          | Except.error e => Except.error e
          | Except.ok s3 =>
            if len ≠ 0 ∧ s3.bufsz > s3.end_ then read_fd_loop fuel f1 s3
            else Except.ok (len, s3)

/-- The `do ... while (len && self->bufsz > self->end)` loop of `HashSplitter_read` for a
source without a descriptor, read through its method `read`. -/
def read_obj_loop : Nat → Source → HashSplitter → Except Fault (Nat × HashSplitter)
  | 0, _, _ => Except.error Fault.diverged
  | fuel + 1, f, self =>
    if ¬ (self.bufsz ≥ self.end_) then Except.error Fault.assertion
    else if ¬ (self.bufsz - self.end_ ≤ PY_SSIZE_T_MAX) then Except.error Fault.assertion
    else
      match f.read (self.bufsz - self.end_) with
      | (bytes, f1) =>
        let len := bytes.length
        if len > self.bufsz - self.end_ then Except.error (Fault.raised PyError.ValueError)
        else
          let s1 := { self with
            fobj := some f1
            buf := if len ≠ 0 then store self.buf self.end_ bytes else self.buf
            end_ := self.end_ + len }
          if len ≠ 0 ∧ s1.bufsz > s1.end_ then read_obj_loop fuel f1 s1
          else Except.ok (len, s1)

/-- The function `HashSplitter_read`.  Returns the C return value (never negative here: the
error returns are faults) and the object afterwards.  The progress callback is taken to
return normally. -/
def HashSplitter_read (self : HashSplitter) : Except Fault (Nat × HashSplitter) :=
  match self.fobj with
  | none => Except.ok (0, self)
  | some f =>
    if ¬ (self.start ≤ self.end_) then Except.error Fault.assertion
    else if ¬ (self.end_ ≤ self.bufsz) then Except.error Fault.assertion
    else
      let start_read := self.end_
      let r :=
        if self.fd ≠ -1 then read_fd_loop (f.data.length + 1) f self
        else read_obj_loop (f.data.length + 1) f self
      match r with
      | Except.error e => Except.error e
      | Except.ok (len, s1) =>
        let s2 :=
          if s1.progress ∧ s1.end_ - start_read ≠ 0
          then { s1 with calls := s1.calls ++ [(s1.filenum, s1.end_ - start_read)] }
          else s1
        Except.ok (len, s2)

/-- What one call of `next()` hands back: a chunk with its level, or the end of the
iteration. -/
inductive Next where
  | chunk (bytes : List Nat) (level : Nat)
  | stop
  deriving DecidableEq

/-- The bytes `buf[start .. start + n)`. -/
def slice (buf : Nat → Nat) (start n : Nat) : List Nat :=
  (List.range n).map (fun i => buf (start + i))

/-- The step "read some data if possible/needed" at the head of the loop of
`HashSplitter_iternext`. -/
def iternext_fill (self : HashSplitter) : Except Fault HashSplitter :=
  if self.end_ < self.bufsz ∧ self.fobj.isSome then
    let s1 :=
      if self.eof ∧ (¬ self.boundaries ∨ self.start = self.end_)
      then (HashSplitter_nextfile self).2
      else self
    match HashSplitter_read s1 with
    | Except.error e => Except.error e
    | Except.ok (rc, s2) => Except.ok (if rc = 0 then { s2 with eof := true } else s2)
  else Except.ok self

/-- The `switch (self->mode)` of `HashSplitter_iternext`: the scanner applied to the live
bytes, at most `max_blob` of them.  The local `extrabits` is not initialised in C; it is read
only when the offset is not zero, and then the scanner has written it. -/
def iternext_scan (self : HashSplitter) : Nat × Nat :=
  let maxlen := min (self.end_ - self.start) self.max_blob
  match self.mode with
  | bup_splitter_mode.SPLIT_MODE_LEGACY =>
    HashSplitter_find_offs_legacy self.bits (fun i => self.buf (self.start + i)) maxlen 0
  | bup_splitter_mode.SPLIT_MODE_FASTCDC =>
    HashSplitter_find_offs_fastcdc self.bits (fun i => self.buf (self.start + i)) maxlen 0

/-- The tail of the loop body of `HashSplitter_iternext`, from
`assert(self->end - self->start >= ofs)` on: the chunk is handed out and `start` moves. -/
def iternext_emit (self : HashSplitter) (ofs level : Nat) : Except Fault (Next × HashSplitter) :=
  if ¬ (self.end_ - self.start ≥ ofs) then Except.error Fault.assertion
  else Except.ok (Next.chunk (slice self.buf self.start ofs) level,
    { self with start := self.start + ofs })

/-- The loop `while (1)` of `HashSplitter_iternext`.  The first argument bounds the number
of rounds.  The end branch drops the buffer with `Py_DECREF(self->buf); self->buf = NULL`;
when the buffer is gone already, `Py_DECREF` writes through the null pointer.  Behind the end
branch the scanners read through `PyBytes_AS_STRING(self->buf)` and the chunk is sliced from a
view of `self->buf`: there a dropped buffer counts as the end of the process.  (An object
without buffer that is not in the end branch does not arise: the end branch alone drops the
buffer, it leaves no current source and no live byte, and a call on such an object changes
nothing.) -/
def HashSplitter_iternext_loop : Nat → HashSplitter → Except Fault (Next × HashSplitter)
  | 0, _ => Except.error Fault.diverged
  | fuel + 1, self =>
    if ¬ (self.end_ ≥ self.start) then Except.error Fault.assertion
    else
      match iternext_fill self with
      | Except.error e => Except.error e
      | Except.ok s1 =>
        if s1.start = s1.end_ ∧ s1.fobj.isNone then
          if s1.freed then Except.error Fault.crashed
          else Except.ok (Next.stop, { s1 with freed := true })
        else if s1.freed then Except.error Fault.crashed
        else
          match iternext_scan s1 with
          | (ofs, extrabits) =>
            if ofs ≠ 0 then iternext_emit s1 ofs (extrabits / s1.fanbits)
            else if s1.end_ - s1.start ≥ s1.max_blob then iternext_emit s1 s1.max_blob 0
            else if s1.start ≠ s1.end_ ∧ s1.eof ∧ (s1.boundaries ∨ s1.fobj.isNone) then
              iternext_emit s1 (s1.end_ - s1.start) 0
            else
              match HashSplitter_realloc s1 with
              | Except.error e => Except.error e
              | Except.ok s2 => HashSplitter_iternext_loop fuel s2

/-- The function `HashSplitter_iternext`: one call of `next()`.  The bound on the rounds of
the loop grows with the number of sources the iterator still holds. -/
def HashSplitter_iternext (self : HashSplitter) : Except Fault (Next × HashSplitter) :=
  HashSplitter_iternext_loop (3 * self.files.length + 8) self

/-! ## Construction and whole runs -/

/-- A value of a C variable of type `char *`: the null pointer, a pointer to a string, or a
pointer to memory that cannot be read. -/
inductive CharPtr where
  | null
  | str (s : String)
  | wild
  deriving DecidableEq

/-- The local variable `char *mode` after `PyArg_ParseTupleAndKeywords` with the format unit
`z`.  The argument `mode` is `none` when it is left out, `some none` for `None` and
`some (some s)` for the string `s`.  The variable is declared without an initialiser, and the
parser does not write the variable of an optional argument that is left out: it then still
holds `stale`, whatever the stack held when the call began. -/
def parsed_mode (mode : Option (Option String)) (stale : CharPtr) : CharPtr :=
  match mode with
  | none => stale
  | some none => CharPtr.null
  | some (some s) => CharPtr.str s

/-- The arguments of `HashSplitter(files, bits, progress, keep_boundaries, fanbits, mode)`
as Python's argument parsing finds them; `none` stands for an argument left out, and for
`mode` the value `some none` stands for `None`.  `bits` and `fanbits` are the values
`bup_uint_from_py` converts to.  `stale_mode` is part of the environment of the call: the
value that the uninitialised local variable `mode` of `HashSplitter_init` holds when the call
begins. -/
structure InitArgs where
  files : List Source
  bits : Option Nat
  progress : Bool
  keep_boundaries : Option Bool
  fanbits : Option Nat
  mode : Option (Option String)
  stale_mode : CharPtr

/-- The function `bits_from_py_kw`. -/
def bits_from_py_kw (max_bits : Nat) (py : Option Nat) : Except PyError Nat :=
  match py with
  | none => Except.error PyError.ValueError
  | some b =>
    if b < 13 ∨ b > max_bits then Except.error PyError.ValueError
    else Except.ok b

/-- The chain `if (!mode || !strcmp(mode, "legacy")) ... else if (!strcmp(mode, "fastcdc"))
... else` of the two constructors, on the value of the local variable `mode`.
`RecordHashSplitter_init` has the `fastcdc` branch commented out (`fastcdc_known = false`).
`strcmp` reads through the pointer. -/
def select_mode (fastcdc_known : Bool) (mode : CharPtr) : Except Fault bup_splitter_mode :=
  match mode with
  | CharPtr.null => Except.ok bup_splitter_mode.SPLIT_MODE_LEGACY
  | CharPtr.str m =>
    if m = "legacy" then Except.ok bup_splitter_mode.SPLIT_MODE_LEGACY
    else if fastcdc_known = true ∧ m = "fastcdc" then
      Except.ok bup_splitter_mode.SPLIT_MODE_FASTCDC
    else Except.error (Fault.raised PyError.ValueError)
  | CharPtr.wild => Except.error Fault.crashed

/-- The function `HashSplitter_init`, for the module globals `glob` and with `heap` the
content that buffer allocations come with.  `files` and `bits` are required arguments (format
`OO|OpOz`): without `bits` the argument parsing fails with `TypeError`.
`sizeof(self->max_blob)` is 8 (LP64), and the object starts zeroed, as `PyType_GenericNew`
leaves it. -/
def HashSplitter_init (glob : Globals) (heap : Nat → Nat → Nat) (args : InitArgs) :
    Except Fault HashSplitter :=
  match args.bits with
  | none => Except.error (Fault.raised PyError.TypeError)
  | some py_bits =>
  match bits_from_py_kw glob.max_bits (some py_bits) with
  | Except.error e => Except.error (Fault.raised e)
  | Except.ok bits =>
    let fanbits := match args.fanbits with
      | none => 4
      | some n => n
    if fanbits = 0 then Except.error (Fault.raised PyError.ValueError)
    else
      match select_mode true (parsed_mode args.mode args.stale_mode) with
      | Except.error f => Except.error f
      | Except.ok m =>
        if bits ≥ log2 8 * 8 - 2 then Except.error (Fault.raised PyError.ValueError)
        else
          let self : HashSplitter :=
            { files := args.files, fobj := none, bits := bits, filenum := -1,
              max_blob := 1 <<< (bits + 2), fd := 0, mode := m,
              buf := heap 0, progress := args.progress, bufsz := glob.advise_chunk,
              eof := false, start := 0, end_ := 0,
              boundaries := match args.keep_boundaries with
                | none => true
                | some b => b,
              fanbits := fanbits, mincore := none, uncached := 0, read := 0,
              glob := glob, heap := heap, nalloc := 1, calls := [], advised := [],
              freed := false }
          match HashSplitter_nextfile self with
          | (rc, s1) =>
            if rc ≠ 0 then Except.error (Fault.raised PyError.OverflowError)
            else Except.ok s1

/-- How a sequence of `next()` calls ends: the iterator signalled its end, a call did not
return, or the calls asked for are used up. -/
inductive RunEnd where
  | stopped
  | failed (f : Fault)
  | pending
  deriving DecidableEq

/-- Up to `n` calls of `next()`: the `(chunk, level)` pairs handed out, in order, and how
the sequence ends. -/
def HashSplitter_run : Nat → HashSplitter → List (List Nat × Nat) × RunEnd
  | 0, _ => ([], RunEnd.pending)
  | n + 1, self =>
    match HashSplitter_iternext self with
    | Except.error f => ([], RunEnd.failed f)
    | Except.ok (Next.stop, _) => ([], RunEnd.stopped)
    | Except.ok (Next.chunk c level, s1) =>
      match HashSplitter_run n s1 with
      | (out, e) => ((c, level) :: out, e)

/-- Construction followed by up to `n` calls of `next()`; a failed construction shows as a
run that fails before any chunk. -/
def hashsplit (glob : Globals) (heap : Nat → Nat → Nat) (args : InitArgs) (n : Nat) :
    List (List Nat × Nat) × RunEnd :=
  match HashSplitter_init glob heap args with
  | Except.error f => ([], RunEnd.failed f)
  | Except.ok self => HashSplitter_run n self

/-- The fault a call ends with, if it ends with one. -/
def fault_of {α : Type} (r : Except Fault α) : Option Fault :=
  match r with
  | Except.error f => some f
  | Except.ok _ => none

/-! ## Reference chunking, as the specification words it -/

/-- Specification, section 4.2: the number of trailing one bits of `v`, a 32-bit value. -/
def spec_trailing_ones : Nat → Nat → Nat
  | 0, _ => 0
  | fuel + 1, v => if v % 2 = 1 then spec_trailing_ones fuel (v / 2) + 1 else 0

/-- Specification, sections 3 and 4.2: feed the bytes from index `pos` on into the rolling
state `(s1, s2)`, with `drop = 0` for the first `W` bytes and `drop = bytes[pos - W]` after,
and stop at the first offset at which the low `nbits` bits of the digest are all one. -/
def spec_find_legacy_from (nbits : Nat) (bytes : List Nat) : Nat → Nat → Nat → Nat → Nat × Nat
  | 0, _, _, _ => (0, 0)
  | fuel + 1, pos, s1, s2 =>
    if pos < bytes.length then
      let add := bytes.getD pos 0 % 256
      let drop := if pos < 64 then 0 else bytes.getD (pos - 64) 0 % 256
      let s1a := (s1 + add + (U32 - drop)) % U32
      let s2a := (s2 + s1a + (U32 - 64 * (drop + 31))) % U32
      let d := (s1a * 65536 + s2a % 65536) % U32
      if d % 2 ^ nbits = 2 ^ nbits - 1 then
        (pos + 1, spec_trailing_ones 32 (d / 2 ^ nbits / 2))
      else spec_find_legacy_from nbits bytes fuel (pos + 1) s1a s2a
    else (0, 0)

/-- Specification, section 4.2: `find_legacy(nbits, buf[0..len])`, the smallest offset in
`[1, len]` at which the digest of a freshly initialised rolling state has its low `nbits`
bits all one, with the extra bits there; offset 0 when there is none. -/
def spec_find_legacy (nbits : Nat) (bytes : List Nat) : Nat × Nat :=
  spec_find_legacy_from nbits bytes bytes.length 0 (64 * 31) (64 * 63 * 31)

/-- The reference chunking of a byte string: apply `find_legacy` to the remaining bytes,
at most `max_blob` of them; cut at the offset it returns, with level
`extrabits / fanbits`, or else at `min(remaining, max_blob)` with level 0; repeat. -/
def reference_chunking (nbits fanbits max_blob : Nat) : Nat → List Nat → List (List Nat × Nat)
  | 0, _ => []
  | fuel + 1, rest =>
    if rest = [] then []
    else
      match spec_find_legacy nbits (rest.take max_blob) with
      | (ofs, extrabits) =>
        let cut := if ofs ≠ 0 then ofs else min rest.length max_blob
        let level := if ofs ≠ 0 then extrabits / fanbits else 0
        (rest.take cut, level) :: reference_chunking nbits fanbits max_blob fuel (rest.drop cut)

/-! ## FastCDC scan, as the specification words it -/

/-- Specification, section 4.3: the effective hit mask
`mask_c = mask_j | (tmask_c - tmask_j)`. -/
def fastcdc_mask_c (nbits : Nat) : Nat :=
  fastcdc_mask_j nbits ||| (tmask_c - tmask_j)

/-- Specification, section 4.3: the `k`-th index the scan visits and the gear fingerprint
there.  The scan starts at `min_size = 1 << (nbits - 2)` with `fp = 0` and feeds each byte it
visits, `fp = (fp << 1) + GEAR_TABLE[buf[i]]` modulo `2 ^ 64`; after an index at which only
`mask_j` matches, `i` is advanced by `jump_length` on top of the step to the next byte. -/
def fastcdc_visit (nbits : Nat) (buf : Nat → Nat) : Nat → Nat × Nat
  | 0 =>
    let i := 1 <<< (nbits - 2)
    (i, ((0 <<< 1) + GEAR_TABLE.getD (buf i % 256) 0) % U64)
  | k + 1 =>
    match fastcdc_visit nbits buf k with
    | (i, fp) =>
      let i1 := if fp &&& fastcdc_mask_j nbits = 0 then i + jump_length + 1 else i + 1
      (i1, ((fp <<< 1) + GEAR_TABLE.getD (buf i1 % 256) 0) % U64)

/-! ## Fixtures -/

/-- The module globals on a platform with 4096-byte pages. -/
def glob4k : Globals :=
  { page_size := 4096, fmincore_chunk_size := 67108864, advise_chunk := 8388608,
    max_bits := 21 }

/-- Buffer allocations that come zero-filled, as fresh pages from the kernel do. -/
def zero_heap : Nat → Nat → Nat := fun _ _ => 0

/-- Buffer allocations that come filled with the byte `0xff`. -/
def ff_heap : Nat → Nat → Nat := fun _ _ => 255

/-- Buffer allocations that come filled with the byte `0x01`. -/
def one_heap : Nat → Nat → Nat := fun _ _ => 1

/-- A source without descriptor that delivers `data` in full reads. -/
def plain_source (data : List Nat) : Source :=
  { data := data, sizes := [], fd := none, mincore := none }

/-- Arguments `HashSplitter(files, bits=13, keep_boundaries=kb, mode=mode)`. -/
def args13 (files : List (List Nat)) (kb : Bool) (mode : String) : InitArgs :=
  { files := files.map plain_source, bits := some 13, progress := false,
    keep_boundaries := some kb, fanbits := none, mode := some (some mode),
    stale_mode := CharPtr.null }

/-- Arguments `HashSplitter(files, bits=13)` with everything else left out, in a call whose
uninitialised local variable `mode` holds `stale`. -/
def args_no_mode (files : List (List Nat)) (stale : CharPtr) : InitArgs :=
  { files := files.map plain_source, bits := some 13, progress := false,
    keep_boundaries := none, fanbits := none, mode := none, stale_mode := stale }

/-- A source of 100 bytes in which the legacy scanner, for 13 bits, finds its first split
at offset 98, so that two live bytes, 94 and 1, stay behind. -/
def source100 : List Nat :=
  List.replicate 34 0 ++ [94, 1] ++ List.replicate 62 0 ++ [94, 1]

/-- A buffer on which, for 13 bits, the second visit of the FastCDC scan is a hit. -/
def fastcdc_sample : Nat → Nat :=
  fun i => if i = 2048 then 6 else if i = 2049 then 224 else 0

/-- The object that construction yields for one source holding the bytes 94, 1, with
`bits = 13`, legacy mode, and buffers that come filled with `0xff`. -/
def sample_object : HashSplitter :=
  { files := [], fobj := some (plain_source [94, 1]), bits := 13, filenum := 0,
    max_blob := 32768, fd := -1, mode := bup_splitter_mode.SPLIT_MODE_LEGACY,
    buf := ff_heap 0, progress := false, bufsz := 8388608, eof := false, start := 0,
    end_ := 0, boundaries := true, fanbits := 4, mincore := none, uncached := 0, read := 0,
    glob := glob4k, heap := ff_heap, nalloc := 1, calls := [], advised := [],
    freed := false }

/-- The object `sample_object` after its first `next()`. -/
def sample_after : HashSplitter :=
  match HashSplitter_iternext sample_object with
  | Except.ok (_, s) => s
  | Except.error _ => sample_object

/-- The object that construction yields for one source holding the bytes 1, 2, 3, with
`bits = 13`, FastCDC mode, and zero-filled buffers. -/
def short_object : HashSplitter :=
  { files := [], fobj := some (plain_source [1, 2, 3]), bits := 13, filenum := 0,
    max_blob := 32768, fd := -1, mode := bup_splitter_mode.SPLIT_MODE_FASTCDC,
    buf := zero_heap 0, progress := false, bufsz := 8388608, eof := false, start := 0,
    end_ := 0, boundaries := true, fanbits := 4, mincore := none, uncached := 0, read := 0,
    glob := glob4k, heap := zero_heap, nalloc := 1, calls := [], advised := [],
    freed := false }

/-- The object `short_object` after its first `next()`. -/
def short_after : HashSplitter :=
  match HashSplitter_iternext short_object with
  | Except.ok (_, s) => s
  | Except.error _ => short_object

/-! ## Predicates on the splitter object -/

/-- The fields that construction fixes are the same in both objects. -/
def SameCfg (s t : HashSplitter) : Prop :=
  t.bits = s.bits ∧ t.max_blob = s.max_blob ∧ t.bufsz = s.bufsz ∧ t.mode = s.mode ∧
  t.fanbits = s.fanbits ∧ t.boundaries = s.boundaries ∧ t.glob = s.glob ∧ t.heap = s.heap ∧
  t.progress = s.progress

/-- The buffer invariant `start <= end <= bufsz`. -/
def BufInv (s : HashSplitter) : Prop :=
  s.start ≤ s.end_ ∧ s.end_ ≤ s.bufsz

/-- What construction guarantees about the fixed fields: `bits` lies in `[13, 21]`,
`max_blob = 1 << (bits + 2)` does not exceed the buffer size, and `fanbits` is positive. -/
def CfgOk (s : HashSplitter) : Prop :=
  13 ≤ s.bits ∧ s.bits ≤ 21 ∧ s.max_blob = 2 ^ (s.bits + 2) ∧ s.max_blob ≤ s.bufsz ∧
  0 < s.fanbits

/-- The object after `n` calls of `next()` that each handed out a chunk. -/
def HashSplitter_after : Nat → HashSplitter → Option HashSplitter
  | 0, s => some s
  | n + 1, s =>
    match HashSplitter_iternext s with
    | Except.ok (Next.chunk _ _, s1) => HashSplitter_after n s1
    | _ => none

/-! ## Record hashsplitter -/

/-- The C structure `RecordHashSplitter`. -/
structure RecordHashSplitter where
  r : Rollsum
  bits : Nat
  split_size : Nat
  max_split_size : Nat
  mode : bup_splitter_mode

/-- The function `RecordHashSplitter_init`, from the keyword arguments `bits` and `mode` as
Python's argument parsing finds them (format `|$Oz`, both optional: `none` stands for an
argument left out, and for `mode` the value `some none` for `None`) and from `stale`, the
value that the uninitialised local variable `mode` holds when the call begins.
`sizeof(self->max_split_size)` is 8 (LP64). -/
def RecordHashSplitter_init (glob : Globals) (bits : Option Nat)
    (mode : Option (Option String)) (stale : CharPtr) : Except Fault RecordHashSplitter :=
  match bits_from_py_kw glob.max_bits bits with
  | Except.error e => Except.error (Fault.raised e)
  | Except.ok b =>
    match select_mode false (parsed_mode mode stale) with
    | Except.error f => Except.error f
    | Except.ok m =>
      if b ≥ log2 8 * 8 - 2 then Except.error (Fault.raised PyError.ValueError)
      else Except.ok
        { r := rollsum_init, bits := b, split_size := 0, max_split_size := 1 <<< (b + 2),
          mode := m }

/-- The function `reset_recordsplitter`. -/
def reset_recordsplitter (splitter : RecordHashSplitter) : RecordHashSplitter :=
  { splitter with r := rollsum_init, split_size := 0 }

/-- The function `RecordHashSplitter_feed` on the record `buf`.  Returns the Python tuple
`(split, bits)`, with `none` for `None`, and the object afterwards.  The largest value of
`unsigned long` is that of `size_t` (LP64). -/
def RecordHashSplitter_feed (self : RecordHashSplitter) (buf : List Nat) :
    Except Fault ((Bool × Option Nat) × RecordHashSplitter) :=
  match HashSplitter_roll self.r self.bits buf 0 with
  | (out, extrabits, r1) =>
    let s1 := { self with r := r1 }
    if extrabits + s1.bits > SIZE_MAX then Except.error (Fault.raised PyError.OverflowError)
    else
      let bits := extrabits + s1.bits
      let s2 := if out ≠ 0 then reset_recordsplitter s1 else s1
      if s2.split_size + buf.length > SIZE_MAX then
        Except.error (Fault.raised PyError.OverflowError)
      else
        let s3 := { s2 with split_size := s2.split_size + buf.length }
        let force_split := decide (s3.split_size > s3.max_split_size)
        let s4 := if force_split = true then reset_recordsplitter s3 else s3
        Except.ok ((decide (out ≠ 0) || force_split, if out ≠ 0 then some bits else none), s4)

/-- The object after the records have been fed one after the other, provided every feed
returned `(False, None)`. -/
def RecordHashSplitter_feeds : RecordHashSplitter → List (List Nat) → Option RecordHashSplitter
  | self, [] => some self
  | self, rec :: rest =>
    match RecordHashSplitter_feed self rec with
    | Except.ok ((false, none), s1) => RecordHashSplitter_feeds s1 rest
    | _ => none

/-- The object after the records have been fed one after the other, whatever the feeds
returned, provided each of them returned normally. -/
def RecordHashSplitter_feed_all :
    RecordHashSplitter → List (List Nat) → Option RecordHashSplitter
  | self, [] => some self
  | self, rec :: rest =>
    match RecordHashSplitter_feed self rec with
    | Except.ok (_, s1) => RecordHashSplitter_feed_all s1 rest
    | Except.error _ => none

/-- A record splitter as construction leaves it for `bits = 13`. -/
def sample_recordsplitter : RecordHashSplitter :=
  { r := rollsum_init, bits := 13, split_size := 0, max_split_size := 32768,
    mode := bup_splitter_mode.SPLIT_MODE_LEGACY }

/-- A record of 64 bytes whose last byte completes a split for 13 bits. -/
def sample_record : List Nat := [94, 1] ++ List.replicate 62 0

/-- The object `sample_recordsplitter` after the records `sample_record` and `[1, 2, 3]`. -/
def sample_fed : RecordHashSplitter :=
  match RecordHashSplitter_feed_all sample_recordsplitter [sample_record, [1, 2, 3]] with
  | some s => s
  | none => sample_recordsplitter


/-- The object `sample_recordsplitter` after the records `[94]` and `[1, 0]`, neither of
which gives a split. -/
def sample_prefix_fed : RecordHashSplitter :=
  match RecordHashSplitter_feeds sample_recordsplitter [[94], [1, 0]] with
  | some s => s
  | none => sample_recordsplitter

/-! ## Reference sequence of checksum states -/

/-- The accumulators `(s1, s2)` of the rolling checksum after the bytes `mem[0 .. i)` have
entered a fresh window one after the other: byte `mem[i]` enters and, from the 65th byte
on, byte `mem[i - 64]` leaves. -/
def rolled_state (mem : Nat → Nat) : Nat → Nat × Nat
  | 0 => (BUP_WINDOWSIZE * ROLLSUM_CHAR_OFFSET,
      BUP_WINDOWSIZE * (BUP_WINDOWSIZE - 1) * ROLLSUM_CHAR_OFFSET)
  | i + 1 =>
    let drop := if i < BUP_WINDOWSIZE then 0 else mem (i - BUP_WINDOWSIZE)
    let s1 := legacy_s1 (rolled_state mem i).1 (mem i) drop
    (s1, legacy_s2 (rolled_state mem i).2 s1 drop)

/-- The digest of the rolling checksum after the bytes `mem[0 .. i)`. -/
def rolled_digest (mem : Nat → Nat) (i : Nat) : Nat :=
  legacy_digest (rolled_state mem i).1 (rolled_state mem i).2

/-- Whether offset `o` of `mem` is a split point for `nbits`: the digest after `o` bytes has
its `nbits` low bits set. -/
def split_at (nbits : Nat) (mem : Nat → Nat) (o : Nat) : Bool :=
  (split_found (rolled_digest mem o) nbits 0).1

/-- The rollsum `r` is the one that has taken in the bytes `mem[0 .. k)` from a fresh state:
its accumulators are those of `rolled_state`, its ring offset is `k mod 64`, and its ring
holds, in the slot of each of the next 64 positions, the byte that leaves there. -/
def RollInv (mem : Nat → Nat) (k : Nat) (r : Rollsum) : Prop :=
  rolled_state mem k = (r.s1, r.s2) ∧ r.wofs = k % 64 ∧
  ∀ m, k ≤ m → m < k + 64 →
    r.window (m % 64) % 256 = (if m < 64 then 0 else mem (m - 64)) % 256

/-- The byte at position `k` of the stream that `mem` continues after 64 zero bytes, the
content of the window before any byte has entered; bytes are taken modulo 256. -/
def padded_byte (mem : Nat → Nat) (k : Nat) : Nat :=
  if k < 64 then 0 else mem (k - 64) % 256

/-! ## Runs of pages for the page-cache advice -/

/-- The test `mincore[pgstart + k] & HASHSPLITTER_MINCORE_INCORE` of `HashSplitter_uncache`:
page `k` of the walked range was in core. -/
def page_incore (mincore : Nat → Nat) (pgstart k : Nat) : Prop :=
  mincore (pgstart + k) % 2 = 1

/-- The range `x = (offset, length)` covers exactly the pages `a .. b - 1` of the walked
range, counted from the byte `start0`; none of them was in core, and the page before them,
if there is one, was. -/
def IsRun (ps : Nat) (mincore : Nat → Nat) (pgstart start0 : Nat) (a b : Nat)
    (x : Nat × Nat) : Prop :=
  a < b ∧ x = (start0 + a * ps, (b - a) * ps) ∧
  (∀ k, a ≤ k → k < b → ¬ page_incore mincore pgstart k) ∧
  (a = 0 ∨ page_incore mincore pgstart (a - 1))

/-- State of the loop of `HashSplitter_uncache` before page `i`: the run that is open starts
at page `a`, and `adv` holds the runs closed so far, each ended by a page in core, in
increasing order. -/
def RunsInv (ps : Nat) (mincore : Nat → Nat) (pgstart start0 : Nat) (i start len : Nat)
    (adv : List (Nat × Nat)) (a : Nat) : Prop :=
  a ≤ i ∧ start = start0 + a * ps ∧ len = (i - a) * ps ∧
  (∀ k, a ≤ k → k < i → ¬ page_incore mincore pgstart k) ∧
  (a = 0 ∨ page_incore mincore pgstart (a - 1)) ∧
  (∀ x ∈ adv, ∃ a' b', b' < a ∧ IsRun ps mincore pgstart start0 a' b' x ∧
    page_incore mincore pgstart b') ∧
  (∀ k, k < a → ¬ page_incore mincore pgstart k →
    ∃ x ∈ adv, x.1 ≤ start0 + k * ps ∧ start0 + (k + 1) * ps ≤ x.1 + x.2) ∧
  adv.Pairwise (fun x y => x.1 + x.2 < y.1) ∧
  (∀ x ∈ adv, x.1 + x.2 < start0 + a * ps)

/-- The number of pages a call of `HashSplitter_uncache` walks: the bytes read and not yet
advised, rounded down to a multiple of `advise_chunk` unless `last` is set, in whole pages. -/
def uncache_pages (self : HashSplitter) (last : Bool) : Nat :=
  (if ¬ last then (self.read - self.uncached) / self.glob.advise_chunk * self.glob.advise_chunk
    else self.read - self.uncached) / self.glob.page_size

/-- An object in the middle of a file of five pages of 4096 bytes, all read and none advised
yet; pages 1 and 4 were in core before the read. -/
def sample_cached : HashSplitter :=
  { sample_object with
    fd := 3
    mincore := some (fun k => if k = 1 ∨ k = 4 then 1 else 0)
    read := 20480 }

/-- A file holding `data`, open on descriptor 3, none of whose pages was in core. -/
def fd_file (data : List Nat) : Source :=
  { data := data, sizes := [], fd := some 3, mincore := some (fun _ => 0) }

/-- The object that construction yields for the one source `fd_file data`, with `bits = 13`,
legacy mode, and zero-filled buffers, on a platform with 4096-byte pages. -/
def fd_object (data : List Nat) : HashSplitter :=
  { files := [], fobj := some (fd_file data), bits := 13, filenum := 0, max_blob := 32768,
    fd := 3, mode := bup_splitter_mode.SPLIT_MODE_LEGACY, buf := zero_heap 0,
    progress := false, bufsz := 8388608, eof := false, start := 0, end_ := 0,
    boundaries := true, fanbits := 4, mincore := some (fun _ => 0), uncached := 0, read := 0,
    glob := glob4k, heap := zero_heap, nalloc := 1, calls := [], advised := [],
    freed := false }

/-- Arguments `HashSplitter([f], bits=13, keep_boundaries=True, mode="legacy")` for the one
source `fd_file data`. -/
def fd_args (data : List Nat) : InitArgs :=
  { files := [fd_file data], bits := some 13, progress := false,
    keep_boundaries := some true, fanbits := none, mode := some (some "legacy"),
    stale_mode := CharPtr.null }

/-! ## Measure for the loop of `next()` -/

/-- How far a round of the loop of `HashSplitter_iternext` is from a return, given the sources
still to come: 0 without a current source; 4 with a full buffer; 1 when the round opens the
next source; 2 and 3 when it reads on from the current source, with the live bytes at the
buffer start or not. -/
def loop_rank (s : HashSplitter) : Nat :=
  if s.fobj.isNone = true then 0
  else if s.bufsz ≤ s.end_ then 4
  else if s.eof = true ∧ (¬ s.boundaries = true ∨ s.start = s.end_) then 1
  else if s.start = 0 then 2
  else 3

/-- The measure that every round of the loop of `HashSplitter_iternext` that does not return
makes smaller. -/
def loop_measure (s : HashSplitter) : Nat :=
  3 * s.files.length + loop_rank s

/-- What holds of the object between rounds of the loop, as long as the end has not been
signalled: `0 < max_blob <= bufsz`, `start <= end <= bufsz`, without a current source the
last read hit the end of file or no byte is live, with a current source the file counter has
room for the sources still to come, and the buffer exists. -/
def LoopInv (s : HashSplitter) : Prop :=
  0 < s.max_blob ∧ s.max_blob ≤ s.bufsz ∧ s.start ≤ s.end_ ∧ s.end_ ≤ s.bufsz ∧
  (s.fobj = none → s.eof = true ∨ s.start = s.end_) ∧
  (s.fobj.isSome = true → s.filenum + (s.files.length : Int) < LONG_MAX) ∧
  s.freed = false
/-! ## Properties -/

theorem count_ones_loop_spec (fuel : Nat) : ∀ (v acc : Nat), v < 2 ^ fuel →
    acc ≤ count_ones_loop fuel v acc ∧
    (∀ j, j < count_ones_loop fuel v acc - acc → v.testBit j = true) ∧
    v.testBit (count_ones_loop fuel v acc - acc) = false := by
  induction fuel with
  | zero =>
    intro v acc hv
    have : v = 0 := by simpa using hv
    subst this
    simp [count_ones_loop]
  | succ n ih =>
    intro v acc hv
    unfold count_ones_loop
    rw [Nat.and_one_is_mod, Nat.shiftRight_eq_div_pow, pow_one]
    by_cases h : v % 2 = 1
    · have hv2 : v / 2 < 2 ^ n := by
        rw [pow_succ] at hv; omega
      obtain ⟨h1, h2, h3⟩ := ih (v / 2) (acc + 1) hv2
      have hne : v % 2 ≠ 0 := by omega
      simp only [hne, ne_eq, not_false_eq_true, if_true]
      refine ⟨by omega, ?_, ?_⟩
      · intro j hj
        cases j with
        | zero => simp [Nat.testBit_zero, h]
        | succ k =>
          rw [Nat.testBit_succ]
          exact h2 k (by omega)
      · have : count_ones_loop n (v / 2) (acc + 1) - acc
            = (count_ones_loop n (v / 2) (acc + 1) - (acc + 1)) + 1 := by omega
        rw [this, Nat.testBit_succ]
        exact h3
    · have he : v % 2 = 0 := by omega
      simp [he, Nat.testBit_zero]

theorem ctz_complement (fuel : Nat) : ∀ (v acc : Nat), v < 2 ^ fuel →
    builtin_ctz_loop fuel (2 ^ fuel - 1 - v) acc = count_ones_loop fuel v acc := by
  induction fuel with
  | zero => intro v acc _; simp [builtin_ctz_loop, count_ones_loop]
  | succ n ih =>
    intro v acc hv
    unfold builtin_ctz_loop count_ones_loop
    rw [Nat.and_one_is_mod, Nat.shiftRight_eq_div_pow, pow_one]
    have hp : 2 ^ (n + 1) = 2 * 2 ^ n := by rw [pow_succ]; ring
    have hpos : 0 < 2 ^ n := Nat.pos_pow_of_pos _ (by norm_num)
    by_cases h : v % 2 = 1
    · have e1 : (2 ^ (n + 1) - 1 - v) % 2 = 0 := by omega
      have e2 : (2 ^ (n + 1) - 1 - v) / 2 = 2 ^ n - 1 - v / 2 := by omega
      have hne : v % 2 ≠ 0 := by omega
      simp only [e1, e2, hne, ne_eq, not_false_eq_true, if_true]
      exact ih (v / 2) (acc + 1) (by omega)
    · have e1 : (2 ^ (n + 1) - 1 - v) % 2 ≠ 0 := by omega
      have he : v % 2 = 0 := by omega
      simp [e1, he]


theorem hashsplit_init_ok (p e : Int) (g : Globals) (hg : hashsplit_init p e = Except.ok g) :
    g.max_bits = 21 ∧ 8388608 ≤ g.advise_chunk ∧ 0 < g.page_size ∧
    g.advise_chunk = max 8388608 g.page_size := by
  unfold hashsplit_init at hg
  have h21 : log2 (8 * 1024 * 1024) - 2 = 21 := by decide
  dsimp only at hg
  rw [h21] at hg
  split_ifs at hg with h1 h2 h3 h4 h5 h6 h7 <;>
    (simp only [Except.ok.injEq] at hg
     subst hg
     have hp : 0 < p.toNat := by omega
     refine ⟨rfl, ?_, hp, ?_⟩ <;> dsimp only <;> omega)

theorem trailing_ones_le (v k e : Nat) (hv : v < 2 ^ k)
    (h : ∀ j, j < e → v.testBit j = true) : e ≤ k := by
  by_contra hc
  have h1 := h k (by omega)
  rw [Nat.testBit_lt_two_pow hv] at h1
  exact Bool.noConfusion h1

theorem shifted_lt (d nbits : Nat) (hd : d < U32) (hn : nbits ≤ 31) :
    d >>> nbits >>> 1 < 2 ^ (31 - nbits) := by
  rw [Nat.shiftRight_eq_div_pow, Nat.shiftRight_eq_div_pow, Nat.div_div_eq_div_mul,
    Nat.div_lt_iff_lt_mul (by positivity)]
  have : 2 ^ (31 - nbits) * (2 ^ nbits * 2 ^ 1) = U32 := by
    rw [← pow_add, ← pow_add]
    have : 31 - nbits + (nbits + 1) = 32 := by omega
    rw [this]; rfl
  omega

theorem legacy_digest_lt (s1 s2 : Nat) : legacy_digest s1 s2 < U32 := by
  unfold legacy_digest
  have h1 : (s1 <<< 16) % U32 < 2 ^ 32 := Nat.mod_lt _ (by decide)
  have h2 : s2 &&& 0xffff < 2 ^ 32 := lt_of_le_of_lt Nat.and_le_right (by decide)
  exact Nat.or_lt_two_pow h1 h2

/-- Count of the loop on a shifted 32-bit value: it is the amount of trailing ones. -/
theorem count_ones_shifted (d nbits : Nat) (hd : d < U32) (hn : nbits ≤ 31) :
    (∀ j, j < count_ones_loop 32 (d >>> nbits >>> 1) 0 → d.testBit (nbits + 1 + j) = true) ∧
    d.testBit (nbits + 1 + count_ones_loop 32 (d >>> nbits >>> 1) 0) = false ∧
    count_ones_loop 32 (d >>> nbits >>> 1) 0 ≤ 32 - nbits - 1 := by
  have hv := shifted_lt d nbits hd hn
  have hv32 : d >>> nbits >>> 1 < 2 ^ 32 :=
    lt_of_lt_of_le hv (Nat.pow_le_pow_right (by norm_num) (by omega))
  obtain ⟨_, h2, h3⟩ := count_ones_loop_spec 32 (d >>> nbits >>> 1) 0 hv32
  simp only [Nat.sub_zero] at h2 h3
  have hb : ∀ j, (d >>> nbits >>> 1).testBit j = d.testBit (nbits + 1 + j) := by
    intro j
    rw [Nat.testBit_shiftRight, Nat.testBit_shiftRight]
    congr 1; omega
  refine ⟨fun j hj => by rw [← hb]; exact h2 j hj, by rw [← hb]; exact h3, ?_⟩
  have := trailing_ones_le _ _ _ hv h2
  omega

theorem split_found_variants (d nbits e0 : Nat) (hd : d < U32) :
    split_found_loop d nbits e0 = split_found d nbits e0 := by
  unfold split_found_loop split_found
  simp only
  split_ifs with h
  · have hv : d >>> nbits >>> 1 < 2 ^ 32 := by
      rw [Nat.shiftRight_eq_div_pow, Nat.shiftRight_eq_div_pow]
      exact lt_of_le_of_lt (le_trans (Nat.div_le_self _ _) (Nat.div_le_self _ _)) hd
    have := ctz_complement 32 (d >>> nbits >>> 1) 0 hv
    unfold builtin_ctz
    have e : U32 - 1 = 2 ^ 32 - 1 := by decide
    rw [e, this]
  · rfl

theorem roll_loop_extrabits (nbits m2 m1 : Nat) (hn : nbits ≤ 31) :
    ∀ (buf : List Nat) (count : Nat) (r : Rollsum) (e0 : Nat),
    (roll_loop nbits m2 m1 buf count r e0).1 ≠ 0 →
    (∀ j, j < (roll_loop nbits m2 m1 buf count r e0).2.1 →
      (rollsum_digest (roll_loop nbits m2 m1 buf count r e0).2.2).testBit (nbits + 1 + j)
        = true) ∧
    (rollsum_digest (roll_loop nbits m2 m1 buf count r e0).2.2).testBit
      (nbits + 1 + (roll_loop nbits m2 m1 buf count r e0).2.1) = false ∧
    (roll_loop nbits m2 m1 buf count r e0).2.1 ≤ 32 - nbits - 1 := by
  intro buf
  induction buf with
  | nil => intro count r e0 h; simp [roll_loop] at h
  | cons b rest ih =>
    intro count r e0 h
    unfold roll_loop at h ⊢
    simp only at h ⊢
    split_ifs at h ⊢ with hc
    · exact count_ones_shifted _ nbits (legacy_digest_lt _ _) hn
    · exact ih _ _ _ h


theorem popcount_loop_mono (n : Nat) : ∀ (a b : Nat),
    (∀ i, i < n → a.testBit i = true → b.testBit i = true) →
    builtin_popcountll_loop n a ≤ builtin_popcountll_loop n b := by
  induction n with
  | zero => intro a b _; simp [builtin_popcountll_loop]
  | succ n ih =>
    intro a b h
    unfold builtin_popcountll_loop
    have h0 := h 0 (by omega)
    simp only [Nat.testBit_zero, decide_eq_true_eq] at h0
    have hrec := ih (a / 2) (b / 2) (fun i hi hb => by
      have := h (i + 1) (by omega)
      rw [Nat.testBit_succ, Nat.testBit_succ] at this
      exact this hb)
    have ha : a % 2 = 0 ∨ a % 2 = 1 := by omega
    rcases ha with ha | ha
    · omega
    · have := h0 ha; omega

theorem popcount_loop_le (n : Nat) : ∀ a, builtin_popcountll_loop n a ≤ n := by
  induction n with
  | zero => intro a; simp [builtin_popcountll_loop]
  | succ n ih =>
    intro a
    unfold builtin_popcountll_loop
    have := ih (a / 2)
    have : a % 2 < 2 := Nat.mod_lt _ (by norm_num)
    omega

theorem popcount_complement_ge (fp : Nat) :
    43 ≤ builtin_popcountll (U64 - 1 - (fp &&& tmask_c)) ∧
    builtin_popcountll (U64 - 1 - (fp &&& tmask_c)) ≤ 64 := by
  refine ⟨?_, popcount_loop_le 64 _⟩
  have h43 : builtin_popcountll_loop 64 (U64 - 1 - tmask_c) = 43 := by decide
  unfold builtin_popcountll
  rw [← h43]
  apply popcount_loop_mono
  intro i hi hb
  have hy : fp &&& tmask_c < 2 ^ 64 :=
    lt_of_le_of_lt Nat.and_le_right (by decide)
  have ht : tmask_c < 2 ^ 64 := by decide
  have e1 : U64 - 1 - (fp &&& tmask_c) = 2 ^ 64 - ((fp &&& tmask_c) + 1) := by
    have : U64 = 2 ^ 64 := by decide
    omega
  have e2 : U64 - 1 - tmask_c = 2 ^ 64 - (tmask_c + 1) := by
    have : U64 = 2 ^ 64 := by decide
    omega
  rw [e1, Nat.testBit_two_pow_sub_succ hy]
  rw [e2, Nat.testBit_two_pow_sub_succ ht] at hb
  simp only [Nat.testBit_and, Bool.and_eq_true, decide_eq_true_eq, Bool.not_eq_true',
    Bool.and_eq_false_imp] at hb ⊢
  exact ⟨hi, fun _ => hb.2⟩

theorem fastcdc_extrabits_exact (fp nbits : Nat) (hn : nbits ≤ 21) :
    (builtin_popcountll (U64 - 1 - (fp &&& tmask_c)) + (U32 - nbits % U32)) % U32
      = builtin_popcountll (U64 - 1 - (fp &&& tmask_c)) - nbits := by
  obtain ⟨h1, h2⟩ := popcount_complement_ge fp
  have hU : U32 = 4294967296 := rfl
  rw [hU] at *
  have hm : nbits % 4294967296 = nbits := Nat.mod_eq_of_lt (by omega)
  rw [hm]
  have : builtin_popcountll (U64 - 1 - (fp &&& tmask_c)) + (4294967296 - nbits)
      = (builtin_popcountll (U64 - 1 - (fp &&& tmask_c)) - nbits) + 4294967296 := by omega
  rw [this, Nat.add_mod_right]
  exact Nat.mod_eq_of_lt (by omega)

theorem mask_c_test (nbits fp : Nat) :
    fp &&& fastcdc_mask_c nbits = 0 ↔
      (fp &&& fastcdc_mask_j nbits = 0 ∧ fp &&& (tmask_c - tmask_j) = 0) := by
  unfold fastcdc_mask_c
  rw [Nat.and_or_distrib_left]
  constructor
  · intro h
    constructor
    · apply Nat.eq_of_testBit_eq
      intro i
      have := congrArg (fun x => Nat.testBit x i) h
      simp only [Nat.testBit_or, Nat.zero_testBit, Bool.or_eq_false_iff] at this
      simpa using this.1
    · apply Nat.eq_of_testBit_eq
      intro i
      have := congrArg (fun x => Nat.testBit x i) h
      simp only [Nat.testBit_or, Nat.zero_testBit, Bool.or_eq_false_iff] at this
      simpa using this.2
  · rintro ⟨h1, h2⟩
    rw [h1, h2]
    rfl


/-- A visited index is a hit when the fingerprint there has no bit of `mask_c`. -/
theorem fastcdc_loop_first_hit (nbits : Nat) (buf : Nat → Nat) (len e0 : Nat)
    (hn : nbits ≤ 21) (fuel : Nat) : ∀ (k i fp : Nat),
    (fastcdc_visit nbits buf k).1 = i →
    (fastcdc_visit nbits buf k).2 = ((fp <<< 1) + GEAR_TABLE.getD (buf i % 256) 0) % U64 →
    (∀ j, j < k → (fastcdc_visit nbits buf j).2 &&& fastcdc_mask_c nbits ≠ 0) →
    1 <<< (nbits - 2) ≤ i →
    (fastcdc_loop nbits buf len (fastcdc_mask_j nbits) fuel i fp e0).1 = 0 ∨
    ∃ k1, (fastcdc_visit nbits buf k1).1
          = (fastcdc_loop nbits buf len (fastcdc_mask_j nbits) fuel i fp e0).1 ∧
      1 <<< (nbits - 2) ≤ (fastcdc_loop nbits buf len (fastcdc_mask_j nbits) fuel i fp e0).1 ∧
      (fastcdc_loop nbits buf len (fastcdc_mask_j nbits) fuel i fp e0).1 < len ∧
      (fastcdc_visit nbits buf k1).2 &&& fastcdc_mask_c nbits = 0 ∧
      (fastcdc_loop nbits buf len (fastcdc_mask_j nbits) fuel i fp e0).2
        = builtin_popcountll (U64 - 1 - ((fastcdc_visit nbits buf k1).2 &&& tmask_c)) - nbits ∧
      (∀ j, j < k1 → (fastcdc_visit nbits buf j).2 &&& fastcdc_mask_c nbits ≠ 0) := by
  induction fuel with
  | zero => intro k i fp _ _ _ _; left; rfl
  | succ f ih =>
    intro k i fp hi hfp hprev hmin
    unfold fastcdc_loop
    simp only
    by_cases hlt : i < len
    · rw [if_pos hlt]
      by_cases hj : ((fp <<< 1) + GEAR_TABLE.getD (buf i % 256) 0) % U64
          &&& fastcdc_mask_j nbits = 0
      · rw [if_pos hj]
        by_cases hc : ((fp <<< 1) + GEAR_TABLE.getD (buf i % 256) 0) % U64
            &&& (tmask_c - tmask_j) = 0
        · rw [if_pos hc]
          right
          refine ⟨k, hi, hmin, hlt, ?_, ?_, hprev⟩
          · rw [hfp, mask_c_test]; exact ⟨hj, hc⟩
          · rw [hfp]; exact fastcdc_extrabits_exact _ _ hn
        · rw [if_neg hc]
          by_cases hjump : i + jump_length > len
          · rw [if_pos hjump]; left; rfl
          · rw [if_neg hjump]
            have hv : fastcdc_visit nbits buf (k + 1)
                = (i + jump_length + 1,
                   ((((fp <<< 1) + GEAR_TABLE.getD (buf i % 256) 0) % U64) <<< 1
                     + GEAR_TABLE.getD (buf (i + jump_length + 1) % 256) 0) % U64) := by
              rw [fastcdc_visit]
              have e : fastcdc_visit nbits buf k
                  = (i, ((fp <<< 1) + GEAR_TABLE.getD (buf i % 256) 0) % U64) :=
                Prod.ext hi hfp
              rw [e]
              simp only [hj, if_true]
            apply ih (k + 1)
            · rw [hv]
            · rw [hv]
            · intro j hjk
              rcases Nat.lt_succ_iff_lt_or_eq.mp hjk with h | h
              · exact hprev j h
              · subst h
                rw [hfp]
                intro hz
                exact hc ((mask_c_test _ _).mp hz).2
            · omega
      · rw [if_neg hj]
        have hv : fastcdc_visit nbits buf (k + 1)
            = (i + 1,
               ((((fp <<< 1) + GEAR_TABLE.getD (buf i % 256) 0) % U64) <<< 1
                 + GEAR_TABLE.getD (buf (i + 1) % 256) 0) % U64) := by
          rw [fastcdc_visit]
          have e : fastcdc_visit nbits buf k
              = (i, ((fp <<< 1) + GEAR_TABLE.getD (buf i % 256) 0) % U64) :=
            Prod.ext hi hfp
          rw [e]
          simp only [hj, if_false]
        apply ih (k + 1)
        · rw [hv]
        · rw [hv]
        · intro j hjk
          rcases Nat.lt_succ_iff_lt_or_eq.mp hjk with h | h
          · exact hprev j h
          · subst h
            rw [hfp]
            intro hz
            exact hj ((mask_c_test _ _).mp hz).1
        · omega
    · rw [if_neg hlt]; left; rfl


/-- The contract of the FastCDC scanner: short buffers are returned whole, and a nonzero
offset otherwise is the first visit of the scan that is a hit. -/
theorem fastcdc_contract_aux (nbits : Nat) (buf : Nat → Nat) (len e0 : Nat)
    (hn : nbits ≤ 21) :
    (len ≤ 1 <<< (nbits - 2) → HashSplitter_find_offs_fastcdc nbits buf len e0 = (len, 0)) ∧
    (1 <<< (nbits - 2) < len →
      (HashSplitter_find_offs_fastcdc nbits buf len e0).1 = 0 ∨
      ∃ k, (fastcdc_visit nbits buf k).1 = (HashSplitter_find_offs_fastcdc nbits buf len e0).1 ∧
        1 <<< (nbits - 2) ≤ (HashSplitter_find_offs_fastcdc nbits buf len e0).1 ∧
        (HashSplitter_find_offs_fastcdc nbits buf len e0).1 < len ∧
        (fastcdc_visit nbits buf k).2 &&& fastcdc_mask_c nbits = 0 ∧
        (HashSplitter_find_offs_fastcdc nbits buf len e0).2
          = builtin_popcountll (U64 - 1 - ((fastcdc_visit nbits buf k).2 &&& tmask_c)) - nbits ∧
        (∀ j, j < k → (fastcdc_visit nbits buf j).2 &&& fastcdc_mask_c nbits ≠ 0)) ∧
    (HashSplitter_find_offs_fastcdc nbits buf len e0).1 ≤ len := by
  have hloop : 1 <<< (nbits - 2) < len →
      HashSplitter_find_offs_fastcdc nbits buf len e0
        = fastcdc_loop nbits buf len (fastcdc_mask_j nbits) len (1 <<< (nbits - 2)) 0 e0 := by
    intro h
    unfold HashSplitter_find_offs_fastcdc
    simp only
    rw [if_neg (by omega)]
  have hmain := fastcdc_loop_first_hit nbits buf len e0 hn len 0 (1 <<< (nbits - 2)) 0
    rfl rfl (fun j hj => absurd hj (Nat.not_lt_zero j)) (le_refl _)
  refine ⟨?_, ?_, ?_⟩
  · intro h
    unfold HashSplitter_find_offs_fastcdc
    simp only
    rw [if_pos h]
  · intro h
    rw [hloop h]
    exact hmain
  · by_cases h : len ≤ 1 <<< (nbits - 2)
    · unfold HashSplitter_find_offs_fastcdc
      simp only
      rw [if_pos h]
    · rw [hloop (by omega)]
      rcases hmain with h0 | ⟨k, _, _, hlt, _⟩
      · rw [h0]; exact Nat.zero_le _
      · exact le_of_lt hlt


theorem SameCfg.refl (s : HashSplitter) : SameCfg s s := by
  simp [SameCfg]

theorem SameCfg.trans {s t u : HashSplitter} (h1 : SameCfg s t) (h2 : SameCfg t u) :
    SameCfg s u := by
  unfold SameCfg at *
  obtain ⟨a1, a2, a3, a4, a5, a6, a7, a8, a9⟩ := h1
  obtain ⟨b1, b2, b3, b4, b5, b6, b7, b8, b9⟩ := h2
  exact ⟨b1.trans a1, b2.trans a2, b3.trans a3, b4.trans a4, b5.trans a5, b6.trans a6,
    b7.trans a7, b8.trans a8, b9.trans a9⟩

theorem CfgOk.of_same {s t : HashSplitter} (h : SameCfg s t) (hs : CfgOk s) : CfgOk t := by
  unfold SameCfg at h
  unfold CfgOk at *
  obtain ⟨a1, a2, a3, a4, a5, a6, a7, a8, a9⟩ := h
  rw [a1, a2, a3, a5]
  exact hs

theorem Source.read_length_le (f : Source) (n : Nat) : (f.read n).1.length ≤ n := by
  unfold Source.read
  simp only [List.length_take]
  omega

theorem nextfile_frame (s : HashSplitter) (rc : Int) (t : HashSplitter)
    (h : HashSplitter_nextfile s = (rc, t)) :
    SameCfg s t ∧ t.start = s.start ∧ t.end_ = s.end_ ∧ t.buf = s.buf := by
  unfold HashSplitter_nextfile at h
  dsimp only at h
  split at h
  · simp only [Prod.mk.injEq] at h
    obtain ⟨_, rfl⟩ := h
    simp [SameCfg]
  · split at h
    · simp only [Prod.mk.injEq] at h
      obtain ⟨_, rfl⟩ := h
      simp [SameCfg]
    · split at h <;>
      · simp only [Prod.mk.injEq] at h
        obtain ⟨_, rfl⟩ := h
        split_ifs <;> simp [SameCfg]

theorem uncache_frame (s t : HashSplitter) (last : Bool)
    (h : HashSplitter_uncache s last = Except.ok t) :
    SameCfg s t ∧ t.start = s.start ∧ t.end_ = s.end_ ∧ t.buf = s.buf ∧
    t.fobj = s.fobj ∧ t.files = s.files ∧ t.eof = s.eof := by
  unfold HashSplitter_uncache at h
  split at h
  · simp only [Except.ok.injEq] at h; subst h; simp [SameCfg]
  · simp only at h
    split_ifs at h <;>
      first
      | exact Except.noConfusion h
      | (simp only [Except.ok.injEq] at h
         subst h
         simp [SameCfg])

theorem store_outside (buf : Nat → Nat) (pos : Nat) (bytes : List Nat) (i : Nat)
    (h : i < pos) : store buf pos bytes i = buf i := by
  unfold store
  rw [if_neg (by omega)]

theorem read_fd_loop_frame (fuel : Nat) : ∀ (f : Source) (s : HashSplitter) (len : Nat)
    (t : HashSplitter), read_fd_loop fuel f s = Except.ok (len, t) → s.end_ ≤ s.bufsz →
    SameCfg s t ∧ t.start = s.start ∧ s.end_ ≤ t.end_ ∧ t.end_ ≤ t.bufsz ∧
    t.files = s.files ∧ t.eof = s.eof ∧ (∀ i, i < s.end_ → t.buf i = s.buf i) ∧
    (len ≠ 0 → t.end_ = t.bufsz) := by
  induction fuel with
  | zero => intro f s len t h; simp [read_fd_loop] at h
  | succ n ih =>
    intro f s len t h hle
    unfold read_fd_loop at h
    have hlen := Source.read_length_le f (s.bufsz - s.end_)
    generalize f.read (s.bufsz - s.end_) = r at h hlen
    obtain ⟨bytes, f1⟩ := r
    simp only at h hlen
    split_ifs at h with h1 h2 h3
    · -- the advisor runs
      split at h
      · exact Except.noConfusion h
      · rename_i s3 hs3
        obtain ⟨c1, c2, c3, c4, c5, c6, c7⟩ := uncache_frame _ _ _ hs3
        split_ifs at h with h4
        · obtain ⟨d1, d2, d3, d4, d5, d6, d7, d8⟩ := ih f1 s3 len t h (by
            rw [c3, c1.2.2.1]; simp only; omega)
          refine ⟨SameCfg.trans (SameCfg.trans (by simp [SameCfg]) c1) d1, ?_, ?_, d4, ?_, ?_,
            ?_, d8⟩
          · rw [d2, c2]
          · rw [c3] at d3; simp only at d3; omega
          · rw [d5, c6]
          · rw [d6, c7]
          · intro i hi
            rw [d7 i (by rw [c3]; simp only; omega), c4]
            exact store_outside _ _ _ _ hi
        · simp only [Except.ok.injEq, Prod.mk.injEq] at h
          obtain ⟨rfl, rfl⟩ := h
          refine ⟨SameCfg.trans (by simp [SameCfg]) c1, ?_, ?_, ?_, ?_, ?_, ?_, ?_⟩
          · rw [c2]
          · rw [c3]; simp only; omega
          · rw [c3, c1.2.2.1]; simp only; omega
          · rw [c6]
          · rw [c7]
          · intro i hi
            rw [c4]; exact store_outside _ _ _ _ hi
          · intro hne
            rw [c3, c1.2.2.1] at *
            simp only at *
            have : ¬ (s.bufsz > s.end_ + bytes.length) := fun hh => h4 ⟨hne, hh⟩
            omega
    · -- no advice
      split at h
      · exact Except.noConfusion h
      · rename_i s3 hs3
        simp only [Except.ok.injEq] at hs3
        subst hs3
        split_ifs at h with h4
        · obtain ⟨d1, d2, d3, d4, d5, d6, d7, d8⟩ := ih f1 _ len t h (by simp only; omega)
          simp only at d2 d3 d5 d6 d7
          refine ⟨SameCfg.trans (by simp [SameCfg]) d1, d2, by omega, d4, d5, d6, ?_, d8⟩
          intro i hi
          rw [d7 i (by omega)]
          exact store_outside _ _ _ _ hi
        · simp only [Except.ok.injEq, Prod.mk.injEq] at h
          obtain ⟨rfl, rfl⟩ := h
          refine ⟨by simp [SameCfg], rfl, by simp only; omega, by simp only; omega, rfl, rfl,
            ?_, ?_⟩
          · intro i hi
            exact store_outside _ _ _ _ hi
          · intro hne
            simp only at *
            have : ¬ (s.bufsz > s.end_ + bytes.length) := fun hh => h4 ⟨hne, hh⟩
            omega


theorem read_obj_loop_frame (fuel : Nat) : ∀ (f : Source) (s : HashSplitter) (len : Nat)
    (t : HashSplitter), read_obj_loop fuel f s = Except.ok (len, t) → s.end_ ≤ s.bufsz →
    SameCfg s t ∧ t.start = s.start ∧ s.end_ ≤ t.end_ ∧ t.end_ ≤ t.bufsz ∧
    t.files = s.files ∧ t.eof = s.eof ∧ (∀ i, i < s.end_ → t.buf i = s.buf i) ∧
    (len ≠ 0 → t.end_ = t.bufsz) := by
  induction fuel with
  | zero => intro f s len t h; simp [read_obj_loop] at h
  | succ n ih =>
    intro f s len t h hle
    unfold read_obj_loop at h
    have hlen := Source.read_length_le f (s.bufsz - s.end_)
    generalize f.read (s.bufsz - s.end_) = r at h hlen
    obtain ⟨bytes, f1⟩ := r
    simp only at h hlen
    split_ifs at h with h1 h2 h3 h4 h5
    all_goals first
      | (exfalso; omega)
      | (obtain ⟨d1, d2, d3, d4, d5, d6, d7, d8⟩ := ih f1 _ len t h (by simp only; omega)
         try simp only at d2 d3 d5 d6 d7
         refine ⟨SameCfg.trans (by simp [SameCfg]) d1, d2, by omega, d4, d5, d6, ?_, d8⟩
         intro i hi
         rw [d7 i (by omega)]
         first
           | exact store_outside _ _ _ _ hi
           | rfl)
      | (simp only [Except.ok.injEq, Prod.mk.injEq] at h
         obtain ⟨rfl, rfl⟩ := h
         refine ⟨by simp [SameCfg], rfl, by simp only; omega, by simp only; omega, rfl, rfl,
           ?_, ?_⟩
         · intro i hi
           first
             | exact store_outside _ _ _ _ hi
             | rfl
         · intro hne
           simp only at *
           omega)

theorem read_frame (s : HashSplitter) (rc : Nat) (t : HashSplitter)
    (h : HashSplitter_read s = Except.ok (rc, t)) :
    SameCfg s t ∧ t.start = s.start ∧ s.end_ ≤ t.end_ ∧ (s.end_ ≤ s.bufsz → t.end_ ≤ t.bufsz) ∧
    t.files = s.files ∧ t.eof = s.eof ∧ (∀ i, i < s.end_ → t.buf i = s.buf i) ∧
    (rc ≠ 0 → t.end_ = t.bufsz) ∧ (s.fobj = none → t = s ∧ rc = 0) ∧
    (s.fobj.isSome → s.start ≤ s.end_ ∧ s.end_ ≤ s.bufsz) := by
  unfold HashSplitter_read at h
  split at h
  · rename_i hf
    simp only [Except.ok.injEq, Prod.mk.injEq] at h
    obtain ⟨rfl, rfl⟩ := h
    refine ⟨SameCfg.refl _, rfl, le_refl _, fun h => h, rfl, rfl, fun _ _ => rfl,
      fun h => absurd rfl h, fun _ => ⟨rfl, rfl⟩, ?_⟩
    rw [hf]; intro h; exact Bool.noConfusion h
  · rename_i f hf
    split_ifs at h with h1 h2 h3
    all_goals
      simp only at h
      split at h
      · exact Except.noConfusion h
      · rename_i len s1 hr
        have hfr : SameCfg s s1 ∧ s1.start = s.start ∧ s.end_ ≤ s1.end_ ∧ s1.end_ ≤ s1.bufsz ∧
            s1.files = s.files ∧ s1.eof = s.eof ∧ (∀ i, i < s.end_ → s1.buf i = s.buf i) ∧
            (len ≠ 0 → s1.end_ = s1.bufsz) := by
          first
            | exact read_fd_loop_frame _ _ _ _ _ hr (by omega)
            | exact read_obj_loop_frame _ _ _ _ _ hr (by omega)
        obtain ⟨d1, d2, d3, d4, d5, d6, d7, d8⟩ := hfr
        simp only [Except.ok.injEq, Prod.mk.injEq] at h
        obtain ⟨rfl, rfl⟩ := h
        have hs : s.start ≤ s.end_ ∧ s.end_ ≤ s.bufsz := ⟨by omega, by omega⟩
        split_ifs
        · exact ⟨SameCfg.trans d1 (by simp [SameCfg]), d2, d3, fun _ => d4, d5, d6, d7, d8,
            fun hn => by rw [hf] at hn; exact Option.noConfusion hn, fun _ => hs⟩
        · exact ⟨d1, d2, d3, fun _ => d4, d5, d6, d7, d8,
            fun hn => by rw [hf] at hn; exact Option.noConfusion hn, fun _ => hs⟩

theorem fill_after_read (s s1 t : HashSplitter)
    (hu : SameCfg s s1 ∧ s1.start = s.start ∧ s1.end_ = s.end_ ∧ s1.buf = s.buf)
    (h : (match HashSplitter_read s1 with
      | Except.error e => Except.error e
      | Except.ok (rc, s2) => Except.ok (if rc = 0 then { s2 with eof := true } else s2))
      = Except.ok t) :
    SameCfg s t ∧ t.start = s.start ∧ s.end_ ≤ t.end_ ∧ (s.end_ ≤ s.bufsz → t.end_ ≤ t.bufsz) ∧
    (∀ i, i < s.end_ → t.buf i = s.buf i) := by
  split at h
  · exact Except.noConfusion h
  · rename_i rc s2 hr
    simp only [Except.ok.injEq] at h
    obtain ⟨c1, c2, c3, c4⟩ := hu
    obtain ⟨d1, d2, d3, d4, d5, d6, d7, d8, d9, d10⟩ := read_frame _ _ _ hr
    have base : SameCfg s s2 ∧ s2.start = s.start ∧ s.end_ ≤ s2.end_ ∧
        (s.end_ ≤ s.bufsz → s2.end_ ≤ s2.bufsz) ∧ (∀ i, i < s.end_ → s2.buf i = s.buf i) := by
      refine ⟨SameCfg.trans c1 d1, by rw [d2, c2], by rw [c3] at d3; exact d3, ?_, ?_⟩
      · intro hle
        apply d4
        rw [c3, c1.2.2.1]; exact hle
      · intro i hi
        rw [d7 i (by rw [c3]; exact hi), c4]
    subst h
    split_ifs
    · obtain ⟨b1, b2, b3, b4, b5⟩ := base
      exact ⟨SameCfg.trans b1 (by simp [SameCfg]), b2, b3, b4, b5⟩
    · exact base

theorem fill_frame (s t : HashSplitter) (h : iternext_fill s = Except.ok t) :
    SameCfg s t ∧ t.start = s.start ∧ s.end_ ≤ t.end_ ∧ (s.end_ ≤ s.bufsz → t.end_ ≤ t.bufsz) ∧
    (∀ i, i < s.end_ → t.buf i = s.buf i) := by
  unfold iternext_fill at h
  split_ifs at h with h1 h2
  · exact fill_after_read s _ t (nextfile_frame s _ _ rfl) h
  · exact fill_after_read s s t ⟨SameCfg.refl _, rfl, rfl, rfl⟩ h
  · simp only [Except.ok.injEq] at h
    subst h
    exact ⟨SameCfg.refl _, rfl, le_refl _, fun h => h, fun _ _ => rfl⟩

theorem realloc_frame (s t : HashSplitter) (h : HashSplitter_realloc s = Except.ok t) :
    SameCfg s t ∧ t.start = 0 ∧ t.end_ = s.end_ - s.start ∧ s.start ≤ s.end_ ∧
    s.end_ ≤ s.bufsz ∧ t.files = s.files ∧ t.fobj = s.fobj ∧ t.eof = s.eof ∧
    (∀ i, i < s.end_ - s.start → t.buf i = s.buf (s.start + i)) := by
  unfold HashSplitter_realloc at h
  split_ifs at h with h1 h2
  simp only [Except.ok.injEq] at h
  subst h
  refine ⟨by simp [SameCfg], rfl, rfl, by omega, by omega, rfl, rfl, rfl, ?_⟩
  intro i hi
  simp only [hi, if_true]



theorem slice_length (buf : Nat → Nat) (start n : Nat) : (slice buf start n).length = n := by
  simp [slice]

theorem emit_ok (t : HashSplitter) (ofs lvl : Nat) (c : List Nat) (level : Nat)
    (s' : HashSplitter) (h : iternext_emit t ofs lvl = Except.ok (Next.chunk c level, s')) :
    ofs ≤ t.end_ - t.start ∧ c = slice t.buf t.start ofs ∧ level = lvl ∧
    s' = { t with start := t.start + ofs } ∧ c.length = ofs := by
  unfold iternext_emit at h
  split_ifs at h with h1
  simp only [Except.ok.injEq, Prod.mk.injEq, Next.chunk.injEq] at h
  obtain ⟨⟨rfl, rfl⟩, rfl⟩ := h
  exact ⟨by omega, rfl, rfl, rfl, slice_length _ _ _⟩

/-- The object at the moment a chunk is handed out, and the branch that handed it out. -/
theorem iternext_loop_emit (fuel : Nat) : ∀ (s : HashSplitter) (c : List Nat) (level : Nat)
    (s' : HashSplitter),
    HashSplitter_iternext_loop fuel s = Except.ok (Next.chunk c level, s') →
    ∃ t, SameCfg s t ∧ t.start ≤ t.end_ ∧ (s.end_ ≤ s.bufsz → t.end_ ≤ t.bufsz) ∧
      c = slice t.buf t.start c.length ∧ c.length ≤ t.end_ - t.start ∧
      s' = { t with start := t.start + c.length } ∧
      (((iternext_scan t).1 ≠ 0 ∧ c.length = (iternext_scan t).1 ∧
          level = (iternext_scan t).2 / t.fanbits) ∨
       ((iternext_scan t).1 = 0 ∧ t.max_blob ≤ t.end_ - t.start ∧ c.length = t.max_blob ∧
          level = 0) ∨
       ((iternext_scan t).1 = 0 ∧ t.end_ - t.start < t.max_blob ∧ t.start ≠ t.end_ ∧
          t.eof = true ∧ (t.boundaries = true ∨ t.fobj.isNone = true) ∧
          c.length = t.end_ - t.start ∧ level = 0)) := by
  induction fuel with
  | zero => intro s c level s' h; exact Except.noConfusion h
  | succ n ih =>
    intro s c level s' h
    unfold HashSplitter_iternext_loop at h
    split_ifs at h with h0
    split at h
    · exact Except.noConfusion h
    · rename_i s1 hfill
      obtain ⟨f1, f2, f3, f4, f5⟩ := fill_frame s s1 hfill
      have hse : s1.start ≤ s1.end_ := by rw [f2]; omega
      rcases hsc : iternext_scan s1 with ⟨ofs, eb⟩
      rw [hsc] at h
      simp only at h
      split_ifs at h with hstop hfr hfr2 hofs hmax heof
      · simp at h
      · obtain ⟨e1, e2, e3, e4, e5⟩ := emit_ok _ _ _ _ _ _ h
        refine ⟨s1, f1, hse, f4, by rw [e5]; exact e2, by rw [e5]; exact e1,
          by rw [e5]; exact e4, Or.inl ⟨by rw [hsc]; exact hofs, by rw [hsc]; exact e5,
            by rw [hsc]; exact e3⟩⟩
      · obtain ⟨e1, e2, e3, e4, e5⟩ := emit_ok _ _ _ _ _ _ h
        refine ⟨s1, f1, hse, f4, by rw [e5]; exact e2, by rw [e5]; exact e1,
          by rw [e5]; exact e4,
          Or.inr (Or.inl ⟨by rw [hsc]; simpa using hofs, hmax, e5, e3⟩)⟩
      · obtain ⟨e1, e2, e3, e4, e5⟩ := emit_ok _ _ _ _ _ _ h
        refine ⟨s1, f1, hse, f4, by rw [e5]; exact e2, le_of_eq e5,
          by rw [e5]; exact e4,
          Or.inr (Or.inr ⟨by rw [hsc]; simpa using hofs, by omega, heof.1, heof.2.1,
            heof.2.2, e5, e3⟩)⟩
      · split at h
        · exact Except.noConfusion h
        · rename_i s2 hre
          obtain ⟨r1, r2, r3, r4, r5, r6, r7, r8, r9⟩ := realloc_frame _ _ hre
          obtain ⟨t, t1, t2, t3, t4⟩ := ih s2 c level s' h
          refine ⟨t, SameCfg.trans (SameCfg.trans f1 r1) t1, t2, ?_, t4⟩
          intro hle
          apply t3
          rw [r3, r1.2.2.1]
          have := f4 hle
          omega


theorem legacy_fill_loop_le (nbits : Nat) (buf : Nat → Nat) (e0 : Nat) (n : Nat) :
    ∀ (pos s1 s2 : Nat) (r : Nat × Nat),
    legacy_fill_loop nbits buf e0 n pos s1 s2 = Sum.inl r → 1 ≤ r.1 ∧ r.1 ≤ pos + n := by
  induction n with
  | zero => intro pos s1 s2 r h; exact Sum.noConfusion h
  | succ m ih =>
    intro pos s1 s2 r h
    rw [legacy_fill_loop] at h
    split_ifs at h with hf
    · simp only [Sum.inl.injEq] at h
      subst h
      simp only
      omega
    · have := ih _ _ _ _ h
      omega

theorem legacy_main_loop_le (nbits : Nat) (buf : Nat → Nat) (e0 : Nat) (n : Nat) :
    ∀ (pos s1 s2 : Nat), (legacy_main_loop nbits buf e0 n pos s1 s2).1 ≤ pos + n := by
  induction n with
  | zero => intro pos s1 s2; rw [legacy_main_loop]; exact Nat.zero_le _
  | succ m ih =>
    intro pos s1 s2
    rw [legacy_main_loop]
    split_ifs with hf
    · simp only; omega
    · have := ih (pos + 1) (legacy_s1 s1 (buf pos) (buf (pos - BUP_WINDOWSIZE)))
        (legacy_s2 s2 (legacy_s1 s1 (buf pos) (buf (pos - BUP_WINDOWSIZE)))
          (buf (pos - BUP_WINDOWSIZE)))
      omega

theorem legacy_scan_le (nbits : Nat) (buf : Nat → Nat) (len e0 w a b : Nat) :
    (match legacy_fill_loop nbits buf e0 w 0 a b with
      | Sum.inl r => r
      | Sum.inr (s1a, s2a) => legacy_main_loop nbits buf e0 (len - w) w s1a s2a).1
      ≤ max w len := by
  generalize hres : legacy_fill_loop nbits buf e0 w 0 a b = res
  cases res with
  | inl r =>
    have := (legacy_fill_loop_le _ _ _ _ _ _ _ _ hres).2
    dsimp only
    omega
  | inr st =>
    obtain ⟨s1a, s2a⟩ := st
    have := legacy_main_loop_le nbits buf e0 (len - w) w s1a s2a
    dsimp only
    omega

theorem legacy_ofs_le (nbits : Nat) (buf : Nat → Nat) (len e0 : Nat) :
    (HashSplitter_find_offs_legacy nbits buf len e0).1 ≤ max 64 len :=
  legacy_scan_le nbits buf len e0 BUP_WINDOWSIZE (BUP_WINDOWSIZE * ROLLSUM_CHAR_OFFSET)
    (BUP_WINDOWSIZE * (BUP_WINDOWSIZE - 1) * ROLLSUM_CHAR_OFFSET)

theorem scan_ofs_le (s : HashSplitter) (hc : CfgOk s) :
    (iternext_scan s).1 ≤ s.max_blob := by
  obtain ⟨c1, c2, c3, c4, c5⟩ := hc
  have h64 : 64 ≤ s.max_blob := by
    rw [c3]
    calc 64 ≤ 2 ^ 15 := by norm_num
      _ ≤ 2 ^ (s.bits + 2) := Nat.pow_le_pow_right (by norm_num) (by omega)
  unfold iternext_scan
  simp only
  split
  · have := legacy_ofs_le s.bits (fun i => s.buf (s.start + i))
      (min (s.end_ - s.start) s.max_blob) 0
    omega
  · have := (fastcdc_contract_aux s.bits (fun i => s.buf (s.start + i))
      (min (s.end_ - s.start) s.max_blob) 0 c2).2.2
    omega

theorem bits_from_py_kw_ok (mx : Nat) (py : Option Nat) (bits : Nat)
    (h : bits_from_py_kw mx py = Except.ok bits) : py = some bits ∧ 13 ≤ bits ∧ bits ≤ mx := by
  unfold bits_from_py_kw at h
  split at h
  · exact Except.noConfusion h
  · rename_i b
    split_ifs at h with hh
    simp only [Except.ok.injEq] at h
    subst h
    exact ⟨rfl, by omega, by omega⟩

theorem init_spec (g : Globals) (heap : Nat → Nat → Nat) (args : InitArgs)
    (s0 : HashSplitter) (h0 : HashSplitter_init g heap args = Except.ok s0) :
    ∃ (bits : Nat) (m : bup_splitter_mode) (self : HashSplitter),
      args.bits = some bits ∧ 13 ≤ bits ∧ bits ≤ g.max_bits ∧ args.fanbits ≠ some 0 ∧
      select_mode true (parsed_mode args.mode args.stale_mode) = Except.ok m ∧
      ¬ (bits ≥ log2 8 * 8 - 2) ∧
      s0 = (HashSplitter_nextfile self).2 ∧ (HashSplitter_nextfile self).1 = 0 ∧
      self.bits = bits ∧ self.mode = m ∧ self.max_blob = 1 <<< (bits + 2) ∧
      self.bufsz = g.advise_chunk ∧ self.fanbits ≠ 0 ∧ self.start = 0 ∧ self.end_ = 0 ∧
      self.files = args.files ∧ self.fobj = none ∧ self.calls = [] ∧ self.eof = false ∧
      self.filenum = -1 ∧ self.freed = false ∧ self.progress = args.progress ∧
      self.heap = heap ∧ self.glob = g := by
  unfold HashSplitter_init at h0
  split at h0
  · exact Except.noConfusion h0
  · rename_i b hb
    split at h0
    · exact Except.noConfusion h0
    · rename_i bits hbk
      obtain ⟨k1, k2, k3⟩ := bits_from_py_kw_ok _ _ _ hbk
      simp only [Option.some.injEq] at k1
      subst k1
      dsimp only at h0
      split at h0
      · exact Except.noConfusion h0
      · rename_i hf
        split at h0
        · exact Except.noConfusion h0
        · rename_i m hm
          split at h0
          · exact Except.noConfusion h0
          · rename_i hlarge
            split at h0
            · exact Except.noConfusion h0
            · rename_i hrc
              simp only [Except.ok.injEq] at h0
              refine ⟨b, m, _, hb, k2, k3, ?_, hm, hlarge, h0.symm, by simpa using hrc,
                rfl, rfl, rfl, rfl, hf, rfl, rfl, rfl, rfl, rfl, rfl, rfl, rfl, rfl, rfl, rfl⟩
              intro hz
              rw [hz] at hf
              exact hf rfl

theorem init_inv (g : Globals) (heap : Nat → Nat → Nat) (args : InitArgs)
    (s0 : HashSplitter) (h0 : HashSplitter_init g heap args = Except.ok s0) :
    ∃ self : HashSplitter, s0 = (HashSplitter_nextfile self).2 ∧ 13 ≤ self.bits ∧
      self.bits ≤ g.max_bits ∧ self.max_blob = 1 <<< (self.bits + 2) ∧
      self.bufsz = g.advise_chunk ∧ self.fanbits ≠ 0 ∧ self.start = 0 ∧ self.end_ = 0 ∧
      self.files = args.files ∧ self.fobj = none ∧ self.calls = [] ∧ self.eof = false := by
  obtain ⟨bits, m, self, _, k2, k3, _, _, _, e, _, b1, _, b3, b4, b5, b6, b7, b8, b9, b10,
    b11, _⟩ := init_spec g heap args s0 h0
  exact ⟨self, e, by omega, by omega, by rw [b1]; exact b3, b4, b5, b6, b7, b8, b9, b10, b11⟩

theorem init_cfg (p e : Int) (g : Globals) (heap : Nat → Nat → Nat) (args : InitArgs)
    (s0 : HashSplitter) (hg : hashsplit_init p e = Except.ok g)
    (h0 : HashSplitter_init g heap args = Except.ok s0) :
    CfgOk s0 ∧ s0.start = 0 ∧ s0.end_ = 0 ∧ s0.bufsz = g.advise_chunk := by
  obtain ⟨g1, g2, g3, g4⟩ := hashsplit_init_ok p e g hg
  obtain ⟨self, e, b1, b2, b3, b4, b5, b6, b7, _⟩ := init_inv g heap args s0 h0
  obtain ⟨⟨a1, a2, a3, a4, a5, a6, a7, a8, a9⟩, n2, n3, n4⟩ :=
    nextfile_frame self (HashSplitter_nextfile self).1 (HashSplitter_nextfile self).2 rfl
  rw [← e] at a1 a2 a3 a5 n2 n3
  have hpow : 2 ^ (self.bits + 2) ≤ 2 ^ 23 :=
    Nat.pow_le_pow_right (by norm_num) (by omega)
  have h23 : (2 : Nat) ^ 23 = 8388608 := by norm_num
  refine ⟨⟨by omega, by omega, by rw [a2, a1, b3, Nat.one_shiftLeft], ?_, by omega⟩,
    by omega, by omega, by omega⟩
  rw [a2, a3, b3, b4, Nat.one_shiftLeft]
  omega

theorem iternext_cfg (s s' : HashSplitter) (r : Next)
    (h : HashSplitter_iternext s = Except.ok (r, s')) (c : List Nat) (level : Nat)
    (hr : r = Next.chunk c level) : SameCfg s s' := by
  subst hr
  obtain ⟨t, t1, _, _, _, _, t6, _⟩ := iternext_loop_emit _ _ _ _ _ h
  subst t6
  exact SameCfg.trans t1 (by simp [SameCfg])

theorem after_cfg (n : Nat) : ∀ (s0 s : HashSplitter), HashSplitter_after n s0 = some s →
    SameCfg s0 s := by
  induction n with
  | zero =>
    intro s0 s h
    simp only [HashSplitter_after, Option.some.injEq] at h
    subst h
    exact SameCfg.refl _
  | succ m ih =>
    intro s0 s h
    unfold HashSplitter_after at h
    split at h
    · rename_i c level s1 hst
      exact SameCfg.trans (iternext_cfg _ _ _ hst c level rfl) (ih _ _ h)
    · exact Option.noConfusion h


theorem iternext_bufinv (s s1 : HashSplitter) (c : List Nat) (level : Nat)
    (h : HashSplitter_iternext s = Except.ok (Next.chunk c level, s1)) (hb : BufInv s) :
    BufInv s1 := by
  obtain ⟨t, _, t2, t3, _, t5, t6, _⟩ := iternext_loop_emit _ _ _ _ _ h
  subst t6
  unfold BufInv at *
  have := t3 hb.2
  simp only
  omega

theorem after_bufinv (n : Nat) : ∀ (s0 s : HashSplitter), HashSplitter_after n s0 = some s →
    BufInv s0 → BufInv s := by
  induction n with
  | zero =>
    intro s0 s h hb
    simp only [HashSplitter_after, Option.some.injEq] at h
    subst h
    exact hb
  | succ m ih =>
    intro s0 s h hb
    unfold HashSplitter_after at h
    split at h
    · rename_i c level s1 hst
      exact ih _ _ h (iternext_bufinv _ _ _ _ hst hb)
    · exact Option.noConfusion h

/-- The buffer invariant `start <= end <= bufsz` holds after construction and after every
call of `next()` that hands out a chunk. -/
theorem reachable_bufinv (p e : Int) (g : Globals) (heap : Nat → Nat → Nat) (args : InitArgs)
    (s0 s : HashSplitter) (n : Nat) (hg : hashsplit_init p e = Except.ok g)
    (h0 : HashSplitter_init g heap args = Except.ok s0)
    (hs : HashSplitter_after n s0 = some s) : BufInv s := by
  obtain ⟨_, i2, i3, _⟩ := init_cfg p e g heap args s0 hg h0
  apply after_bufinv n s0 s hs
  unfold BufInv
  omega


theorem count_ones_loop_le (fuel : Nat) : ∀ (v acc : Nat),
    count_ones_loop fuel v acc ≤ acc + fuel := by
  induction fuel with
  | zero => intro v acc; simp [count_ones_loop]
  | succ n ih =>
    intro v acc
    unfold count_ones_loop
    split_ifs
    · have := ih (v >>> 1) (acc + 1)
      omega
    · omega

theorem roll_loop_bounds (nbits m2 m1 : Nat) : ∀ (buf : List Nat) (count : Nat) (r : Rollsum)
    (e0 : Nat),
    ((roll_loop nbits m2 m1 buf count r e0).1 = 0 ∨
      (count < (roll_loop nbits m2 m1 buf count r e0).1 ∧
        (roll_loop nbits m2 m1 buf count r e0).1 ≤ count + buf.length)) ∧
    (roll_loop nbits m2 m1 buf count r e0).2.1 ≤ max e0 32 := by
  intro buf
  induction buf with
  | nil => intro count r e0; simp [roll_loop]
  | cons b rest ih =>
    intro count r e0
    unfold roll_loop
    simp only
    split_ifs with hc
    · refine ⟨Or.inr ⟨by simp, by simp⟩, ?_⟩
      have := count_ones_loop_le 32 (rollsum_digest (rollsum_roll r b) >>> nbits >>> 1) 0
      simp only
      omega
    · obtain ⟨h1, h2⟩ := ih (count + 1) (rollsum_roll r b) e0
      refine ⟨?_, h2⟩
      rcases h1 with h1 | h1
      · exact Or.inl h1
      · right
        simp only [List.length_cons]
        omega

theorem roll_bounds (r : Rollsum) (nbits : Nat) (buf : List Nat) :
    (HashSplitter_roll r nbits buf 0).1 ≤ buf.length ∧
    (HashSplitter_roll r nbits buf 0).2.1 ≤ 32 := by
  unfold HashSplitter_roll
  simp only
  obtain ⟨h1, h2⟩ := roll_loop_bounds nbits (((1 <<< nbits) - 1) % 65536)
    (if nbits ≤ 16 then 0 else ((1 <<< (nbits - 16)) - 1) % 65536) buf 0 r 0
  constructor
  · rcases h1 with h1 | h1
    · rw [h1]; exact Nat.zero_le _
    · omega
  · omega

/-- What a feed returns, spelled out, when no counter overflows. -/
theorem feed_ok (s : RecordHashSplitter) (buf : List Nat) (hb : s.bits ≤ 21)
    (hss : s.split_size ≤ 2 ^ 23) (hlen : buf.length ≤ PY_SSIZE_T_MAX) :
    RecordHashSplitter_feed s buf = Except.ok
      ((decide ((HashSplitter_roll s.r s.bits buf 0).1 ≠ 0) ||
          decide ((if (HashSplitter_roll s.r s.bits buf 0).1 ≠ 0 then 0 else s.split_size)
            + buf.length > s.max_split_size),
        if (HashSplitter_roll s.r s.bits buf 0).1 ≠ 0
          then some ((HashSplitter_roll s.r s.bits buf 0).2.1 + s.bits) else none),
       if (if (HashSplitter_roll s.r s.bits buf 0).1 ≠ 0 then 0 else s.split_size)
            + buf.length > s.max_split_size
       then { s with r := rollsum_init, split_size := 0 }
       else { s with
         r := if (HashSplitter_roll s.r s.bits buf 0).1 ≠ 0 then rollsum_init
           else (HashSplitter_roll s.r s.bits buf 0).2.2
         split_size := (if (HashSplitter_roll s.r s.bits buf 0).1 ≠ 0 then 0
           else s.split_size) + buf.length }) := by
  obtain ⟨h1, h2⟩ := roll_bounds s.r s.bits buf
  have hS : SIZE_MAX = 18446744073709551615 := by decide
  have hP : PY_SSIZE_T_MAX = 9223372036854775807 := by decide
  have h23 : (2 : Nat) ^ 23 = 8388608 := by norm_num
  unfold RecordHashSplitter_feed
  generalize HashSplitter_roll s.r s.bits buf 0 = res at h1 h2 ⊢
  obtain ⟨out, eb, r1⟩ := res
  simp only at h1 h2 ⊢
  rw [if_neg (by omega)]
  by_cases ho : out = 0
  · simp only [ho, ne_eq, not_true_eq_false, if_false, decide_False, Bool.false_or]
    rw [if_neg (by omega)]
    by_cases hf : s.split_size + buf.length > s.max_split_size
    · simp [hf, reset_recordsplitter]
    · simp [hf]
  · simp only [ho, ne_eq, not_false_eq_true, if_true, decide_True, Bool.true_or,
      reset_recordsplitter]
    rw [if_neg (by omega)]
    by_cases hf : 0 + buf.length > s.max_split_size
    · simp [hf, reset_recordsplitter]
    · simp [hf]


/-- What a feed that returns normally returns, whatever the sizes. -/
theorem feed_inv (s : RecordHashSplitter) (buf : List Nat) (res : Bool × Option Nat)
    (s1 : RecordHashSplitter) (h : RecordHashSplitter_feed s buf = Except.ok (res, s1)) :
    res = (decide ((HashSplitter_roll s.r s.bits buf 0).1 ≠ 0) ||
          decide ((if (HashSplitter_roll s.r s.bits buf 0).1 ≠ 0 then 0 else s.split_size)
            + buf.length > s.max_split_size),
        if (HashSplitter_roll s.r s.bits buf 0).1 ≠ 0
          then some ((HashSplitter_roll s.r s.bits buf 0).2.1 + s.bits) else none) ∧
    s1 = (if (if (HashSplitter_roll s.r s.bits buf 0).1 ≠ 0 then 0 else s.split_size)
            + buf.length > s.max_split_size
       then { s with r := rollsum_init, split_size := 0 }
       else { s with
         r := if (HashSplitter_roll s.r s.bits buf 0).1 ≠ 0 then rollsum_init
           else (HashSplitter_roll s.r s.bits buf 0).2.2
         split_size := (if (HashSplitter_roll s.r s.bits buf 0).1 ≠ 0 then 0
           else s.split_size) + buf.length }) := by
  unfold RecordHashSplitter_feed at h
  generalize HashSplitter_roll s.r s.bits buf 0 = rr at h ⊢
  obtain ⟨out, eb, r1⟩ := rr
  simp only at h ⊢
  split_ifs at h with h1 h2 h3 h4 <;>
    (simp only [Except.ok.injEq, Prod.mk.injEq] at h
     obtain ⟨⟨rfl, rfl⟩, rfl⟩ := h
     simp_all [reset_recordsplitter]) <;>
    (rw [if_neg (by omega)])

theorem feed_cap (s : RecordHashSplitter) (buf : List Nat) (res : Bool × Option Nat)
    (s1 : RecordHashSplitter) (h : RecordHashSplitter_feed s buf = Except.ok (res, s1)) :
    s1.split_size ≤ s1.max_split_size ∧ s1.max_split_size = s.max_split_size ∧
    s1.bits = s.bits := by
  obtain ⟨_, h2⟩ := feed_inv s buf res s1 h
  subst h2
  split_ifs <;>
    first
    | exact ⟨Nat.zero_le _, rfl, rfl⟩
    | exact ⟨by simp only; omega, rfl, rfl⟩

theorem feed_all_cap : ∀ (recs : List (List Nat)) (s0 s : RecordHashSplitter),
    RecordHashSplitter_feed_all s0 recs = some s →
    s0.split_size ≤ s0.max_split_size →
    s.split_size ≤ s.max_split_size ∧ s.max_split_size = s0.max_split_size ∧
    s.bits = s0.bits := by
  intro recs
  induction recs with
  | nil =>
    intro s0 s h h0
    simp only [RecordHashSplitter_feed_all, Option.some.injEq] at h
    subst h
    exact ⟨h0, rfl, rfl⟩
  | cons rec rest ih =>
    intro s0 s h h0
    unfold RecordHashSplitter_feed_all at h
    split at h
    · rename_i res s1 hf
      obtain ⟨c1, c2, c3⟩ := feed_cap s0 rec res s1 hf
      obtain ⟨d1, d2, d3⟩ := ih s1 s h c1
      exact ⟨d1, d2.trans c2, d3.trans c3⟩
    · exact Option.noConfusion h

theorem record_init_inv (g : Globals) (bits : Option Nat) (mode : Option (Option String))
    (stale : CharPtr) (s : RecordHashSplitter)
    (h : RecordHashSplitter_init g bits mode stale = Except.ok s) :
    s.r = rollsum_init ∧ s.split_size = 0 ∧ s.max_split_size = 1 <<< (s.bits + 2) ∧
    bits = some s.bits ∧ 13 ≤ s.bits ∧ s.bits ≤ g.max_bits := by
  unfold RecordHashSplitter_init at h
  split at h
  · exact Except.noConfusion h
  · rename_i b hb
    obtain ⟨k1, k2, k3⟩ := bits_from_py_kw_ok _ _ _ hb
    split at h
    · exact Except.noConfusion h
    · split at h
      · exact Except.noConfusion h
      · simp only [Except.ok.injEq] at h
        subst h
        exact ⟨rfl, rfl, rfl, k1, k2, k3⟩

theorem roll_loop_prefix (nbits m2 m1 : Nat) : ∀ (buf : List Nat) (count : Nat) (r : Rollsum)
    (e0 : Nat) (tail : List Nat), (roll_loop nbits m2 m1 buf count r e0).1 ≠ 0 →
    roll_loop nbits m2 m1
        (buf.take ((roll_loop nbits m2 m1 buf count r e0).1 - count) ++ tail) count r e0
      = roll_loop nbits m2 m1 buf count r e0 := by
  intro buf
  induction buf with
  | nil => intro count r e0 tail h; simp [roll_loop] at h
  | cons b rest ih =>
    intro count r e0 tail h
    by_cases hc : (rollsum_roll r b).s2 &&& m2 = m2 ∧ (rollsum_roll r b).s1 &&& m1 = m1
    · have e : roll_loop nbits m2 m1 (b :: rest) count r e0
          = (count + 1, count_ones_loop 32 (rollsum_digest (rollsum_roll r b) >>> nbits >>> 1) 0,
             rollsum_roll r b) := by
        rw [roll_loop]; simp only [hc, and_self, if_true]
      rw [e]
      simp only [Nat.add_sub_cancel_left, List.take_succ_cons, List.take_zero,
        List.cons_append, List.nil_append]
      rw [roll_loop]; simp only [hc, and_self, if_true]
    · have e : roll_loop nbits m2 m1 (b :: rest) count r e0
          = roll_loop nbits m2 m1 rest (count + 1) (rollsum_roll r b) e0 := by
        rw [roll_loop]; simp only [hc, if_false]
      rw [e] at h ⊢
      have hb := roll_loop_bounds nbits m2 m1 rest (count + 1) (rollsum_roll r b) e0
      have hlt : count + 1 < (roll_loop nbits m2 m1 rest (count + 1) (rollsum_roll r b) e0).1 := by
        rcases hb.1 with h0 | h1
        · exact absurd h0 h
        · exact h1.1
      have hk : (roll_loop nbits m2 m1 rest (count + 1) (rollsum_roll r b) e0).1 - count
          = ((roll_loop nbits m2 m1 rest (count + 1) (rollsum_roll r b) e0).1 - (count + 1)) + 1 := by
        omega
      rw [hk, List.take_succ_cons, List.cons_append, roll_loop]
      simp only [hc, if_false]
      exact ih (count + 1) (rollsum_roll r b) e0 tail h


theorem roll_zeros (n : Nat) : ∀ (count : Nat) (r : Rollsum) (e : Nat),
    r.s1 = 1984 → r.s2 = 124992 → (∀ i, r.window i = 0) →
    (roll_loop 13 8191 0 (List.replicate n 0) count r e).1 = 0 := by
  induction n with
  | zero => intro count r e _ _ _; rfl
  | succ m ih =>
    intro count r e h1 h2 hw
    have e1 : (rollsum_roll r 0).s1 = 1984 := by
      simp only [rollsum_roll, hw, h1]
      decide
    have e2 : (rollsum_roll r 0).s2 = 124992 := by
      simp only [rollsum_roll, hw, h1, h2]
      decide
    have ew : ∀ i, (rollsum_roll r 0).window i = 0 := by
      intro i
      simp only [rollsum_roll]
      split_ifs
      · rfl
      · exact hw i
    rw [List.replicate_succ, roll_loop]
    simp only [e1, e2]
    rw [if_neg (by decide)]
    exact ih _ _ _ e1 e2 ew

theorem feed_zeros_forced :
    RecordHashSplitter_feed sample_recordsplitter (List.replicate 32769 0)
      = Except.ok ((true, none), sample_recordsplitter) := by
  have hz : (HashSplitter_roll sample_recordsplitter.r sample_recordsplitter.bits
      (List.replicate 32769 0) 0).1 = 0 :=
    roll_zeros 32769 0 rollsum_init 0 rfl rfl (fun _ => rfl)
  have h := feed_ok sample_recordsplitter (List.replicate 32769 0) (by decide) (by decide)
    (by rw [List.length_replicate]; decide)
  rw [h, hz]
  simp only [List.length_replicate]
  rfl


theorem log2_loop_eq (k : Nat) : ∀ (fuel n : Nat), k < fuel → 2 ^ k ≤ n → n < 2 ^ (k + 1) →
    log2_loop fuel n = k := by
  induction k with
  | zero =>
    intro fuel n hf h1 h2
    obtain ⟨f, rfl⟩ : ∃ f, fuel = f + 1 := ⟨fuel - 1, by omega⟩
    unfold log2_loop
    rw [if_pos (by simpa using h2)]
  | succ m ih =>
    intro fuel n hf h1 h2
    obtain ⟨f, rfl⟩ : ∃ f, fuel = f + 1 := ⟨fuel - 1, by omega⟩
    unfold log2_loop
    have hp : 2 ^ (m + 1) = 2 * 2 ^ m := by rw [pow_succ]; ring
    have hp2 : 2 ^ (m + 1 + 1) = 2 * 2 ^ (m + 1) := by rw [pow_succ]; ring
    have hpos : 0 < 2 ^ m := by positivity
    rw [if_neg (by omega)]
    rw [ih f (n / 2) (by omega) (by omega) (by omega)]

theorem hashsplit_init_total (p e : Int) (h0 : 0 < p) (hmax : p ≤ LONG_MAX) :
    hashsplit_init p e = Except.ok
      { page_size := p.toNat,
        fmincore_chunk_size :=
          if p.toNat < 67108864 then p.toNat * (67108864 / p.toNat) else p.toNat,
        advise_chunk := if p.toNat > 8388608 then p.toNat else 8388608,
        max_bits := 21 } := by
  have hL : LONG_MAX = 9223372036854775807 := by decide
  have hS : SIZE_MAX = 18446744073709551615 := by decide
  have hP : PY_SSIZE_T_MAX = 9223372036854775807 := by decide
  have h21 : log2 (8 * 1024 * 1024) - 2 = 21 := by decide
  have hmul : p.toNat * (67108864 / p.toNat) ≤ 67108864 := Nat.mul_div_le _ _
  unfold hashsplit_init
  dsimp only
  rw [h21, if_neg (by omega), if_neg (by omega), if_neg (by omega), if_neg (by omega)]
  have e1 : (64 * 1024 * 1024 : Nat) = 67108864 := by norm_num
  have e2 : (8 * 1024 * 1024 : Nat) = 8388608 := by norm_num
  rw [e1, e2]
  rw [if_neg, if_neg]
  · split_ifs <;> omega
  · split_ifs <;> omega

theorem nextfile_first (s : HashSplitter) (h : s.filenum = -1) :
    (HashSplitter_nextfile s).1 = 0 ∧
    (s.files = [] → (HashSplitter_nextfile s).2.fobj = none ∧
      (HashSplitter_nextfile s).2.calls = s.calls ∧
      (HashSplitter_nextfile s).2.files = []) := by
  unfold HashSplitter_nextfile
  simp only [h]
  rw [if_neg (by decide)]
  constructor
  · split
    · rfl
    · split <;> rfl
  · intro hf
    simp only [hf]
    exact ⟨trivial, trivial, trivial⟩

theorem nextfile_rc (s : HashSplitter) (rc : Int) (t : HashSplitter)
    (h : HashSplitter_nextfile s = (rc, t)) (hf : s.filenum = -1) : rc = 0 := by
  have h1 := (nextfile_first s hf).1
  rw [h] at h1
  exact h1

theorem nextfile_freed (s : HashSplitter) : (HashSplitter_nextfile s).2.freed = s.freed := by
  unfold HashSplitter_nextfile
  dsimp only
  split
  · rfl
  · split
    · rfl
    · split <;> split_ifs <;> rfl

theorem select_mode_ok (known : Bool) (ptr : CharPtr) (m : bup_splitter_mode)
    (h : select_mode known ptr = Except.ok m) :
    (m = bup_splitter_mode.SPLIT_MODE_LEGACY ∧
      (ptr = CharPtr.null ∨ ptr = CharPtr.str "legacy")) ∨
    (m = bup_splitter_mode.SPLIT_MODE_FASTCDC ∧ known = true ∧
      ptr = CharPtr.str "fastcdc") := by
  unfold select_mode at h
  split at h
  · simp only [Except.ok.injEq] at h
    exact Or.inl ⟨h.symm, Or.inl rfl⟩
  · rename_i x
    split_ifs at h with h1 h2
    · simp only [Except.ok.injEq] at h
      exact Or.inl ⟨h.symm, Or.inr (by rw [h1])⟩
    · simp only [Except.ok.injEq] at h
      exact Or.inr ⟨h.symm, h2.1, by rw [h2.2]⟩
  · exact Except.noConfusion h

theorem select_mode_error (known : Bool) (ptr : CharPtr) (f : Fault)
    (h : select_mode known ptr = Except.error f) :
    (f = Fault.raised PyError.ValueError ∧ ptr ≠ CharPtr.wild) ∨
    (f = Fault.crashed ∧ ptr = CharPtr.wild) := by
  unfold select_mode at h
  split at h
  · exact Except.noConfusion h
  · split_ifs at h
    simp only [Except.error.injEq] at h
    exact Or.inl ⟨h.symm, fun hh => CharPtr.noConfusion hh⟩
  · simp only [Except.error.injEq] at h
    exact Or.inr ⟨h.symm, rfl⟩

theorem init_valid (g : Globals) (heap : Nat → Nat → Nat) (args : InitArgs)
    (s0 : HashSplitter) (h0 : HashSplitter_init g heap args = Except.ok s0) :
    (∃ b, args.bits = some b ∧ 13 ≤ b ∧ b ≤ g.max_bits) ∧ args.fanbits ≠ some 0 ∧
    ((parsed_mode args.mode args.stale_mode = CharPtr.null ∨
      parsed_mode args.mode args.stale_mode = CharPtr.str "legacy") ∨
      parsed_mode args.mode args.stale_mode = CharPtr.str "fastcdc") := by
  obtain ⟨bits, m, self, k1, k2, k3, k4, k5, _⟩ := init_spec g heap args s0 h0
  refine ⟨⟨bits, k1, k2, k3⟩, k4, ?_⟩
  rcases select_mode_ok _ _ _ k5 with ⟨_, h⟩ | ⟨_, _, h⟩
  · exact Or.inl h
  · exact Or.inr h

/-- The ways in which construction fails: a missing `bits` fails the argument parsing with
`TypeError`, a `mode` pointer that cannot be read ends the process, and every other failure
raises `ValueError`. -/
theorem init_error (g : Globals) (heap : Nat → Nat → Nat) (args : InitArgs) (f : Fault)
    (h0 : HashSplitter_init g heap args = Except.error f) :
    (args.bits = none ∧ f = Fault.raised PyError.TypeError) ∨
    (args.bits ≠ none ∧ parsed_mode args.mode args.stale_mode = CharPtr.wild ∧
      f = Fault.crashed) ∨
    (args.bits ≠ none ∧ f = Fault.raised PyError.ValueError) := by
  unfold HashSplitter_init at h0
  split at h0
  · rename_i hb
    simp only [Except.error.injEq] at h0
    exact Or.inl ⟨hb, h0.symm⟩
  · rename_i b hb
    have hne : args.bits ≠ none := by rw [hb]; exact fun h => Option.noConfusion h
    right
    split at h0
    · rename_i e hbk
      have : e = PyError.ValueError := by
        unfold bits_from_py_kw at hbk
        dsimp only at hbk
        split_ifs at hbk
        simp only [Except.error.injEq] at hbk
        exact hbk.symm
      subst this
      simp only [Except.error.injEq] at h0
      exact Or.inr ⟨hne, h0.symm⟩
    · dsimp only at h0
      split at h0
      · simp only [Except.error.injEq] at h0
        exact Or.inr ⟨hne, h0.symm⟩
      · split at h0
        · rename_i f1 hm
          simp only [Except.error.injEq] at h0
          subst h0
          rcases select_mode_error _ _ _ hm with ⟨h1, _⟩ | ⟨h1, h2⟩
          · exact Or.inr ⟨hne, h1⟩
          · exact Or.inl ⟨hne, h2, h1⟩
        · split at h0
          · simp only [Except.error.injEq] at h0
            exact Or.inr ⟨hne, h0.symm⟩
          · split at h0
            · rename_i hrc
              exact absurd (nextfile_first _ (by rfl)).1 hrc
            · exact Except.noConfusion h0

theorem init_ok_of_valid (g : Globals) (heap : Nat → Nat → Nat) (args : InitArgs)
    (hg : g.max_bits = 21)
    (hv : (∃ b, args.bits = some b ∧ 13 ≤ b ∧ b ≤ g.max_bits) ∧ args.fanbits ≠ some 0 ∧
      ((parsed_mode args.mode args.stale_mode = CharPtr.null ∨
        parsed_mode args.mode args.stale_mode = CharPtr.str "legacy") ∨
        parsed_mode args.mode args.stale_mode = CharPtr.str "fastcdc")) :
    ∃ s, HashSplitter_init g heap args = Except.ok s := by
  rcases hres : HashSplitter_init g heap args with f | s
  · exfalso
    obtain ⟨⟨b, hb, h13, hmx⟩, hfan, hmode⟩ := hv
    have h22 : log2 8 * 8 - 2 = 22 := by decide
    unfold HashSplitter_init at hres
    rw [hb] at hres
    dsimp only at hres
    have e1 : bits_from_py_kw g.max_bits (some b) = Except.ok b := by
      unfold bits_from_py_kw
      simp only
      rw [if_neg (by omega)]
    rw [e1, h22] at hres
    dsimp only at hres
    have e2 : ¬ (match args.fanbits with
        | none => 4
        | some n => n) = 0 := by
      rcases hfa : args.fanbits with _ | n
      · decide
      · simp only
        intro hn
        apply hfan
        rw [hfa, hn]
    rw [if_neg e2] at hres
    have hsel : ∃ m, select_mode true (parsed_mode args.mode args.stale_mode)
        = Except.ok m := by
      rcases hmode with (hm | hm) | hm <;> rw [hm]
      · exact ⟨_, rfl⟩
      · exact ⟨bup_splitter_mode.SPLIT_MODE_LEGACY, by simp [select_mode]⟩
      · exact ⟨bup_splitter_mode.SPLIT_MODE_FASTCDC, by simp [select_mode]⟩
    obtain ⟨m, hm⟩ := hsel
    rw [hm] at hres
    dsimp only at hres
    rw [if_neg (by omega)] at hres
    split at hres
    · rename_i hrc
      exact absurd (nextfile_first _ (by rfl)).1 hrc
    · exact Except.noConfusion hres
  · exact ⟨s, rfl⟩

theorem iternext_stop (s : HashSplitter) (h1 : s.start = s.end_) (h2 : s.fobj = none)
    (h3 : s.freed = false) :
    HashSplitter_iternext s = Except.ok (Next.stop, { s with freed := true }) := by
  have hfill : iternext_fill s = Except.ok s := by
    unfold iternext_fill
    rw [if_neg (by rw [h2]; simp)]
  unfold HashSplitter_iternext
  show HashSplitter_iternext_loop ((3 * s.files.length + 7) + 1) s = _
  unfold HashSplitter_iternext_loop
  rw [if_neg (by omega), hfill]
  simp only
  rw [if_pos ⟨h1, by rw [h2]; rfl⟩, if_neg (by rw [h3]; decide)]

/-- A call of `next()` on an object that has signalled its end: the end branch is taken
again, and `Py_DECREF` goes through the null buffer pointer. -/
theorem iternext_after_stop (s : HashSplitter) (h1 : s.start = s.end_) (h2 : s.fobj = none)
    (h3 : s.freed = true) : HashSplitter_iternext s = Except.error Fault.crashed := by
  have hfill : iternext_fill s = Except.ok s := by
    unfold iternext_fill
    rw [if_neg (by rw [h2]; simp)]
  unfold HashSplitter_iternext
  show HashSplitter_iternext_loop ((3 * s.files.length + 7) + 1) s = _
  unfold HashSplitter_iternext_loop
  rw [if_neg (by omega), hfill]
  simp only
  rw [if_pos ⟨h1, by rw [h2]; rfl⟩, if_pos h3]

theorem init_empty (g : Globals) (heap : Nat → Nat → Nat) (args : InitArgs)
    (s0 : HashSplitter) (h0 : HashSplitter_init g heap args = Except.ok s0)
    (hfiles : args.files = []) :
    s0.fobj = none ∧ s0.calls = [] ∧ s0.start = 0 ∧ s0.end_ = 0 := by
  obtain ⟨self, e, _, _, _, _, _, b6, b7, b8, b9, b10, _⟩ := init_inv g heap args s0 h0
  obtain ⟨_, n2, n3, _⟩ := nextfile_frame self _ _ (Prod.mk.eta).symm
  subst e
  refine ⟨?_, ?_, by rw [n2, b6], by rw [n3, b7]⟩
  · unfold HashSplitter_nextfile
    simp only [b8, hfiles]
    split_ifs
    · exact b9
    · rfl
  · unfold HashSplitter_nextfile
    simp only [b8, hfiles]
    split_ifs
    · exact b10
    · exact b10

theorem init_freed (g : Globals) (heap : Nat → Nat → Nat) (args : InitArgs)
    (s0 : HashSplitter) (h0 : HashSplitter_init g heap args = Except.ok s0) :
    s0.freed = false := by
  obtain ⟨_, _, self, _, _, _, _, _, _, e, _, _, _, _, _, _, _, _, _, _, _, _, _, hfr, _⟩ :=
    init_spec g heap args s0 h0
  rw [e, nextfile_freed, hfr]

theorem nextfile_snd_frame (s t : HashSplitter) (h : (HashSplitter_nextfile s).2 = t) :
    SameCfg s t ∧ t.start = s.start ∧ t.end_ = s.end_ := by
  subst h
  obtain ⟨a, b, c, _⟩ := nextfile_frame s _ _ (Prod.mk.eta).symm
  exact ⟨a, b, c⟩

theorem init_fields (g : Globals) (heap : Nat → Nat → Nat) (args : InitArgs)
    (s0 : HashSplitter) (h0 : HashSplitter_init g heap args = Except.ok s0) :
    args.bits = some s0.bits ∧
    (s0.mode = bup_splitter_mode.SPLIT_MODE_LEGACY ↔
      (parsed_mode args.mode args.stale_mode = CharPtr.null ∨
        parsed_mode args.mode args.stale_mode = CharPtr.str "legacy")) ∧
    s0.max_blob = 1 <<< (s0.bits + 2) ∧ s0.bufsz = g.advise_chunk ∧
    s0.start = 0 ∧ s0.end_ = 0 := by
  obtain ⟨bits, m, self, k1, _, _, _, k5, _, e, _, b1, b2, b3, b4, _, b6, b7, _⟩ :=
    init_spec g heap args s0 h0
  obtain ⟨⟨a1, a2, a3, a4, _⟩, n2, n3⟩ := nextfile_snd_frame self s0 e.symm
  refine ⟨by rw [k1, a1, b1], ?_, by rw [a2, a1, b3, b1], by rw [a3, b4], by rw [n2, b6],
    by rw [n3, b7]⟩
  rw [a4, b2]
  rcases select_mode_ok _ _ _ k5 with ⟨hm, h⟩ | ⟨hm, _, h⟩
  · exact ⟨fun _ => h, fun _ => hm⟩
  · constructor
    · intro hl
      rw [hm] at hl
      exact bup_splitter_mode.noConfusion hl
    · intro hp
      rw [h] at hp
      rcases hp with hp | hp
      · exact CharPtr.noConfusion hp
      · exact absurd hp (by decide)

theorem split_found_fst (v nbits e : Nat) :
    (split_found v nbits e).1 = (split_found v nbits 0).1 := by
  unfold split_found
  simp only
  split_ifs <;> rfl

theorem split_found_snd (v nbits e : Nat) (h : (split_found v nbits e).1 = true) :
    (split_found v nbits e).2 = (split_found v nbits 0).2 := by
  unfold split_found at h ⊢
  simp only at h ⊢
  split_ifs at h ⊢ with hc
  rfl

theorem rolled_state_succ_lo (mem : Nat → Nat) (i : Nat) (h : i < BUP_WINDOWSIZE) :
    rolled_state mem (i + 1) =
      (legacy_s1 (rolled_state mem i).1 (mem i) 0,
        legacy_s2 (rolled_state mem i).2 (legacy_s1 (rolled_state mem i).1 (mem i) 0) 0) := by
  rw [rolled_state]
  simp only [if_pos h]

theorem rolled_state_succ_hi (mem : Nat → Nat) (i : Nat) (h : BUP_WINDOWSIZE ≤ i) :
    rolled_state mem (i + 1) =
      (legacy_s1 (rolled_state mem i).1 (mem i) (mem (i - BUP_WINDOWSIZE)),
        legacy_s2 (rolled_state mem i).2
          (legacy_s1 (rolled_state mem i).1 (mem i) (mem (i - BUP_WINDOWSIZE)))
          (mem (i - BUP_WINDOWSIZE))) := by
  rw [rolled_state]
  simp only [if_neg (Nat.not_lt.mpr h)]

theorem fill_loop_miss (nbits : Nat) (mem : Nat → Nat) (e : Nat) (n : Nat) :
    ∀ (pos s1 s2 : Nat), rolled_state mem pos = (s1, s2) → pos + n ≤ BUP_WINDOWSIZE →
    (∀ o, pos < o → o ≤ pos + n → split_at nbits mem o = false) →
    legacy_fill_loop nbits mem e n pos s1 s2 = Sum.inr (rolled_state mem (pos + n)) := by
  induction n with
  | zero =>
    intro pos s1 s2 hst _ _
    rw [legacy_fill_loop, Nat.add_zero, hst]
  | succ m ih =>
    intro pos s1 s2 hst hle hmiss
    have hnext := rolled_state_succ_lo mem pos (by omega)
    rw [hst] at hnext
    simp only at hnext
    have h1 := hmiss (pos + 1) (by omega) (by omega)
    unfold split_at rolled_digest at h1
    rw [hnext] at h1
    simp only at h1
    rw [legacy_fill_loop]
    rw [if_neg (by rw [split_found_fst, h1]; exact Bool.false_ne_true)]
    rw [ih (pos + 1) _ _ hnext (by omega) (fun o ho1 ho2 => hmiss o (by omega) (by omega))]
    rw [Nat.add_assoc, Nat.add_comm 1 m]

theorem fill_loop_hit (nbits : Nat) (mem : Nat → Nat) (e : Nat) (n : Nat) :
    ∀ (pos s1 s2 o : Nat), rolled_state mem pos = (s1, s2) → pos + n ≤ BUP_WINDOWSIZE →
    pos < o → o ≤ pos + n → split_at nbits mem o = true →
    (∀ o', pos < o' → o' < o → split_at nbits mem o' = false) →
    legacy_fill_loop nbits mem e n pos s1 s2
      = Sum.inl (o, (split_found (rolled_digest mem o) nbits 0).2) := by
  induction n with
  | zero =>
    intro pos s1 s2 o _ _ h1 h2 _ _
    omega
  | succ m ih =>
    intro pos s1 s2 o hst hle ho1 ho2 hhit hfirst
    have hnext := rolled_state_succ_lo mem pos (by omega)
    rw [hst] at hnext
    simp only at hnext
    rw [legacy_fill_loop]
    by_cases ho : o = pos + 1
    · subst ho
      unfold split_at rolled_digest at hhit
      unfold rolled_digest
      rw [hnext] at hhit ⊢
      simp only at hhit ⊢
      have hc : (split_found (legacy_digest (legacy_s1 s1 (mem pos) 0)
          (legacy_s2 s2 (legacy_s1 s1 (mem pos) 0) 0)) nbits e).1 = true := by
        rw [split_found_fst, hhit]
      rw [if_pos hc, split_found_snd _ _ _ hc]
    · have h1 := hfirst (pos + 1) (by omega) (by omega)
      unfold split_at rolled_digest at h1
      rw [hnext] at h1
      simp only at h1
      rw [if_neg (by rw [split_found_fst, h1]; exact Bool.false_ne_true)]
      exact ih (pos + 1) _ _ o hnext (by omega) (by omega) (by omega) hhit
        (fun o' h1 h2 => hfirst o' (by omega) h2)

theorem main_loop_miss (nbits : Nat) (mem : Nat → Nat) (e : Nat) (n : Nat) :
    ∀ (pos s1 s2 : Nat), rolled_state mem pos = (s1, s2) → BUP_WINDOWSIZE ≤ pos →
    (∀ o, pos < o → o ≤ pos + n → split_at nbits mem o = false) →
    legacy_main_loop nbits mem e n pos s1 s2 = (0, e) := by
  induction n with
  | zero =>
    intro pos s1 s2 _ _ _
    rw [legacy_main_loop]
  | succ m ih =>
    intro pos s1 s2 hst hle hmiss
    have hnext := rolled_state_succ_hi mem pos hle
    rw [hst] at hnext
    simp only at hnext
    have h1 := hmiss (pos + 1) (by omega) (by omega)
    unfold split_at rolled_digest at h1
    rw [hnext] at h1
    simp only at h1
    rw [legacy_main_loop]
    rw [if_neg (by rw [split_found_fst, h1]; exact Bool.false_ne_true)]
    exact ih (pos + 1) _ _ hnext (by omega) (fun o ho1 ho2 => hmiss o (by omega) (by omega))

theorem main_loop_hit (nbits : Nat) (mem : Nat → Nat) (e : Nat) (n : Nat) :
    ∀ (pos s1 s2 o : Nat), rolled_state mem pos = (s1, s2) → BUP_WINDOWSIZE ≤ pos →
    pos < o → o ≤ pos + n → split_at nbits mem o = true →
    (∀ o', pos < o' → o' < o → split_at nbits mem o' = false) →
    legacy_main_loop nbits mem e n pos s1 s2
      = (o, (split_found (rolled_digest mem o) nbits 0).2) := by
  induction n with
  | zero =>
    intro pos s1 s2 o _ _ h1 h2 _ _
    omega
  | succ m ih =>
    intro pos s1 s2 o hst hle ho1 ho2 hhit hfirst
    have hnext := rolled_state_succ_hi mem pos hle
    rw [hst] at hnext
    simp only at hnext
    rw [legacy_main_loop]
    by_cases ho : o = pos + 1
    · subst ho
      unfold split_at rolled_digest at hhit
      unfold rolled_digest
      rw [hnext] at hhit ⊢
      simp only at hhit ⊢
      have hc : (split_found (legacy_digest (legacy_s1 s1 (mem pos) (mem (pos - BUP_WINDOWSIZE)))
          (legacy_s2 s2 (legacy_s1 s1 (mem pos) (mem (pos - BUP_WINDOWSIZE)))
            (mem (pos - BUP_WINDOWSIZE)))) nbits e).1 = true := by
        rw [split_found_fst, hhit]
      rw [if_pos hc, split_found_snd _ _ _ hc]
    · have h1 := hfirst (pos + 1) (by omega) (by omega)
      unfold split_at rolled_digest at h1
      rw [hnext] at h1
      simp only at h1
      rw [if_neg (by rw [split_found_fst, h1]; exact Bool.false_ne_true)]
      exact ih (pos + 1) _ _ o hnext (by omega) (by omega) (by omega) hhit
        (fun o' h1 h2 => hfirst o' (by omega) h2)


theorem legacy_first_hit (nbits : Nat) (mem : Nat → Nat) (len e o : Nat)
    (ho1 : 0 < o) (ho2 : o ≤ max 64 len) (hhit : split_at nbits mem o = true)
    (hfirst : ∀ o', 0 < o' → o' < o → split_at nbits mem o' = false) :
    HashSplitter_find_offs_legacy nbits mem len e
      = (o, (split_found (rolled_digest mem o) nbits 0).2) := by
  unfold HashSplitter_find_offs_legacy
  simp only
  by_cases hlo : o ≤ BUP_WINDOWSIZE
  · rw [fill_loop_hit nbits mem e BUP_WINDOWSIZE 0 _ _ o rfl (by omega) ho1 (by omega) hhit
      hfirst]
  · have h64 : BUP_WINDOWSIZE = 64 := rfl
    rw [fill_loop_miss nbits mem e BUP_WINDOWSIZE 0 _ _ rfl (by omega)
      (fun o' h1 h2 => hfirst o' h1 (by omega))]
    simp only
    exact main_loop_hit nbits mem e (len - BUP_WINDOWSIZE) BUP_WINDOWSIZE _ _ o
      (by rw [Nat.zero_add]) (le_refl _) (by omega) (by omega) hhit
      (fun o' h1 h2 => hfirst o' (by omega) h2)

theorem legacy_no_hit (nbits : Nat) (mem : Nat → Nat) (len e : Nat)
    (hmiss : ∀ o, 0 < o → o ≤ max 64 len → split_at nbits mem o = false) :
    HashSplitter_find_offs_legacy nbits mem len e = (0, e) := by
  have h64 : BUP_WINDOWSIZE = 64 := rfl
  unfold HashSplitter_find_offs_legacy
  simp only
  rw [fill_loop_miss nbits mem e BUP_WINDOWSIZE 0 _ _ rfl (by omega)
    (fun o' h1 h2 => hmiss o' h1 (by omega))]
  simp only
  exact main_loop_miss nbits mem e (len - BUP_WINDOWSIZE) BUP_WINDOWSIZE _ _
    (by rw [Nat.zero_add]) (le_refl _) (fun o' h1 h2 => hmiss o' (by omega) (by omega))

/-- What the legacy scanner returns: the first split point among the offsets up to
`max 64 len`, or 0 when there is none. -/
theorem legacy_result (nbits : Nat) (mem : Nat → Nat) (len e : Nat) :
    (HashSplitter_find_offs_legacy nbits mem len e = (0, e) ∧
      ∀ o, 0 < o → o ≤ max 64 len → split_at nbits mem o = false) ∨
    (∃ o, 0 < o ∧ o ≤ max 64 len ∧ split_at nbits mem o = true ∧
      (∀ o', 0 < o' → o' < o → split_at nbits mem o' = false) ∧
      HashSplitter_find_offs_legacy nbits mem len e
        = (o, (split_found (rolled_digest mem o) nbits 0).2)) := by
  by_cases h : ∃ o, 0 < o ∧ o ≤ max 64 len ∧ split_at nbits mem o = true
  · right
    obtain ⟨h1, h2, h3⟩ := Nat.find_spec h
    have hmin : ∀ o', 0 < o' → o' < Nat.find h → split_at nbits mem o' = false := by
      intro o' p1 p2
      have := Nat.find_min h p2
      by_contra hc
      exact this ⟨p1, by omega, by simpa using hc⟩
    exact ⟨Nat.find h, h1, h2, h3, hmin, legacy_first_hit nbits mem len e _ h1 h2 h3 hmin⟩
  · left
    have hmiss : ∀ o, 0 < o → o ≤ max 64 len → split_at nbits mem o = false := by
      intro o p1 p2
      by_contra hc
      exact h ⟨o, p1, p2, by simpa using hc⟩
    exact ⟨legacy_no_hit nbits mem len e hmiss, hmiss⟩


theorem and_eq_mask_iff (x m : Nat) :
    x &&& m = m ↔ ∀ i, m.testBit i = true → x.testBit i = true := by
  constructor
  · intro h i hi
    have h1 : (x &&& m).testBit i = m.testBit i := by rw [h]
    rw [Nat.testBit_and, hi, Bool.and_true] at h1
    exact h1
  · intro h
    apply Nat.eq_of_testBit_eq
    intro i
    rw [Nat.testBit_and]
    cases hm : m.testBit i with
    | false => rw [Bool.and_false]
    | true => rw [h i hm, Bool.and_true]

theorem split_found_iff (d nbits e : Nat) :
    (split_found d nbits e).1 = true ↔
      d &&& (((1 <<< nbits) - 1) % U32) = ((1 <<< nbits) - 1) % U32 := by
  unfold split_found
  simp only
  split_ifs with h
  · exact ⟨fun _ => h, fun _ => rfl⟩
  · exact ⟨fun hc => False.elim hc, fun hc => absurd hc h⟩

theorem mask_testBit (n k i : Nat) :
    (((1 <<< n) - 1) % 2 ^ k).testBit i = (decide (i < k) && decide (i < n)) := by
  rw [Nat.one_shiftLeft, Nat.testBit_mod_two_pow, Nat.testBit_two_pow_sub_one]

theorem digest_testBit (s1 s2 i : Nat) :
    (legacy_digest s1 s2).testBit i =
      ((decide (i < 32) && (decide (16 ≤ i) && s1.testBit (i - 16))) ||
        (s2.testBit i && decide (i < 16))) := by
  unfold legacy_digest
  have hU : U32 = 2 ^ 32 := by decide
  have hf : (0xffff : Nat) = 2 ^ 16 - 1 := by decide
  rw [hU, hf, Nat.testBit_or, Nat.testBit_mod_two_pow, Nat.testBit_shiftLeft, Nat.testBit_and,
    Nat.testBit_two_pow_sub_one]

/-- The test of `HashSplitter_roll` on the two 16-bit halves is the test of `split_found` on
the digest. -/
theorem two_mask_iff (nbits s1 s2 : Nat) (hn : nbits ≤ 32) :
    (s2 &&& (((1 <<< nbits) - 1) % 65536) = ((1 <<< nbits) - 1) % 65536 ∧
      s1 &&& (if nbits ≤ 16 then 0 else ((1 <<< (nbits - 16)) - 1) % 65536)
        = (if nbits ≤ 16 then 0 else ((1 <<< (nbits - 16)) - 1) % 65536)) ↔
    (split_found (legacy_digest s1 s2) nbits 0).1 = true := by
  have h16 : (65536 : Nat) = 2 ^ 16 := by decide
  have hU : U32 = 2 ^ 32 := by decide
  rw [split_found_iff, and_eq_mask_iff, and_eq_mask_iff, and_eq_mask_iff, h16, hU]
  constructor
  · rintro ⟨h2, h1⟩ i hi
    rw [mask_testBit] at hi
    simp only [Bool.and_eq_true, decide_eq_true_eq] at hi
    rw [digest_testBit]
    by_cases hlo : i < 16
    · have := h2 i (by rw [mask_testBit]; simp [hlo, hi.2])
      simp [this, hlo]
    · have hn16 : ¬ nbits ≤ 16 := by omega
      rw [if_neg hn16] at h1
      have := h1 (i - 16) (by rw [mask_testBit]; simp; omega)
      simp [this, hi.1]
      omega
  · intro h
    constructor
    · intro i hi
      rw [mask_testBit] at hi
      simp only [Bool.and_eq_true, decide_eq_true_eq] at hi
      have := h i (by rw [mask_testBit]; simp; omega)
      rw [digest_testBit] at this
      simp [hi.1] at this
      rcases this with h1 | h1
      · omega
      · exact h1
    · intro i hi
      by_cases hn16 : nbits ≤ 16
      · rw [if_pos hn16] at hi
        simp at hi
      · rw [if_neg hn16, mask_testBit] at hi
        simp only [Bool.and_eq_true, decide_eq_true_eq] at hi
        have := h (i + 16) (by rw [mask_testBit]; simp; omega)
        rw [digest_testBit] at this
        simp at this
        exact this.2


theorem legacy_s1_congr (s a d d' : Nat) (h : d % 256 = d' % 256) :
    legacy_s1 s a d = legacy_s1 s a d' := by
  unfold legacy_s1
  rw [h]

theorem legacy_s2_congr (s2 s1 d d' : Nat) (h : d % 256 = d' % 256) :
    legacy_s2 s2 s1 d = legacy_s2 s2 s1 d' := by
  unfold legacy_s2
  rw [h]

theorem roll_inv_init (mem : Nat → Nat) : RollInv mem 0 rollsum_init := by
  refine ⟨rfl, rfl, ?_⟩
  intro m _ hm
  rw [if_pos (by omega)]
  rfl

theorem roll_inv_step (mem : Nat → Nat) (k : Nat) (r : Rollsum) (b : Nat)
    (h : RollInv mem k r) (hb : b = mem k) : RollInv mem (k + 1) (rollsum_roll r b) := by
  obtain ⟨hst, hw, hwin⟩ := h
  have h64 : BUP_WINDOWSIZE = 64 := rfl
  have hdrop := hwin k (le_refl _) (by omega)
  rw [← hw] at hdrop
  refine ⟨?_, ?_, ?_⟩
  · rw [rolled_state, hst, h64]
    unfold rollsum_roll
    simp only
    rw [hb, legacy_s1_congr _ _ _ _ hdrop, legacy_s2_congr _ _ _ _ hdrop]
  · unfold rollsum_roll
    simp only
    rw [hw, h64]
    omega
  · intro m hm1 hm2
    unfold rollsum_roll
    simp only
    by_cases hm : m = k + 64
    · subst hm
      rw [if_pos (by rw [hw]; omega), if_neg (by omega), Nat.mod_mod, hb]
      congr 2
    · rw [if_neg (by rw [hw]; omega)]
      exact hwin m (by omega) (by omega)

theorem roll_loop_miss (nbits : Nat) (mem : Nat → Nat) (hn : nbits ≤ 32) :
    ∀ (l : List Nat) (count : Nat) (r : Rollsum) (e k : Nat), RollInv mem k r →
    (∀ j, j < l.length → l.getD j 0 = mem (k + j)) →
    (∀ o, k < o → o ≤ k + l.length → split_at nbits mem o = false) →
    (roll_loop nbits (((1 <<< nbits) - 1) % 65536)
        (if nbits ≤ 16 then 0 else ((1 <<< (nbits - 16)) - 1) % 65536) l count r e).1 = 0 ∧
    RollInv mem (k + l.length)
      (roll_loop nbits (((1 <<< nbits) - 1) % 65536)
        (if nbits ≤ 16 then 0 else ((1 <<< (nbits - 16)) - 1) % 65536) l count r e).2.2 := by
  intro l
  induction l with
  | nil =>
    intro count r e k hinv _ _
    exact ⟨rfl, hinv⟩
  | cons b rest ih =>
    intro count r e k hinv hmem hmiss
    have hb : b = mem k := by
      have := hmem 0 (Nat.succ_pos _)
      simpa using this
    have hstep := roll_inv_step mem k r b hinv hb
    have h1 := hmiss (k + 1) (by omega) (by simp)
    unfold split_at rolled_digest at h1
    rw [hstep.1] at h1
    simp only at h1
    rw [roll_loop]
    simp only
    rw [if_neg (by rw [two_mask_iff nbits _ _ hn, h1]; exact Bool.false_ne_true)]
    have := ih (count + 1) (rollsum_roll r b) e (k + 1) hstep
      (fun j hj => by
        have := hmem (j + 1) (by simpa using hj)
        simp only [List.getD_cons_succ] at this
        rw [this]
        congr 1
        omega)
      (fun o ho1 ho2 => hmiss o (by omega) (by simp only [List.length_cons]; omega))
    simp only [List.length_cons]
    rw [show k + (rest.length + 1) = k + 1 + rest.length by omega]
    exact this

theorem roll_loop_hit (nbits : Nat) (mem : Nat → Nat) (hn : nbits ≤ 32) :
    ∀ (l : List Nat) (count : Nat) (r : Rollsum) (e k o : Nat), RollInv mem k r →
    (∀ j, j < l.length → l.getD j 0 = mem (k + j)) →
    k < o → o ≤ k + l.length → split_at nbits mem o = true →
    (∀ o', k < o' → o' < o → split_at nbits mem o' = false) →
    (roll_loop nbits (((1 <<< nbits) - 1) % 65536)
        (if nbits ≤ 16 then 0 else ((1 <<< (nbits - 16)) - 1) % 65536) l count r e).1
      = count + (o - k) ∧
    (roll_loop nbits (((1 <<< nbits) - 1) % 65536)
        (if nbits ≤ 16 then 0 else ((1 <<< (nbits - 16)) - 1) % 65536) l count r e).2.1
      = count_ones_loop 32 (rolled_digest mem o >>> nbits >>> 1) 0 := by
  intro l
  induction l with
  | nil =>
    intro count r e k o _ _ h1 h2 _ _
    simp only [List.length_nil] at h2
    omega
  | cons b rest ih =>
    intro count r e k o hinv hmem ho1 ho2 hhit hfirst
    have hb : b = mem k := by
      have := hmem 0 (Nat.succ_pos _)
      simpa using this
    have hstep := roll_inv_step mem k r b hinv hb
    simp only [List.length_cons] at ho2
    rw [roll_loop]
    simp only
    by_cases ho : o = k + 1
    · subst ho
      unfold split_at rolled_digest at hhit
      unfold rolled_digest
      rw [hstep.1] at hhit ⊢
      simp only at hhit ⊢
      rw [if_pos (by rw [two_mask_iff nbits _ _ hn, hhit])]
      simp only [rollsum_digest]
      exact ⟨by omega, trivial⟩
    · have h1 := hfirst (k + 1) (by omega) (by omega)
      unfold split_at rolled_digest at h1
      rw [hstep.1] at h1
      simp only at h1
      rw [if_neg (by rw [two_mask_iff nbits _ _ hn, h1]; exact Bool.false_ne_true)]
      have := ih (count + 1) (rollsum_roll r b) e (k + 1) o hstep
        (fun j hj => by
          have := hmem (j + 1) (by simpa using hj)
          simp only [List.getD_cons_succ] at this
          rw [this]
          congr 1
          omega)
        (by omega) (by omega) hhit (fun o' p1 p2 => hfirst o' (by omega) p2)
      refine ⟨?_, this.2⟩
      rw [this.1]
      omega


/-- What `HashSplitter_roll` returns on a record that continues the bytes `mem[0 .. k)`: the
distance to the first split point inside the record, or 0 when there is none. -/
theorem roll_result (nbits : Nat) (mem : Nat → Nat) (hn : nbits ≤ 32) (l : List Nat)
    (r : Rollsum) (k : Nat) (hinv : RollInv mem k r)
    (hmem : ∀ j, j < l.length → l.getD j 0 = mem (k + j)) :
    ((HashSplitter_roll r nbits l 0).1 = 0 ∧
      (∀ o, k < o → o ≤ k + l.length → split_at nbits mem o = false) ∧
      RollInv mem (k + l.length) (HashSplitter_roll r nbits l 0).2.2) ∨
    (∃ o, k < o ∧ o ≤ k + l.length ∧ split_at nbits mem o = true ∧
      (∀ o', k < o' → o' < o → split_at nbits mem o' = false) ∧
      (HashSplitter_roll r nbits l 0).1 = o - k ∧
      (HashSplitter_roll r nbits l 0).2.1
        = count_ones_loop 32 (rolled_digest mem o >>> nbits >>> 1) 0) := by
  unfold HashSplitter_roll
  simp only
  by_cases h : ∃ o, k < o ∧ o ≤ k + l.length ∧ split_at nbits mem o = true
  · right
    obtain ⟨h1, h2, h3⟩ := Nat.find_spec h
    have hmin : ∀ o', k < o' → o' < Nat.find h → split_at nbits mem o' = false := by
      intro o' p1 p2
      have := Nat.find_min h p2
      by_contra hc
      exact this ⟨p1, by omega, by simpa using hc⟩
    obtain ⟨a1, a2⟩ := roll_loop_hit nbits mem hn l 0 r 0 k _ hinv hmem h1 h2 h3 hmin
    exact ⟨Nat.find h, h1, h2, h3, hmin, by rw [a1, Nat.zero_add], a2⟩
  · left
    have hmiss : ∀ o, k < o → o ≤ k + l.length → split_at nbits mem o = false := by
      intro o p1 p2
      by_contra hc
      exact h ⟨o, p1, p2, by simpa using hc⟩
    obtain ⟨a1, a2⟩ := roll_loop_miss nbits mem hn l 0 r 0 k hinv hmem hmiss
    exact ⟨a1, hmiss, a2⟩

theorem feeds_cons (s0 s : RecordHashSplitter) (rec : List Nat) (rest : List (List Nat))
    (h : RecordHashSplitter_feeds s0 (rec :: rest) = some s) :
    ∃ s1, RecordHashSplitter_feed s0 rec = Except.ok ((false, none), s1) ∧
      RecordHashSplitter_feeds s1 rest = some s := by
  rw [RecordHashSplitter_feeds] at h
  split at h
  · rename_i s1 heq
    exact ⟨s1, heq, h⟩
  · exact Option.noConfusion h

theorem feed_quiet (s s1 : RecordHashSplitter) (rec : List Nat)
    (h : RecordHashSplitter_feed s rec = Except.ok ((false, none), s1)) :
    (HashSplitter_roll s.r s.bits rec 0).1 = 0 ∧
    s1.r = (HashSplitter_roll s.r s.bits rec 0).2.2 ∧ s1.bits = s.bits := by
  obtain ⟨h1, h2⟩ := feed_inv s rec _ s1 h
  simp only [Prod.mk.injEq] at h1
  obtain ⟨h1a, h1b⟩ := h1
  have hout : (HashSplitter_roll s.r s.bits rec 0).1 = 0 := by
    by_contra hc
    rw [if_pos hc] at h1b
    exact Option.noConfusion h1b
  have hforce : ¬ ((if (HashSplitter_roll s.r s.bits rec 0).1 ≠ 0 then 0 else s.split_size)
      + rec.length > s.max_split_size) := by
    intro hc
    rw [decide_eq_true hc, Bool.or_true] at h1a
    exact Bool.noConfusion h1a
  rw [if_neg hforce] at h2
  subst h2
  refine ⟨hout, ?_, rfl⟩
  simp only
  rw [if_neg (by simpa using hout)]

theorem feeds_inv (mem : Nat → Nat) : ∀ (prev : List (List Nat)) (s0 s : RecordHashSplitter)
    (k : Nat), RecordHashSplitter_feeds s0 prev = some s → RollInv mem k s0.r →
    s0.bits ≤ 32 →
    (∀ j, j < prev.flatten.length → prev.flatten.getD j 0 = mem (k + j)) →
    RollInv mem (k + prev.flatten.length) s.r ∧ s.bits = s0.bits ∧
    (∀ o, k < o → o ≤ k + prev.flatten.length → split_at s0.bits mem o = false) := by
  intro prev
  induction prev with
  | nil =>
    intro s0 s k h hinv _ _
    rw [RecordHashSplitter_feeds] at h
    simp only [Option.some.injEq] at h
    subst h
    refine ⟨hinv, rfl, ?_⟩
    intro o h1 h2
    simp only [List.flatten_nil, List.length_nil] at h2
    omega
  | cons rec rest ih =>
    intro s0 s k h hinv hb hmem
    obtain ⟨s1, hf, hrest⟩ := feeds_cons s0 s rec rest h
    obtain ⟨q1, q2, q3⟩ := feed_quiet s0 s1 rec hf
    simp only [List.flatten_cons, List.length_append] at hmem ⊢
    have hmem1 : ∀ j, j < rec.length → rec.getD j 0 = mem (k + j) := by
      intro j hj
      rw [← hmem j (by omega), List.getD_append _ _ _ _ hj]
    have hmem2 : ∀ j, j < rest.flatten.length →
        rest.flatten.getD j 0 = mem (k + rec.length + j) := by
      intro j hj
      rw [Nat.add_assoc, ← hmem (rec.length + j) (by omega),
        List.getD_append_right _ _ _ _ (by omega)]
      congr 1
      omega
    rcases roll_result s0.bits mem hb rec s0.r k hinv hmem1 with ⟨_, r2, r3⟩ | ⟨o, o1, _, _, _, o5, _⟩
    · rw [← q2] at r3
      obtain ⟨i1, i2, i3⟩ := ih s1 s (k + rec.length) hrest r3 (by rw [q3]; exact hb) hmem2
      refine ⟨by rw [← Nat.add_assoc]; exact i1, by rw [i2, q3], ?_⟩
      intro o h1 h2
      by_cases ho : o ≤ k + rec.length
      · exact r2 o h1 ho
      · rw [← q3]
        exact i3 o (by omega) (by omega)
    · rw [q1] at o5
      omega


theorem split_found_count (d nbits : Nat) (hd : d < U32)
    (h : (split_found d nbits 0).1 = true) :
    (split_found d nbits 0).2 = count_ones_loop 32 (d >>> nbits >>> 1) 0 := by
  rw [← split_found_variants d nbits 0 hd] at h ⊢
  unfold split_found_loop at h ⊢
  simp only at h ⊢
  split_ifs at h ⊢ with hc
  rfl

theorem full_buffer_forced (s : HashSplitter) (hfull : s.bufsz ≤ s.end_)
    (hse : s.start ≤ s.end_) (hpos : 0 < s.max_blob) (hlive : s.max_blob ≤ s.end_ - s.start)
    (hscan : (iternext_scan s).1 = 0) (hfr : s.freed = false) :
    HashSplitter_iternext s = Except.ok
      (Next.chunk (slice s.buf s.start s.max_blob) 0,
        { s with start := s.start + s.max_blob }) := by
  have hfill : iternext_fill s = Except.ok s := by
    unfold iternext_fill
    rw [if_neg (by intro h; omega)]
  unfold HashSplitter_iternext
  show HashSplitter_iternext_loop ((3 * s.files.length + 7) + 1) s = _
  unfold HashSplitter_iternext_loop
  rw [if_neg (by omega), hfill]
  simp only
  rw [if_neg (by intro h; omega), if_neg (by rw [hfr]; decide),
    if_neg (by simpa using hscan), if_pos (by omega)]
  unfold iternext_emit
  rw [if_neg (by omega)]

theorem sum_shift_one (f : Nat → Nat) (n : Nat) :
    ∑ j in Finset.range 64, f (n + 1 + j) + f n
      = ∑ j in Finset.range 64, f (n + j) + f (n + 64) := by
  simp only [Finset.sum_range_succ, Finset.sum_range_zero, Nat.add_assoc, Nat.add_zero]
  norm_num
  omega

theorem sum_shift_weighted (f : Nat → Nat) (n : Nat) :
    ∑ j in Finset.range 64, (64 - j) * f (n + 1 + j) + 64 * f n
      = ∑ j in Finset.range 64, (64 - j) * f (n + j)
        + ∑ j in Finset.range 64, f (n + 1 + j) := by
  simp only [Finset.sum_range_succ, Finset.sum_range_zero, Nat.add_assoc, Nat.add_zero]
  norm_num
  omega

theorem padded_byte_le (mem : Nat → Nat) (k : Nat) : padded_byte mem k ≤ 255 := by
  unfold padded_byte
  split_ifs
  · omega
  · omega

theorem window_sum_le (mem : Nat → Nat) (n : Nat) :
    ∑ j in Finset.range 64, padded_byte mem (n + j) ≤ 16320 := by
  have := Finset.sum_le_card_nsmul (Finset.range 64) (fun j => padded_byte mem (n + j)) 255
    (fun j _ => padded_byte_le mem (n + j))
  simpa using this

theorem window_weighted_le (mem : Nat → Nat) (n : Nat) :
    ∑ j in Finset.range 64, (64 - j) * padded_byte mem (n + j) ≤ 1044480 := by
  have := Finset.sum_le_card_nsmul (Finset.range 64)
    (fun j => (64 - j) * padded_byte mem (n + j)) 16320
    (fun j _ => by
      have h1 := padded_byte_le mem (n + j)
      have h2 : 64 - j ≤ 64 := Nat.sub_le _ _
      calc (64 - j) * padded_byte mem (n + j) ≤ 64 * 255 := Nat.mul_le_mul h2 h1
        _ = 16320 := by norm_num)
  simpa using this

/-- Closed form of the accumulators after `n` bytes: they are functions of the 64 bytes in
the window alone. -/
theorem rolled_state_closed (mem : Nat → Nat) (n : Nat) :
    rolled_state mem n =
      (1984 + ∑ j in Finset.range 64, padded_byte mem (n + j),
        124992 + ∑ j in Finset.range 64, (64 - j) * padded_byte mem (n + j)) := by
  induction n with
  | zero =>
    have z1 : ∑ j in Finset.range 64, padded_byte mem (0 + j) = 0 := by
      apply Finset.sum_eq_zero
      intro j hj
      rw [Finset.mem_range] at hj
      unfold padded_byte
      rw [if_pos (by omega)]
    have z2 : ∑ j in Finset.range 64, (64 - j) * padded_byte mem (0 + j) = 0 := by
      apply Finset.sum_eq_zero
      intro j hj
      rw [Finset.mem_range] at hj
      unfold padded_byte
      rw [if_pos (by omega), Nat.mul_zero]
    rw [z1, z2, rolled_state]
    rfl
  | succ n ih =>
    have h1 := sum_shift_one (padded_byte mem) n
    have h2 := sum_shift_weighted (padded_byte mem) n
    have b1 := window_sum_le mem n
    have b1' := window_sum_le mem (n + 1)
    have b2 := window_weighted_le mem n
    have b2' := window_weighted_le mem (n + 1)
    have hadd : mem n % 256 = padded_byte mem (n + 64) := by
      unfold padded_byte
      rw [if_neg (by omega), Nat.add_sub_cancel]
    have hdrop : (if n < BUP_WINDOWSIZE then 0 else mem (n - BUP_WINDOWSIZE)) % 256
        = padded_byte mem n := by
      unfold padded_byte
      have h64 : BUP_WINDOWSIZE = 64 := rfl
      rw [h64]
      split_ifs <;> rfl
    have hb := padded_byte_le mem n
    have hb' := padded_byte_le mem (n + 64)
    rw [rolled_state, ih]
    simp only
    unfold legacy_s1 legacy_s2
    rw [hadd, hdrop]
    have hU : U32 = 4294967296 := rfl
    have h64 : BUP_WINDOWSIZE = 64 := rfl
    have h31 : ROLLSUM_CHAR_OFFSET = 31 := rfl
    rw [hU, h64, h31]
    generalize ∑ j in Finset.range 64, padded_byte mem (n + j) = w1 at *
    generalize ∑ j in Finset.range 64, padded_byte mem (n + 1 + j) = w1' at *
    generalize ∑ j in Finset.range 64, (64 - j) * padded_byte mem (n + j) = w2 at *
    generalize ∑ j in Finset.range 64, (64 - j) * padded_byte mem (n + 1 + j) = w2' at *
    generalize padded_byte mem n = d at *
    generalize padded_byte mem (n + 64) = a at *
    refine Prod.ext ?_ ?_
    · simp only
      omega
    · simp only
      omega

theorem padded_window (mem : Nat → Nat) (pos j : Nat) (h63 : 63 ≤ pos) :
    padded_byte mem (pos + 1 + j) = mem (pos - 63 + j) % 256 := by
  unfold padded_byte
  rw [if_neg (by omega)]
  congr 2
  omega

theorem rolled_state_window (mem : Nat → Nat) (pos : Nat) (h63 : 63 ≤ pos) :
    rolled_state mem (pos + 1) =
      (BUP_WINDOWSIZE * ROLLSUM_CHAR_OFFSET
          + ∑ j in Finset.range 64, mem (pos - 63 + j) % 256,
        BUP_WINDOWSIZE * (BUP_WINDOWSIZE - 1) * ROLLSUM_CHAR_OFFSET
          + ∑ j in Finset.range 64, (64 - j) * (mem (pos - 63 + j) % 256)) := by
  rw [rolled_state_closed]
  have e1 : ∑ j in Finset.range 64, padded_byte mem (pos + 1 + j)
      = ∑ j in Finset.range 64, mem (pos - 63 + j) % 256 :=
    Finset.sum_congr rfl (fun j _ => padded_window mem pos j h63)
  have e2 : ∑ j in Finset.range 64, (64 - j) * padded_byte mem (pos + 1 + j)
      = ∑ j in Finset.range 64, (64 - j) * (mem (pos - 63 + j) % 256) :=
    Finset.sum_congr rfl (fun j _ => by rw [padded_window mem pos j h63])
  rw [e1, e2]
  rfl

theorem isRun_end (ps : Nat) (m : Nat → Nat) (pg start0 a b : Nat) (x : Nat × Nat)
    (h : IsRun ps m pg start0 a b x) : x.1 + x.2 = start0 + b * ps := by
  obtain ⟨hab, hx, _, _⟩ := h
  rw [hx]
  simp only
  have : a * ps + (b - a) * ps = b * ps := by
    rw [← Nat.add_mul]
    congr 1
    omega
  omega

theorem uncache_loop_runs (ps : Nat) (m : Nat → Nat) (pg start0 : Nat) (hps : 0 < ps)
    (adv0 : List (Nat × Nat)) (n : Nat) :
    ∀ (i start len : Nat) (adv : List (Nat × Nat)) (a : Nat),
    RunsInv ps m pg start0 i start len adv a →
    ∃ (start1 len1 : Nat) (adv1 : List (Nat × Nat)) (a1 : Nat),
      uncache_loop ps m pg n i start len (adv0 ++ adv) = (start1, len1, adv0 ++ adv1) ∧
      RunsInv ps m pg start0 (i + n) start1 len1 adv1 a1 := by
  induction n with
  | zero =>
    intro i start len adv a hinv
    exact ⟨start, len, adv, a, by rw [uncache_loop], hinv⟩
  | succ n ih =>
    intro i start len adv a hinv
    obtain ⟨h1, h2, h3, h4, h5, h6, h7, h8, h9⟩ := hinv
    rw [uncache_loop]
    by_cases hc : m (pg + i) % 2 = 1
    · rw [if_pos hc]
      simp only
      by_cases hl : len = 0
      · have hai : a = i := by
          rw [h3] at hl
          rcases Nat.mul_eq_zero.mp hl with h | h
          · omega
          · omega
        subst hai
        rw [if_neg (by simpa using hl)]
        have hinv' : RunsInv ps m pg start0 (a + 1) (start + len + ps) 0 adv (a + 1) := by
          refine ⟨le_refl _, ?_, by simp, ?_, Or.inr hc, ?_, ?_, h8, ?_⟩
          · rw [h2, hl, Nat.add_mul]; omega
          · intro k k1 k2; omega
          · intro x hx
            obtain ⟨a', b', q1, q2, q3⟩ := h6 x hx
            exact ⟨a', b', by omega, q2, q3⟩
          · intro k k1 k2
            by_cases hk : k < a
            · exact h7 k hk k2
            · have : k = a := by omega
              subst this
              exact absurd hc k2
          · intro x hx
            have := h9 x hx
            rw [Nat.add_mul]
            omega
        obtain ⟨s1, l1, adv1, a1, e1, e2⟩ := ih (a + 1) (start + len + ps) 0 adv (a + 1) hinv'
        exact ⟨s1, l1, adv1, a1, e1, by rw [Nat.add_assoc, Nat.add_comm 1 n] at e2; exact e2⟩
      · rw [if_pos hl]
        have hai : a < i := by
          by_contra hcon
          have : i - a = 0 := by omega
          rw [this, Nat.zero_mul] at h3
          exact hl h3
        have hrun : IsRun ps m pg start0 a i (start, len) :=
          ⟨hai, by rw [h2, h3], h4, h5⟩
        have hend : start + len = start0 + i * ps := isRun_end ps m pg start0 a i _ hrun
        have hinv' : RunsInv ps m pg start0 (i + 1) (start + len + ps) 0
            (adv ++ [(start, len)]) (i + 1) := by
          refine ⟨le_refl _, ?_, by simp, ?_, Or.inr hc, ?_, ?_, ?_, ?_⟩
          · rw [hend, Nat.add_mul]; omega
          · intro k k1 k2; omega
          · intro x hx
            rw [List.mem_append, List.mem_singleton] at hx
            rcases hx with hx | hx
            · obtain ⟨a', b', q1, q2, q3⟩ := h6 x hx
              exact ⟨a', b', by omega, q2, q3⟩
            · subst hx
              exact ⟨a, i, by omega, hrun, hc⟩
          · intro k k1 k2
            by_cases hk : k < a
            · obtain ⟨x, x1, x2, x3⟩ := h7 k hk k2
              exact ⟨x, List.mem_append_left _ x1, x2, x3⟩
            · have hki : k < i := by
                by_contra hcon
                have : k = i := by omega
                subst this
                exact k2 hc
              refine ⟨(start, len), List.mem_append_right _ (List.mem_singleton.mpr rfl), ?_, ?_⟩
              · simp only
                rw [h2]
                have : a * ps ≤ k * ps := Nat.mul_le_mul_right _ (by omega)
                omega
              · simp only
                rw [hend]
                have : (k + 1) * ps ≤ i * ps := Nat.mul_le_mul_right _ (by omega)
                omega
          · rw [List.pairwise_append]
            refine ⟨h8, List.pairwise_singleton _ _, ?_⟩
            intro x hx y hy
            rw [List.mem_singleton] at hy
            subst hy
            simp only
            rw [h2]
            exact h9 x hx
          · intro x hx
            rw [List.mem_append, List.mem_singleton] at hx
            rcases hx with hx | hx
            · have := h9 x hx
              have : a * ps ≤ (i + 1) * ps := Nat.mul_le_mul_right _ (by omega)
              omega
            · subst hx
              simp only
              rw [hend, Nat.add_mul]
              omega
        obtain ⟨s1, l1, adv1, a1, e1, e2⟩ :=
          ih (i + 1) (start + len + ps) 0 (adv ++ [(start, len)]) (i + 1) hinv'
        rw [List.append_assoc]
        exact ⟨s1, l1, adv1, a1, e1, by rw [Nat.add_assoc, Nat.add_comm 1 n] at e2; exact e2⟩
    · rw [if_neg hc]
      have hinv' : RunsInv ps m pg start0 (i + 1) start (len + ps) adv a := by
        refine ⟨by omega, h2, ?_, ?_, h5, h6, h7, h8, h9⟩
        · rw [h3, ← Nat.succ_mul]
          congr 1
          omega
        · intro k k1 k2
          by_cases hk : k < i
          · exact h4 k k1 hk
          · have : k = i := by omega
            subst this
            exact hc
      obtain ⟨s1, l1, adv1, a1, e1, e2⟩ := ih (i + 1) start (len + ps) adv a hinv'
      exact ⟨s1, l1, adv1, a1, e1, by rw [Nat.add_assoc, Nat.add_comm 1 n] at e2; exact e2⟩

theorem read_fd_full_step (fuel : Nat) (f : Source) (s : HashSplitter)
    (hlen : (f.read (s.bufsz - s.end_)).1.length ≠ 0)
    (hfull : s.bufsz ≤ s.end_ + (f.read (s.bufsz - s.end_)).1.length)
    (hov : s.read + (f.read (s.bufsz - s.end_)).1.length ≤ SIZE_MAX)
    (hunc : s.uncached ≤ s.read + (f.read (s.bufsz - s.end_)).1.length) :
    read_fd_loop (fuel + 1) f s = Except.ok
      ((f.read (s.bufsz - s.end_)).1.length,
        { s with
          fobj := some (f.read (s.bufsz - s.end_)).2
          buf := store s.buf s.end_ (f.read (s.bufsz - s.end_)).1
          end_ := s.end_ + (f.read (s.bufsz - s.end_)).1.length
          read := s.read + (f.read (s.bufsz - s.end_)).1.length }) := by
  rw [read_fd_loop]
  simp only
  rw [if_neg (by omega), if_neg (by simp only [not_not]; exact hunc)]
  rw [if_neg (by intro h; exact hlen h.1)]
  simp only
  rw [if_neg (by intro h; omega)]

theorem fd_file_read (data : List Nat) (h : data.length = 8388609) :
    ((fd_file data).read ((fd_object data).bufsz - (fd_object data).end_)).1.length
      = 8388608 := by
  have hb : (fd_object data).bufsz - (fd_object data).end_ = 8388608 := rfl
  rw [hb]
  unfold Source.read
  simp only
  rw [List.length_take]
  have hs : (fd_file data).sizes = [] := rfl
  have hd : (fd_file data).data = data := rfl
  rw [hs]
  simp only
  rw [hd, h]
  norm_num

theorem read_via_fd (s : HashSplitter) (f : Source) (len : Nat) (s1 : HashSplitter)
    (hf : s.fobj = some f) (h1 : s.start ≤ s.end_) (h2 : s.end_ ≤ s.bufsz) (hfd : s.fd ≠ -1)
    (hstep : read_fd_loop (f.data.length + 1) f s = Except.ok (len, s1))
    (hp : s1.progress = false) :
    HashSplitter_read s = Except.ok (len, s1) := by
  unfold HashSplitter_read
  rw [hf]
  simp only
  rw [if_neg (by omega), if_neg (by omega), if_pos hfd, hstep]
  simp only
  rw [if_neg (by rw [hp]; intro h; exact Bool.noConfusion h.1)]

theorem fd_object_read (data : List Nat) (h : data.length = 8388609) :
    HashSplitter_read (fd_object data) = Except.ok
      (((fd_file data).read ((fd_object data).bufsz - (fd_object data).end_)).1.length,
        { fd_object data with
          fobj := some ((fd_file data).read
            ((fd_object data).bufsz - (fd_object data).end_)).2
          buf := store (fd_object data).buf (fd_object data).end_
            ((fd_file data).read ((fd_object data).bufsz - (fd_object data).end_)).1
          end_ := (fd_object data).end_
            + ((fd_file data).read
                ((fd_object data).bufsz - (fd_object data).end_)).1.length
          read := (fd_object data).read
            + ((fd_file data).read
                ((fd_object data).bufsz - (fd_object data).end_)).1.length }) :=
  read_via_fd (fd_object data) (fd_file data) _ _ rfl (Nat.le_refl 0) (Nat.zero_le _)
    (by show (3 : Int) ≠ -1; decide)
    (read_fd_full_step (fd_file data).data.length (fd_file data) (fd_object data)
      (by rw [fd_file_read data h]; decide)
      (by rw [fd_file_read data h]; show 8388608 ≤ 0 + 8388608; decide)
      (by rw [fd_file_read data h]; show 0 + 8388608 ≤ SIZE_MAX; decide)
      (by rw [fd_file_read data h]; exact Nat.zero_le _))
    rfl

theorem toOption_map_ok {α β : Type} (f : α → β) (x : α) :
    (Except.ok x : Except Fault α).toOption.map f = some (f x) := rfl

theorem fd_object_read_summary (data : List Nat) (h : data.length = 8388609) :
    (HashSplitter_read (fd_object data)).toOption.map
        (fun r => (r.1, r.2.mincore.isSome, r.2.fd, r.2.read, r.2.uncached,
          r.2.glob.advise_chunk, r.2.advised))
      = some (8388608, true, 3, 8388608, 0, 8388608, []) := by
  have e1 : (fd_object data).read = 0 := rfl
  rw [fd_object_read data h, toOption_map_ok]
  dsimp only
  rw [fd_file_read data h, e1, Nat.zero_add]
  rfl

theorem Source.read_data (f : Source) (n : Nat) :
    (f.read n).2.data.length + (f.read n).1.length = f.data.length := by
  unfold Source.read
  simp only [List.length_take, List.length_drop]
  omega

theorem uncache_total (s : HashSplitter) (last : Bool) :
    HashSplitter_uncache s last ≠ Except.error Fault.diverged ∧
    ∀ t, HashSplitter_uncache s last = Except.ok t →
      t.filenum = s.filenum ∧ t.freed = s.freed := by
  unfold HashSplitter_uncache
  split
  · exact ⟨fun h => Except.noConfusion h, fun t h => by
      simp only [Except.ok.injEq] at h
      rw [← h]
      exact ⟨rfl, rfl⟩⟩
  · simp only
    split_ifs <;>
      (refine ⟨by simp, fun t h => ?_⟩
       first
       | (simp only [Except.ok.injEq] at h
          rw [← h]
          exact ⟨rfl, rfl⟩)
       | (simp at h))

theorem read_fd_loop_total (fuel : Nat) : ∀ (f : Source) (s : HashSplitter),
    f.data.length < fuel →
    read_fd_loop fuel f s ≠ Except.error Fault.diverged ∧
    ∀ len t, read_fd_loop fuel f s = Except.ok (len, t) →
      t.fobj.isSome = true ∧ t.filenum = s.filenum ∧ t.freed = s.freed := by
  induction fuel with
  | zero => intro f s h; omega
  | succ n ih =>
    intro f s hfuel
    unfold read_fd_loop
    have hdata := Source.read_data f (s.bufsz - s.end_)
    generalize f.read (s.bufsz - s.end_) = r at hdata
    obtain ⟨bytes, f1⟩ := r
    dsimp only at hdata ⊢
    split
    · exact ⟨by simp, fun _ _ h => by simp at h⟩
    · split
      · exact ⟨by simp, fun _ _ h => by simp at h⟩
      · split
        · rename_i e heq
          refine ⟨fun h => ?_, fun _ _ h => by simp at h⟩
          simp only [Except.error.injEq] at h
          subst h
          split at heq
          · exact (uncache_total _ _).1 heq
          · exact Except.noConfusion heq
        · rename_i s3 heq
          have hs3 : s3.fobj = some f1 ∧ s3.filenum = s.filenum ∧ s3.freed = s.freed := by
            split at heq
            · obtain ⟨_, _, _, _, c5, _, _⟩ := uncache_frame _ _ _ heq
              have c8 := (uncache_total _ _).2 s3 heq
              exact ⟨c5, c8.1, c8.2⟩
            · simp only [Except.ok.injEq] at heq
              rw [← heq]
              exact ⟨rfl, rfl, rfl⟩
          split
          · rename_i hc
            obtain ⟨i1, i2⟩ := ih f1 s3 (by have := hc.1; omega)
            refine ⟨i1, fun len t h => ?_⟩
            obtain ⟨q1, q2, q3⟩ := i2 len t h
            exact ⟨q1, q2.trans hs3.2.1, q3.trans hs3.2.2⟩
          · refine ⟨fun h => Except.noConfusion h, ?_⟩
            intro len t h
            simp only [Except.ok.injEq, Prod.mk.injEq] at h
            rw [← h.2, hs3.1, hs3.2.1, hs3.2.2]
            exact ⟨rfl, rfl, rfl⟩

theorem read_obj_loop_total (fuel : Nat) : ∀ (f : Source) (s : HashSplitter),
    f.data.length < fuel →
    read_obj_loop fuel f s ≠ Except.error Fault.diverged ∧
    ∀ len t, read_obj_loop fuel f s = Except.ok (len, t) →
      t.fobj.isSome = true ∧ t.filenum = s.filenum ∧ t.freed = s.freed := by
  induction fuel with
  | zero => intro f s h; omega
  | succ n ih =>
    intro f s hfuel
    unfold read_obj_loop
    have hdata := Source.read_data f (s.bufsz - s.end_)
    generalize f.read (s.bufsz - s.end_) = r at hdata
    obtain ⟨bytes, f1⟩ := r
    dsimp only at hdata ⊢
    split
    · exact ⟨by simp, fun _ _ h => by simp at h⟩
    · split
      · exact ⟨by simp, fun _ _ h => by simp at h⟩
      · split
        · exact ⟨by simp, fun _ _ h => by simp at h⟩
        · split
          · rename_i hc
            obtain ⟨i1, i2⟩ := ih f1
              { s with fobj := some f1,
                       buf := if bytes.length ≠ 0 then store s.buf s.end_ bytes else s.buf,
                       end_ := s.end_ + bytes.length }
              (by have := hc.1; omega)
            exact ⟨i1, fun len t h => i2 len t h⟩
          · refine ⟨fun h => Except.noConfusion h, ?_⟩
            intro len t h
            simp only [Except.ok.injEq, Prod.mk.injEq] at h
            rw [← h.2]
            exact ⟨rfl, rfl, rfl⟩

theorem read_result_total (s : HashSplitter) (r : Except Fault (Nat × HashSplitter))
    (hr : r ≠ Except.error Fault.diverged ∧
      ∀ len t, r = Except.ok (len, t) →
        t.fobj.isSome = true ∧ t.filenum = s.filenum ∧ t.freed = s.freed) :
    (match r with
      | Except.error e => Except.error e
      | Except.ok (len, s1) =>
        Except.ok (len,
          if s1.progress = true ∧ s1.end_ - s.end_ ≠ 0
          then { s1 with calls := s1.calls ++ [(s1.filenum, s1.end_ - s.end_)] }
          else s1)) ≠ Except.error Fault.diverged ∧
    ∀ rc t, (match r with
      | Except.error e => Except.error e
      | Except.ok (len, s1) =>
        Except.ok (len,
          if s1.progress = true ∧ s1.end_ - s.end_ ≠ 0
          then { s1 with calls := s1.calls ++ [(s1.filenum, s1.end_ - s.end_)] }
          else s1)) = Except.ok (rc, t) →
      (s.fobj.isSome = true → t.fobj.isSome = true) ∧ t.filenum = s.filenum ∧
      t.freed = s.freed := by
  rcases r with e | ⟨len, s1⟩
  · refine ⟨fun h => ?_, fun _ _ h => Except.noConfusion h⟩
    simp only [Except.error.injEq] at h
    subst h
    exact hr.1 rfl
  · refine ⟨fun h => Except.noConfusion h, ?_⟩
    intro rc t h
    simp only [Except.ok.injEq, Prod.mk.injEq] at h
    obtain ⟨q1, q2, q3⟩ := hr.2 len s1 rfl
    rw [← h.2]
    split
    · exact ⟨fun _ => q1, q2, q3⟩
    · exact ⟨fun _ => q1, q2, q3⟩

theorem read_total (s : HashSplitter) :
    HashSplitter_read s ≠ Except.error Fault.diverged ∧
    ∀ rc t, HashSplitter_read s = Except.ok (rc, t) →
      (s.fobj.isSome = true → t.fobj.isSome = true) ∧ t.filenum = s.filenum ∧
      t.freed = s.freed := by
  unfold HashSplitter_read
  split
  · refine ⟨fun h => Except.noConfusion h, ?_⟩
    intro rc t h
    simp only [Except.ok.injEq, Prod.mk.injEq] at h
    rw [← h.2]
    exact ⟨fun h => h, rfl, rfl⟩
  · rename_i f hf
    split
    · exact ⟨by simp, fun _ _ h => by simp at h⟩
    · split
      · exact ⟨by simp, fun _ _ h => by simp at h⟩
      · dsimp only
        by_cases h3 : s.fd ≠ -1
        · rw [if_pos h3]
          exact read_result_total s _ (read_fd_loop_total _ f s (Nat.lt_succ_self _))
        · rw [if_neg h3]
          exact read_result_total s _ (read_obj_loop_total _ f s (Nat.lt_succ_self _))

theorem nextfile_cases (s : HashSplitter) (h : ¬ (s.filenum + 1 > LONG_MAX)) :
    (HashSplitter_nextfile s).2.filenum = s.filenum + 1 ∧
    (s.files = [] → (HashSplitter_nextfile s).2.fobj = none ∧
      (HashSplitter_nextfile s).2.eof = s.eof ∧ (HashSplitter_nextfile s).2.files = []) ∧
    (∀ f rest, s.files = f :: rest → (HashSplitter_nextfile s).2.fobj = some f ∧
      (HashSplitter_nextfile s).2.files = rest) := by
  unfold HashSplitter_nextfile
  dsimp only
  rw [if_neg h]
  refine ⟨?_, ?_, ?_⟩
  · split
    · rfl
    · split <;> split_ifs <;> rfl
  · intro hf
    rw [hf]
    exact ⟨rfl, rfl, rfl⟩
  · intro f rest hf
    rw [hf]
    dsimp only
    split <;> split_ifs <;> exact ⟨rfl, rfl⟩

theorem fill_read_facts (t s1 : HashSplitter)
    (h : (match HashSplitter_read t with
      | Except.error e => Except.error e
      | Except.ok (rc, s2) => Except.ok (if rc = 0 then { s2 with eof := true } else s2))
      = Except.ok s1) :
    s1.files = t.files ∧ s1.filenum = t.filenum ∧
    (t.fobj.isSome = true → s1.fobj.isSome = true) ∧
    (t.fobj = none → s1.fobj = none ∧ s1.eof = true) ∧
    (s1.eof = true ∨ (s1.eof = t.eof ∧ s1.end_ = s1.bufsz)) ∧ s1.freed = t.freed := by
  split at h
  · exact Except.noConfusion h
  · rename_i rc s2 hr
    simp only [Except.ok.injEq] at h
    obtain ⟨_, _, _, _, d5, d6, _, d8, d9, _⟩ := read_frame _ _ _ hr
    obtain ⟨q1, q2, q3⟩ := (read_total t).2 rc s2 hr
    subst h
    by_cases hrc : rc = 0
    · rw [if_pos hrc]
      refine ⟨d5, q2, q1, ?_, Or.inl rfl, q3⟩
      intro hn
      have := (d9 hn).1
      subst this
      exact ⟨hn, rfl⟩
    · rw [if_neg hrc]
      refine ⟨d5, q2, q1, ?_, Or.inr ⟨d6, d8 hrc⟩, q3⟩
      intro hn
      exact absurd (d9 hn).2 hrc

theorem fill_freed (s s1 : HashSplitter) (h : iternext_fill s = Except.ok s1) :
    s1.freed = s.freed := by
  unfold iternext_fill at h
  split_ifs at h with h1 h2
  · rw [(fill_read_facts _ s1 h).2.2.2.2.2, nextfile_freed]
  · exact (fill_read_facts _ s1 h).2.2.2.2.2
  · simp only [Except.ok.injEq] at h
    rw [h]

theorem fill_total (s : HashSplitter) : iternext_fill s ≠ Except.error Fault.diverged := by
  unfold iternext_fill
  split
  · dsimp only
    split
    · rename_i e he
      intro h
      simp only [Except.error.injEq] at h
      subst h
      exact (read_total _).1 he
    · intro h
      exact Except.noConfusion h
  · intro h
    exact Except.noConfusion h

theorem fill_cases (s s1 : HashSplitter) (hinv : LoopInv s)
    (h : iternext_fill s = Except.ok s1) :
    s1.start = s.start ∧ s1.bufsz = s.bufsz ∧ s1.max_blob = s.max_blob ∧
    s1.boundaries = s.boundaries ∧ s1.end_ ≤ s1.bufsz ∧ s.end_ ≤ s1.end_ ∧
    ((s1 = s ∧ (s.fobj = none ∨ s.bufsz ≤ s.end_)) ∨
     (s.fobj.isSome = true ∧ s.end_ < s.bufsz ∧
        ¬ (s.eof = true ∧ (¬ s.boundaries = true ∨ s.start = s.end_)) ∧
        s1.fobj.isSome = true ∧ s1.files = s.files ∧ s1.filenum = s.filenum ∧
        (s1.eof = true ∨ (s1.eof = s.eof ∧ s1.end_ = s1.bufsz))) ∨
     (s1.fobj = none ∧ s1.eof = true) ∨
     (s.fobj.isSome = true ∧ s.end_ < s.bufsz ∧
        (s.eof = true ∧ (¬ s.boundaries = true ∨ s.start = s.end_)) ∧
        s1.fobj.isSome = true ∧ s1.files.length + 1 = s.files.length ∧
        s1.filenum = s.filenum + 1 ∧ (s1.eof = true ∨ s1.end_ = s1.bufsz))) := by
  obtain ⟨i1, i2, i3, i4, i5, i6, _⟩ := hinv
  obtain ⟨⟨_, a2, a3, _, _, a6, _⟩, f2, f3, f4, _⟩ := fill_frame s s1 h
  refine ⟨f2, a3, a2, a6, f4 i4, f3, ?_⟩
  unfold iternext_fill at h
  split_ifs at h with h1 h2
  · -- the next source is opened
    right; right
    have hov : ¬ (s.filenum + 1 > LONG_MAX) := by
      have : (0 : Int) ≤ (s.files.length : Int) := Int.natCast_nonneg _
      have := i6 h1.2
      omega
    obtain ⟨n1, n2, n3⟩ := nextfile_cases s hov
    obtain ⟨r1, r2, r3, r4, r5, _⟩ := fill_read_facts _ s1 h
    rcases hfiles : s.files with _ | ⟨f, rest⟩
    · left
      exact r4 (n2 hfiles).1
    · right
      obtain ⟨m1, m2⟩ := n3 f rest hfiles
      refine ⟨h1.2, h1.1, h2, r3 (by rw [m1]; rfl), ?_, by rw [r2, n1], ?_⟩
      · rw [r1, m2]
        simp
      · rcases r5 with r5 | r5
        · exact Or.inl r5
        · exact Or.inr r5.2
  · -- the current source is read on
    right; left
    obtain ⟨r1, r2, r3, _, r5, _⟩ := fill_read_facts _ s1 h
    exact ⟨h1.2, h1.1, h2, r3 h1.2, r1, r2, r5⟩
  · left
    simp only [Except.ok.injEq] at h
    refine ⟨h.symm, ?_⟩
    by_cases hb : s.bufsz ≤ s.end_
    · exact Or.inr hb
    · left
      have : ¬ (s.fobj.isSome = true) := fun hs => h1 ⟨by omega, hs⟩
      cases hfo : s.fobj with
      | none => rfl
      | some f => rw [hfo] at this; exact absurd rfl this


/-! ## The loop of `next()` comes to an end -/

theorem emit_total (s : HashSplitter) (ofs level : Nat) :
    iternext_emit s ofs level ≠ Except.error Fault.diverged := by
  unfold iternext_emit
  split_ifs <;> intro h <;> simp at h

theorem realloc_facts (s : HashSplitter) (h1 : s.start ≤ s.end_) (h2 : s.end_ ≤ s.bufsz) :
    ∃ t, HashSplitter_realloc s = Except.ok t ∧ t.start = 0 ∧ t.end_ = s.end_ - s.start ∧
      t.files = s.files ∧ t.fobj = s.fobj ∧ t.eof = s.eof ∧ t.filenum = s.filenum ∧
      t.max_blob = s.max_blob ∧ t.bufsz = s.bufsz ∧ t.boundaries = s.boundaries ∧
      t.freed = s.freed := by
  unfold HashSplitter_realloc
  rw [if_neg (by omega), if_neg (by omega)]
  exact ⟨_, rfl, rfl, rfl, rfl, rfl, rfl, rfl, rfl, rfl, rfl, rfl⟩

theorem isNone_of_none (s : HashSplitter) (h : s.fobj = none) : s.fobj.isNone = true := by
  rw [h]; rfl

theorem not_isNone_of_isSome (s : HashSplitter) (h : s.fobj.isSome = true) :
    ¬ (s.fobj.isNone = true) := by
  cases hfo : s.fobj with
  | none => rw [hfo] at h; exact absurd h (by decide)
  | some f => intro h2; exact Bool.noConfusion h2

theorem rank_full (s : HashSplitter) (h : s.fobj.isSome = true) (hf : s.bufsz ≤ s.end_) :
    loop_rank s = 4 := by
  unfold loop_rank
  rw [if_neg (not_isNone_of_isSome s h), if_pos hf]

theorem rank_next (s : HashSplitter) (h : s.fobj.isSome = true) (hf : s.end_ < s.bufsz)
    (hc : s.eof = true ∧ (¬ s.boundaries = true ∨ s.start = s.end_)) : loop_rank s = 1 := by
  unfold loop_rank
  rw [if_neg (not_isNone_of_isSome s h), if_neg (by omega), if_pos hc]

theorem rank_read (s : HashSplitter) (h : s.fobj.isSome = true) (hf : s.end_ < s.bufsz)
    (hc : ¬ (s.eof = true ∧ (¬ s.boundaries = true ∨ s.start = s.end_))) :
    loop_rank s = if s.start = 0 then 2 else 3 := by
  unfold loop_rank
  rw [if_neg (not_isNone_of_isSome s h), if_neg (by omega), if_neg hc]

theorem rank_le_two (s : HashSplitter) (hf : s.end_ < s.bufsz) (h0 : s.start = 0) :
    loop_rank s ≤ 2 := by
  unfold loop_rank
  rw [if_neg (show ¬ (s.bufsz ≤ s.end_) by omega), if_pos h0]
  split_ifs <;> omega

theorem loop_succ (n : Nat) (s : HashSplitter) :
    HashSplitter_iternext_loop (n + 1) s =
      if ¬ (s.end_ ≥ s.start) then Except.error Fault.assertion
      else
        match iternext_fill s with
        | Except.error e => Except.error e
        | Except.ok s1 =>
          if s1.start = s1.end_ ∧ s1.fobj.isNone then
            if s1.freed then Except.error Fault.crashed
            else Except.ok (Next.stop, { s1 with freed := true })
          else if s1.freed then Except.error Fault.crashed
          else
            match iternext_scan s1 with
            | (ofs, extrabits) =>
              if ofs ≠ 0 then iternext_emit s1 ofs (extrabits / s1.fanbits)
              else if s1.end_ - s1.start ≥ s1.max_blob then iternext_emit s1 s1.max_blob 0
              else if s1.start ≠ s1.end_ ∧ s1.eof ∧ (s1.boundaries ∨ s1.fobj.isNone) then
                iternext_emit s1 (s1.end_ - s1.start) 0
              else
                match HashSplitter_realloc s1 with
                | Except.error e => Except.error e
                | Except.ok s2 => HashSplitter_iternext_loop n s2 := by
  rw [HashSplitter_iternext_loop]

theorem emit_inv (s : HashSplitter) (ofs level : Nat) (x : Next) (t : HashSplitter)
    (hinv : LoopInv s) (hne : s.fobj = none → s.eof = true)
    (h : iternext_emit s ofs level = Except.ok (x, t)) : LoopInv t := by
  obtain ⟨i1, i2, i3, i4, i5, i6, i7⟩ := hinv
  unfold iternext_emit at h
  split_ifs at h with hc
  simp only [Except.ok.injEq, Prod.mk.injEq] at h
  obtain ⟨_, h⟩ := h
  subst h
  refine ⟨i1, i2, ?_, i4, fun hn => Or.inl (hne hn), i6, i7⟩
  dsimp only
  omega

theorem fill_inv (s s1 : HashSplitter) (hinv : LoopInv s)
    (h : iternext_fill s = Except.ok s1) : LoopInv s1 := by
  obtain ⟨c1, c2, c3, c4, c5, c6, hK⟩ := fill_cases s s1 hinv h
  obtain ⟨i1, i2, i3, i4, i5, i6, i7⟩ := hinv
  refine ⟨by omega, by omega, by omega, c5, ?_, ?_, by rw [fill_freed s s1 h, i7]⟩
  · intro hn
    rcases hK with ⟨k1, _⟩ | ⟨_, _, _, k4, _⟩ | ⟨_, k2⟩ | ⟨_, _, _, k4, _⟩
    · subst k1
      exact i5 hn
    · rw [hn] at k4; exact Bool.noConfusion k4
    · exact Or.inl k2
    · rw [hn] at k4; exact Bool.noConfusion k4
  · intro hs
    rcases hK with ⟨k1, _⟩ | ⟨k1, _, _, _, k5, k6, _⟩ | ⟨k1, _⟩ | ⟨k1, _, _, _, k5, k6, _⟩
    · subst k1
      exact i6 hs
    · rw [k5, k6]; exact i6 k1
    · rw [k1] at hs; exact Bool.noConfusion hs
    · have h6 := i6 k1
      have : (s.files.length : Int) = (s1.files.length : Int) + 1 := by
        rw [← k5]; push_cast; rfl
      omega

theorem loop_round (s : HashSplitter) (hinv : LoopInv s) :
    (∃ r, r ≠ Except.error Fault.diverged ∧
      (∀ c l t, r = Except.ok (Next.chunk c l, t) → LoopInv t) ∧
      ∀ n, HashSplitter_iternext_loop (n + 1) s = r) ∨
    (∃ s2, LoopInv s2 ∧ loop_measure s2 < loop_measure s ∧
      ∀ n, HashSplitter_iternext_loop (n + 1) s = HashSplitter_iternext_loop n s2) := by
  have hinv0 := hinv
  obtain ⟨i1, i2, i3, i4, i5, i6, i7⟩ := hinv
  cases hfill : iternext_fill s with
  | error e =>
    left
    refine ⟨Except.error e, ?_, fun c l t h => Except.noConfusion h, ?_⟩
    · intro h
      simp only [Except.error.injEq] at h
      subst h
      exact fill_total s hfill
    · intro n
      rw [loop_succ, if_neg (by omega), hfill]
  | ok s1 =>
    obtain ⟨c1, c2, c3, c4, c5, c6, hK⟩ := fill_cases s s1 hinv0 hfill
    have hinv1 := fill_inv s s1 hinv0 hfill
    obtain ⟨j1, j2, j3, j4, j5, j6, j7⟩ := hinv1
    have hnf : ¬ (s1.freed = true) := by rw [j7]; decide
    by_cases hstop : s1.start = s1.end_ ∧ s1.fobj.isNone = true
    · left
      refine ⟨Except.ok (Next.stop, { s1 with freed := true }), fun h => by simp at h, ?_, ?_⟩
      · intro c l t h
        simp at h
      · intro n
        rw [loop_succ, if_neg (by omega), hfill]
        dsimp only
        rw [if_pos hstop, if_neg hnf]
    · have hne : s1.fobj = none → s1.eof = true := by
        intro hn
        rcases j5 hn with h | h
        · exact h
        · exact absurd ⟨h, isNone_of_none s1 hn⟩ hstop
      cases hscan : iternext_scan s1 with
      | mk ofs eb =>
      by_cases h1 : ofs ≠ 0
      · left
        refine ⟨_, emit_total s1 ofs (eb / s1.fanbits),
          fun c l t h => emit_inv s1 _ _ _ t (fill_inv s s1 hinv0 hfill) hne h, ?_⟩
        intro n
        rw [loop_succ, if_neg (by omega), hfill]
        dsimp only
        rw [if_neg hstop, if_neg hnf, hscan]
        dsimp only
        rw [if_pos h1]
      · by_cases h2 : s1.end_ - s1.start ≥ s1.max_blob
        · left
          refine ⟨_, emit_total s1 s1.max_blob 0,
            fun c l t h => emit_inv s1 _ _ _ t (fill_inv s s1 hinv0 hfill) hne h, ?_⟩
          intro n
          rw [loop_succ, if_neg (by omega), hfill]
          dsimp only
          rw [if_neg hstop, if_neg hnf, hscan]
          dsimp only
          rw [if_neg h1, if_pos h2]
        · by_cases h3 : s1.start ≠ s1.end_ ∧ s1.eof = true ∧
              (s1.boundaries = true ∨ s1.fobj.isNone = true)
          · left
            refine ⟨_, emit_total s1 (s1.end_ - s1.start) 0,
              fun c l t h => emit_inv s1 _ _ _ t (fill_inv s s1 hinv0 hfill) hne h, ?_⟩
            intro n
            rw [loop_succ, if_neg (by omega), hfill]
            dsimp only
            rw [if_neg hstop, if_neg hnf, hscan]
            dsimp only
            rw [if_neg h1, if_neg h2, if_pos h3]
          · right
            obtain ⟨s2, hre, e1, e2, e3, e4, e5, e6, e7, e8, e9, e10⟩ :=
              realloc_facts s1 (by omega) c5
            have hstep : ∀ n, HashSplitter_iternext_loop (n + 1) s =
                HashSplitter_iternext_loop n s2 := by
              intro n
              rw [loop_succ, if_neg (by omega), hfill]
              dsimp only
              rw [if_neg hstop, if_neg hnf, hscan]
              dsimp only
              rw [if_neg h1, if_neg h2, if_neg h3, hre]
            have hsome : s1.fobj.isSome = true := by
              cases hfo : s1.fobj with
              | some f => rfl
              | none =>
                exfalso
                have hi := isNone_of_none s1 hfo
                by_cases hse : s1.start = s1.end_
                · exact hstop ⟨hse, hi⟩
                · exact h3 ⟨hse, hne hfo, Or.inr hi⟩
            have hend : s2.end_ < s2.bufsz := by omega
            refine ⟨s2, ?_, ?_, hstep⟩
            · -- the invariant
              refine ⟨by omega, by omega, by omega, by omega, ?_, ?_, by rw [e10, j7]⟩
              · intro hn
                rw [e4] at hn
                rw [hn] at hsome
                exact Bool.noConfusion hsome
              · intro _
                rw [e6, e3]
                exact j6 hsome
            · -- the measure
              unfold loop_measure
              have hle := rank_le_two s2 hend e1
              rcases hK with ⟨k1, k2⟩ | ⟨k1, k2, k3, k4, k5, k6, k7⟩ | ⟨k1, k2⟩ |
                  ⟨k1, k2, k3, k4, k5, k6, k7⟩
              · subst k1
                have hfull : s1.bufsz ≤ s1.end_ := by
                  rcases k2 with k2 | k2
                  · rw [k2] at hsome; exact Bool.noConfusion hsome
                  · exact k2
                rw [rank_full s1 hsome hfull, e3]
                omega
              · rw [e3, k5, rank_read s k1 k2 k3]
                rcases k7 with k7 | ⟨k7, k8⟩
                · have hr : loop_rank s2 = 1 := by
                    apply rank_next s2 (by rw [e4]; exact k4) hend
                    refine ⟨by rw [e5]; exact k7, ?_⟩
                    by_cases hse : s1.start = s1.end_
                    · right; omega
                    · left
                      rw [e9]
                      intro hb
                      exact h3 ⟨hse, k7, Or.inl hb⟩
                  rw [hr]
                  split_ifs <;> omega
                · have : s.start ≠ 0 := by omega
                  rw [if_neg this]
                  omega
              · rw [k1] at hsome; exact Bool.noConfusion hsome
              · rw [e3, rank_next s k1 k2 k3]
                omega

theorem iternext_loop_total (fuel : Nat) : ∀ (s : HashSplitter), LoopInv s →
    loop_measure s < fuel → HashSplitter_iternext_loop fuel s ≠ Except.error Fault.diverged := by
  induction fuel with
  | zero => intro s _ h; omega
  | succ n ih =>
    intro s hinv hm
    rcases loop_round s hinv with ⟨r, hr, _, hall⟩ | ⟨s2, hinv2, hlt, hall⟩
    · rw [hall n]; exact hr
    · rw [hall n]
      exact ih s2 hinv2 (by omega)

theorem iternext_loop_inv (fuel : Nat) : ∀ (s : HashSplitter) (c : List Nat) (l : Nat)
    (t : HashSplitter), LoopInv s →
    HashSplitter_iternext_loop fuel s = Except.ok (Next.chunk c l, t) → LoopInv t := by
  induction fuel with
  | zero =>
    intro s c l t _ h
    rw [HashSplitter_iternext_loop] at h
    exact Except.noConfusion h
  | succ n ih =>
    intro s c l t hinv h
    rcases loop_round s hinv with ⟨r, _, hres, hall⟩ | ⟨s2, hinv2, _, hall⟩
    · rw [hall n] at h
      exact hres c l t h
    · rw [hall n] at h
      exact ih s2 c l t hinv2 h

theorem rank_le_four (s : HashSplitter) : loop_rank s ≤ 4 := by
  unfold loop_rank
  split_ifs <;> omega

theorem iternext_total (s : HashSplitter) (hinv : LoopInv s) :
    HashSplitter_iternext s ≠ Except.error Fault.diverged := by
  unfold HashSplitter_iternext
  apply iternext_loop_total _ s hinv
  unfold loop_measure
  have := rank_le_four s
  omega

theorem iternext_inv (s : HashSplitter) (c : List Nat) (l : Nat) (t : HashSplitter)
    (hinv : LoopInv s) (h : HashSplitter_iternext s = Except.ok (Next.chunk c l, t)) :
    LoopInv t :=
  iternext_loop_inv _ s c l t hinv h

theorem after_loopinv (n : Nat) : ∀ (s0 s : HashSplitter), HashSplitter_after n s0 = some s →
    LoopInv s0 → LoopInv s := by
  induction n with
  | zero =>
    intro s0 s h hb
    simp only [HashSplitter_after, Option.some.injEq] at h
    subst h
    exact hb
  | succ m ih =>
    intro s0 s h hb
    unfold HashSplitter_after at h
    split at h
    · rename_i c level s1 hst
      exact ih _ _ h (iternext_inv _ _ _ _ hb hst)
    · exact Option.noConfusion h

theorem init_first (g : Globals) (heap : Nat → Nat → Nat) (args : InitArgs)
    (s0 : HashSplitter) (h0 : HashSplitter_init g heap args = Except.ok s0) :
    ∃ self : HashSplitter, s0 = (HashSplitter_nextfile self).2 ∧ self.filenum = -1 ∧
      self.files = args.files := by
  obtain ⟨_, _, self, _, _, _, _, _, _, e, _, _, _, _, _, _, _, _, b8, _, _, _, b12, _⟩ :=
    init_spec g heap args s0 h0
  exact ⟨self, e, b12, b8⟩

theorem init_loopinv (p e : Int) (g : Globals) (heap : Nat → Nat → Nat) (args : InitArgs)
    (s0 : HashSplitter) (hg : hashsplit_init p e = Except.ok g)
    (h0 : HashSplitter_init g heap args = Except.ok s0)
    (hlen : (args.files.length : Int) ≤ LONG_MAX) : LoopInv s0 := by
  obtain ⟨⟨_, _, c3, c4, _⟩, c5, c6, _⟩ := init_cfg p e g heap args s0 hg h0
  obtain ⟨self, e, hfn, b8⟩ := init_first g heap args s0 h0
  have hov : ¬ (self.filenum + 1 > LONG_MAX) := by
    rw [hfn]; decide
  obtain ⟨n1, n2, n3⟩ := nextfile_cases self hov
  rw [← e] at n1 n2 n3
  refine ⟨by rw [c3]; positivity, c4, by omega, by omega, fun _ => Or.inr (by omega), ?_,
    init_freed g heap args s0 h0⟩
  intro hs
  rcases hfiles : self.files with _ | ⟨f, rest⟩
  · rw [(n2 hfiles).1] at hs
    exact Bool.noConfusion hs
  · obtain ⟨_, m2⟩ := n3 f rest hfiles
    rw [n1, hfn, m2]
    rw [← b8, hfiles] at hlen
    simp only [List.length_cons] at hlen
    push_cast at hlen
    omega

/-- Every call of `next()` on an object that construction and earlier calls lead to comes to
an end within the rounds that `HashSplitter_iternext` allows the loop. -/
theorem reachable_next_total (p e : Int) (g : Globals) (heap : Nat → Nat → Nat)
    (args : InitArgs) (s0 s : HashSplitter) (n : Nat) (hg : hashsplit_init p e = Except.ok g)
    (h0 : HashSplitter_init g heap args = Except.ok s0)
    (hlen : (args.files.length : Int) ≤ LONG_MAX)
    (hs : HashSplitter_after n s0 = some s) :
    HashSplitter_iternext s ≠ Except.error Fault.diverged :=
  iternext_total s (after_loopinv n s0 s hs (init_loopinv p e g heap args s0 hg h0 hlen))


/-! ## The round of `next()` on a full buffer -/

theorem chunk_not_freed (fuel : Nat) : ∀ (s : HashSplitter) (c : List Nat) (level : Nat)
    (s' : HashSplitter),
    HashSplitter_iternext_loop fuel s = Except.ok (Next.chunk c level, s') →
    s'.freed = false := by
  induction fuel with
  | zero => intro s c level s' h; exact Except.noConfusion h
  | succ n ih =>
    intro s c level s' h
    unfold HashSplitter_iternext_loop at h
    split_ifs at h with h0
    split at h
    · exact Except.noConfusion h
    · rename_i s1 hfill
      rcases hsc : iternext_scan s1 with ⟨ofs, eb⟩
      rw [hsc] at h
      simp only at h
      have hfalse : ∀ b : Bool, ¬ (b = true) → b = false := by
        intro b hb
        cases b
        · rfl
        · exact absurd rfl hb
      split_ifs at h with hstop hfr hfr2 hofs hmax heof
      · simp at h
      · obtain ⟨_, _, _, e4, _⟩ := emit_ok _ _ _ _ _ _ h
        rw [e4]
        exact hfalse _ hfr2
      · obtain ⟨_, _, _, e4, _⟩ := emit_ok _ _ _ _ _ _ h
        rw [e4]
        exact hfalse _ hfr2
      · obtain ⟨_, _, _, e4, _⟩ := emit_ok _ _ _ _ _ _ h
        rw [e4]
        exact hfalse _ hfr2
      · split at h
        · exact Except.noConfusion h
        · exact ih _ c level s' h

theorem after_freed (n : Nat) : ∀ (s0 s : HashSplitter), HashSplitter_after n s0 = some s →
    s0.freed = false → s.freed = false := by
  induction n with
  | zero =>
    intro s0 s h hb
    simp only [HashSplitter_after, Option.some.injEq] at h
    subst h
    exact hb
  | succ m ih =>
    intro s0 s h hb
    unfold HashSplitter_after at h
    split at h
    · rename_i c level s1 hst
      exact ih _ _ h (chunk_not_freed _ _ _ _ _ hst)
    · exact Option.noConfusion h

/-- A round of the loop of `next()` whose fill leaves at least `max_blob` live bytes in which
the scanner finds no split: the round returns the first `max_blob` live bytes at level 0. -/
theorem full_round_forced (fuel : Nat) (t s1 : HashSplitter) (hse : t.start ≤ t.end_)
    (hfill : iternext_fill t = Except.ok s1) (hfr : s1.freed = false)
    (hpos : 0 < s1.max_blob) (hlive : s1.max_blob ≤ s1.end_ - s1.start)
    (hscan : (iternext_scan s1).1 = 0) :
    HashSplitter_iternext_loop (fuel + 1) t = Except.ok
      (Next.chunk (slice s1.buf s1.start s1.max_blob) 0,
        { s1 with start := s1.start + s1.max_blob }) := by
  rw [loop_succ, if_neg (by omega), hfill]
  dsimp only
  rw [if_neg (by intro h; omega), if_neg (by rw [hfr]; decide)]
  rcases hsc : iternext_scan s1 with ⟨ofs, eb⟩
  rw [hsc] at hscan
  dsimp only at hscan ⊢
  rw [if_neg (by simpa using hscan), if_pos (by omega)]
  unfold iternext_emit
  rw [if_neg (by omega)]

theorem rolled_state_zero (mem : Nat → Nat) (hz : ∀ i, mem i = 0) :
    ∀ i, rolled_state mem i = (1984, 124992) := by
  intro i
  induction i with
  | zero => rfl
  | succ k ih =>
    rw [rolled_state]
    simp only [hz, ih, ite_self]
    decide

theorem legacy_zero_scan (mem : Nat → Nat) (hz : ∀ i, mem i = 0) (len e : Nat) :
    HashSplitter_find_offs_legacy 13 mem len e = (0, e) := by
  apply legacy_no_hit
  intro o _ _
  unfold split_at rolled_digest
  rw [rolled_state_zero mem hz o]
  decide

theorem getD_zero : ∀ (l : List Nat), (∀ x ∈ l, x = 0) → ∀ j, l.getD j 0 = 0 := by
  intro l
  induction l with
  | nil => intro _ j; rfl
  | cons a t ih =>
    intro hz j
    cases j with
    | zero => exact hz a (List.mem_cons_self a t)
    | succ k => exact ih (fun x hx => hz x (List.mem_cons_of_mem a hx)) k

theorem store_zero (buf : Nat → Nat) (pos : Nat) (bytes : List Nat)
    (hb : ∀ i, buf i = 0) (hz : ∀ x ∈ bytes, x = 0) (i : Nat) : store buf pos bytes i = 0 := by
  unfold store
  split_ifs
  · exact getD_zero bytes hz _
  · exact hb i

theorem fd_file_read_zero (data : List Nat) (n : Nat) (hz : ∀ x ∈ data, x = 0) :
    ∀ x ∈ ((fd_file data).read n).1, x = 0 := by
  intro x hx
  unfold Source.read at hx
  simp only at hx
  exact hz x (List.mem_of_mem_take hx)

/-- The first fill of `fd_object data`, a file of 8 MiB and one byte: one read fills the
buffer, from its start to its end. -/
theorem fd_object_fill (data : List Nat) (h : data.length = 8388609) :
    ∃ s1, iternext_fill (fd_object data) = Except.ok s1 ∧ s1.start = 0 ∧
      s1.end_ = 8388608 ∧ s1.bufsz = 8388608 ∧ s1.max_blob = 32768 ∧ s1.freed = false ∧
      ((∀ x ∈ data, x = 0) → (iternext_scan s1).1 = 0) := by
  have hfill : iternext_fill (fd_object data) = Except.ok
      { fd_object data with
        fobj := some ((fd_file data).read
          ((fd_object data).bufsz - (fd_object data).end_)).2
        buf := store (fd_object data).buf (fd_object data).end_
          ((fd_file data).read ((fd_object data).bufsz - (fd_object data).end_)).1
        end_ := (fd_object data).end_
          + ((fd_file data).read
              ((fd_object data).bufsz - (fd_object data).end_)).1.length
        read := (fd_object data).read
          + ((fd_file data).read
              ((fd_object data).bufsz - (fd_object data).end_)).1.length } := by
    unfold iternext_fill
    rw [if_pos ⟨by show (0 : Nat) < 8388608; decide, rfl⟩]
    dsimp only
    rw [if_neg (by intro hc; exact Bool.noConfusion hc.1)]
    rw [fd_object_read data h]
    dsimp only
    rw [if_neg (by rw [fd_file_read data h]; decide)]
  refine ⟨_, hfill, rfl, ?_, rfl, rfl, rfl, ?_⟩
  · have e1 : (fd_object data).end_ = 0 := rfl
    dsimp only
    rw [fd_file_read data h, e1]
  · intro hz
    unfold iternext_scan
    dsimp only
    have hm : (fd_object data).mode = bup_splitter_mode.SPLIT_MODE_LEGACY := rfl
    have hb : (fd_object data).bits = 13 := rfl
    rw [hm, hb]
    dsimp only
    rw [legacy_zero_scan]
    intro i
    exact store_zero _ _ _ (fun _ => rfl) (fd_file_read_zero data _ hz) _

theorem loop_stop_state (fuel : Nat) : ∀ (s s' : HashSplitter),
    HashSplitter_iternext_loop fuel s = Except.ok (Next.stop, s') →
    s'.start = s'.end_ ∧ s'.fobj = none ∧ s'.freed = true := by
  induction fuel with
  | zero => intro s s' h; exact Except.noConfusion h
  | succ n ih =>
    intro s s' h
    unfold HashSplitter_iternext_loop at h
    split_ifs at h with h0
    split at h
    · exact Except.noConfusion h
    · rename_i s1 hfill
      rcases hsc : iternext_scan s1 with ⟨ofs, eb⟩
      rw [hsc] at h
      simp only at h
      have hemit : ∀ o l, iternext_emit s1 o l ≠ Except.ok (Next.stop, s') := by
        intro o l he
        unfold iternext_emit at he
        split_ifs at he
        simp at he
      split_ifs at h with hstop hfr hfr2 hofs hmax heof
      · simp only [Except.ok.injEq, Prod.mk.injEq, true_and] at h
        subst h
        refine ⟨hstop.1, ?_, rfl⟩
        cases hfo : s1.fobj with
        | none => rfl
        | some f =>
          have := hstop.2
          rw [hfo] at this
          exact Bool.noConfusion this
      · exact absurd h (hemit _ _)
      · exact absurd h (hemit _ _)
      · exact absurd h (hemit _ _)
      · split at h
        · exact Except.noConfusion h
        · exact ih _ s' h

/-- A call of `next()` on an object whose iteration has signalled its end: the end branch is
taken again and `Py_DECREF(self->buf)` goes through the null pointer. -/
theorem next_after_end (s s' : HashSplitter)
    (h : HashSplitter_iternext s = Except.ok (Next.stop, s')) :
    HashSplitter_iternext s' = Except.error Fault.crashed := by
  obtain ⟨h1, h2, h3⟩ := loop_stop_state _ s s' h
  exact iternext_after_stop s' h1 h2 h3


theorem mask_pos_loop_stable (fuel : Nat) : ∀ (tmp pos : Nat),
    mask_pos_loop fuel tmp pos < pos + fuel →
    ∀ k, mask_pos_loop (fuel + k) tmp pos = mask_pos_loop fuel tmp pos := by
  induction fuel with
  | zero =>
    intro tmp pos h
    rw [mask_pos_loop] at h
    omega
  | succ n ih =>
    intro tmp pos h k
    rw [show n + 1 + k = (n + k) + 1 by omega, mask_pos_loop, mask_pos_loop]
    rw [mask_pos_loop] at h
    split_ifs at h ⊢ with h1 h2
    · exact ih _ _ (by omega) k
    · exact ih _ _ (by omega) k
    · rfl

theorem popcount_loop_complement (n : Nat) : ∀ x, x < 2 ^ n →
    builtin_popcountll_loop n (2 ^ n - 1 - x) + builtin_popcountll_loop n x = n := by
  induction n with
  | zero => intro x _; simp [builtin_popcountll_loop]
  | succ m ih =>
    intro x hx
    unfold builtin_popcountll_loop
    have hp : 2 ^ (m + 1) = 2 * 2 ^ m := by rw [pow_succ]; ring
    have hpos : 0 < 2 ^ m := by positivity
    have hx2 : x / 2 < 2 ^ m := by omega
    have hd : (2 ^ (m + 1) - 1 - x) / 2 = 2 ^ m - 1 - x / 2 := by omega
    have hm : (2 ^ (m + 1) - 1 - x) % 2 + x % 2 = 1 := by omega
    rw [hd]
    have := ih (x / 2) hx2
    omega

theorem popcount_complement (x : Nat) (hx : x < U64) :
    builtin_popcountll (U64 - 1 - x) = 64 - builtin_popcountll x := by
  have h := popcount_loop_complement 64 x hx
  have hU : U64 = 2 ^ 64 := by decide
  unfold builtin_popcountll
  rw [hU]
  omega

theorem popcount_rest (nbits : Nat) (h1 : 1 ≤ nbits) (h21 : nbits ≤ 21) :
    builtin_popcountll (tmask_c ^^^ fastcdc_mask_c nbits) = 21 - nbits := by
  interval_cases nbits <;> decide

theorem popcount_hit_le (nbits fp : Nat) (h1 : 1 ≤ nbits) (h21 : nbits ≤ 21)
    (hhit : fp &&& fastcdc_mask_c nbits = 0) :
    builtin_popcountll (fp &&& tmask_c) ≤ 21 - nbits := by
  rw [← popcount_rest nbits h1 h21]
  unfold builtin_popcountll
  apply popcount_loop_mono
  intro i _ hb
  rw [Nat.testBit_and, Bool.and_eq_true] at hb
  have hm : (fp &&& fastcdc_mask_c nbits).testBit i = false := by
    rw [hhit, Nat.zero_testBit]
  rw [Nat.testBit_and, hb.1, Bool.true_and] at hm
  rw [Nat.testBit_xor, hb.2, hm]
  rfl

theorem fastcdc_hit_extrabits (nbits : Nat) (buf : Nat → Nat) (len e0 : Nat)
    (h1 : 1 ≤ nbits) (h21 : nbits ≤ 21) (hlen : 1 <<< (nbits - 2) < len)
    (hhit : (HashSplitter_find_offs_fastcdc nbits buf len e0).1 ≠ 0) :
    ∃ k, (fastcdc_visit nbits buf k).1 = (HashSplitter_find_offs_fastcdc nbits buf len e0).1 ∧
      (fastcdc_visit nbits buf k).2 &&& fastcdc_mask_c nbits = 0 ∧
      (HashSplitter_find_offs_fastcdc nbits buf len e0).2
        = 64 - nbits - builtin_popcountll ((fastcdc_visit nbits buf k).2 &&& tmask_c) ∧
      43 ≤ (HashSplitter_find_offs_fastcdc nbits buf len e0).2 ∧
      (HashSplitter_find_offs_fastcdc nbits buf len e0).2 ≤ 64 - nbits := by
  rcases (fastcdc_contract_aux nbits buf len e0 h21).2.1 hlen with hz | ⟨k, k1, _, _, k4, k5, _⟩
  · exact absurd hz hhit
  · have hlt : (fastcdc_visit nbits buf k).2 &&& tmask_c < U64 :=
      lt_of_le_of_lt Nat.and_le_right (by decide)
    have hc := popcount_complement _ hlt
    have hle := popcount_hit_le nbits _ h1 h21 k4
    refine ⟨k, k1, k4, ?_, ?_, ?_⟩
    · rw [k5, hc]; omega
    · rw [k5, hc]; omega
    · rw [k5, hc]; omega
/-- C1 (failing input).  One source holding the two bytes 94, 1, `bits = 13`, legacy mode,
zero-filled buffer: the first `next()` dies on `assert(self->end - self->start >= ofs)`,
because the scanner answers offset 64 for two live bytes.  No chunk is handed out and the end
is never signalled, so the two source bytes are lost. -/
theorem coverage_lost_on_short_source :
    hashsplit glob4k zero_heap (args13 [[94, 1]] true "legacy") 3 =
      ([], RunEnd.failed Fault.assertion) := by
  decide

/-- C2 (failing input).  For `nbits = 13` and a buffer of length 2 holding the bytes 94, 1,
with zero bytes behind it in memory, the legacy scanner returns offset 64 (and 7 extra bits):
the first loop runs over 64 bytes whatever `len` is, so the result exceeds `len` and is
decided by bytes outside `buf[0 .. len)`; with `0xff` bytes behind the buffer the same call
returns 0. -/
theorem legacy_scanner_overruns_short_buffer :
    HashSplitter_find_offs_legacy 13 (fun i => [94, 1].getD i 0) 2 0 = (64, 7) ∧
    HashSplitter_find_offs_legacy 13 (fun i => [94, 1].getD i 255) 2 0 = (0, 0) := by
  decide

/-- C3.  After a successful construction and any number of calls that handed out chunks,
every chunk the next call of `next()` hands out, in either mode and under either boundary
policy, has a length `c` with `1 <= c <= max_blob = 4 * 2^bits`; and at the moment of
emission the object `t` holds at least `c` live bytes: the chunk is `buf[start .. start + c)`
of `t`, `c <= end - start` there, and the call leaves `t` with `start` advanced by `c`. -/
theorem emitted_chunk_bounds (p e : Int) (g : Globals) (heap : Nat → Nat → Nat)
    (args : InitArgs) (s0 s s1 : HashSplitter) (n : Nat) (c : List Nat) (level : Nat)
    (hg : hashsplit_init p e = Except.ok g)
    (h0 : HashSplitter_init g heap args = Except.ok s0)
    (hs : HashSplitter_after n s0 = some s)
    (hstep : HashSplitter_iternext s = Except.ok (Next.chunk c level, s1)) :
    1 ≤ c.length ∧ c.length ≤ s.max_blob ∧ s.max_blob = 4 * 2 ^ s.bits ∧
    ∃ t : HashSplitter, c = slice t.buf t.start c.length ∧ c.length ≤ t.end_ - t.start ∧
      s1 = { t with start := t.start + c.length } := by
  have hc0 := (init_cfg p e g heap args s0 hg h0).1
  have hc : CfgOk s := CfgOk.of_same (after_cfg n s0 s hs) hc0
  obtain ⟨t, t1, t2, t3, t4, t5, t6, t7⟩ := iternext_loop_emit _ _ _ _ _ hstep
  have hct : CfgOk t := CfgOk.of_same t1 hc
  have hscan := scan_ofs_le t hct
  obtain ⟨c1, c2, c3, c4, c5⟩ := hct
  have hmb : t.max_blob = s.max_blob := t1.2.1
  have hpos : 0 < t.max_blob := by rw [c3]; positivity
  have hpow : s.max_blob = 4 * 2 ^ s.bits := by
    rw [hc.2.2.1, pow_add]; ring
  refine ⟨?_, ?_, hpow, t, t4, t5, t6⟩
  · rcases t7 with ⟨a1, a2, _⟩ | ⟨_, _, a3, _⟩ | ⟨_, _, a3, _, _, a6, _⟩
    · omega
    · omega
    · omega
  · rcases t7 with ⟨a1, a2, _⟩ | ⟨_, _, a3, _⟩ | ⟨_, a2, _, _, _, a6, _⟩
    · omega
    · omega
    · omega

/-- C3 at a concrete run: one source with the bytes 94, 1 over a buffer that comes filled
with `0xff`; the first call hands out the two bytes as one chunk. -/
theorem emitted_chunk_bounds_witness :
    1 ≤ [94, 1].length ∧ [94, 1].length ≤ sample_object.max_blob ∧
    sample_object.max_blob = 4 * 2 ^ sample_object.bits ∧
    ∃ t : HashSplitter, [94, 1] = slice t.buf t.start [94, 1].length ∧ [94, 1].length ≤ t.end_ - t.start ∧
      sample_after = { t with start := t.start + [94, 1].length } :=
  emitted_chunk_bounds 4096 0 glob4k ff_heap (args13 [[94, 1]] true "legacy")
    sample_object sample_object sample_after 0 [94, 1] 0 rfl rfl rfl rfl

/-- C4 (failing input).  After construction over one source holding the bytes 94, 1 (legacy
mode, zero-filled buffer) the fill step leaves `start = 0`, `end = 2` within `bufsz`, the
scanner answers `ofs = 64`, and the call of `next()` ends in the failed assertion
`end - start >= ofs`. -/
theorem emission_assertion_fails :
    ((HashSplitter_init glob4k zero_heap (args13 [[94, 1]] true "legacy")).toOption.bind
        (fun s0 => (iternext_fill s0).toOption.map
          (fun s1 => (s1.start, s1.end_, s1.bufsz, iternext_scan s1))))
      = some (0, 2, 8388608, (64, 7)) ∧
    ((HashSplitter_init glob4k zero_heap (args13 [[94, 1]] true "legacy")).toOption.bind
        (fun s0 => fault_of (HashSplitter_iternext s0)))
      = some Fault.assertion := by
  decide

/-- C5 (failing input).  Two sources of 100 bytes each, `keep_boundaries = true`, legacy
mode, zero-filled buffer: the first chunk has 98 bytes, and the next call dies on the
emission assertion while two bytes of the first source are live.  The chunk lengths handed
out are `[98]`; no prefix of them sums to 100. -/
theorem boundary_missed_after_abort :
    hashsplit glob4k zero_heap (args13 [source100, List.replicate 100 7] true "legacy") 4 =
      ([(source100.take 98, 1)], RunEnd.failed Fault.assertion) := by
  decide

/-- C6 (failing input).  The two bytes 94, 1 given as two sources of one byte each,
`keep_boundaries = false`, legacy mode, zero-filled buffer: the reference chunking of the
concatenation is the single chunk `[94, 1]` at level 0, while the splitter hands out nothing
and dies on the emission assertion. -/
theorem split_equivalence_broken :
    reference_chunking 13 4 32768 2 ([94] ++ [1]) = [([94, 1], 0)] ∧
    hashsplit glob4k zero_heap (args13 [[94], [1]] false "legacy") 3 =
      ([], RunEnd.failed Fault.assertion) := by
  decide

/-- C7 (failing input).  The same source (bytes 94, 1) and the same configuration, run
once over a buffer that comes filled with `0xff` and once over one that comes zero-filled:
the runs differ only in bytes outside the live region, and the first hands out the chunk
`[94, 1]` at level 0 and ends, while the second hands out nothing and aborts. -/
theorem output_depends_on_stale_bytes :
    hashsplit glob4k ff_heap (args13 [[94, 1]] true "legacy") 3 =
      ([([94, 1], 0)], RunEnd.stopped) ∧
    hashsplit glob4k zero_heap (args13 [[94, 1]] true "legacy") 3 =
      ([], RunEnd.failed Fault.assertion) := by
  decide

/-- C8.  Whenever `split_found` reports a split for a 32-bit digest `d`, with `nbits` at most
`max_bits` (so for every `nbits` from 13 to `max_bits`), the extra bits it stores are the number of trailing one bits of
`(d >> nbits) >> 1`: the bits of that value below the count are one and the bit at the count
is zero; in terms of `d`, these are the bits from position `nbits + 1` on.  The count is at
most `32 - nbits - 1`, and the variant with the counting loop stores the same value as the
variant with `__builtin_ctz(~v)`.  The record scanner `HashSplitter_roll` stores the same
count for the digest of the rollsum it stops at. -/
theorem legacy_extrabits_trailing_ones (p e : Int) (g : Globals) (nbits d e0 : Nat)
    (hg : hashsplit_init p e = Except.ok g) (hhi : nbits ≤ g.max_bits)
    (hd : d < U32) (hf : (split_found d nbits e0).1 = true) :
    (∀ j, j < (split_found d nbits e0).2 → (d >>> nbits >>> 1).testBit j = true) ∧
    (d >>> nbits >>> 1).testBit (split_found d nbits e0).2 = false ∧
    (∀ j, j < (split_found d nbits e0).2 → d.testBit (nbits + 1 + j) = true) ∧
    d.testBit (nbits + 1 + (split_found d nbits e0).2) = false ∧
    (split_found d nbits e0).2 ≤ 32 - nbits - 1 ∧
    split_found_loop d nbits e0 = split_found d nbits e0 ∧
    (∀ (r : Rollsum) (buf : List Nat), (HashSplitter_roll r nbits buf e0).1 ≠ 0 →
      (∀ j, j < (HashSplitter_roll r nbits buf e0).2.1 →
        (rollsum_digest (HashSplitter_roll r nbits buf e0).2.2).testBit (nbits + 1 + j)
          = true) ∧
      (rollsum_digest (HashSplitter_roll r nbits buf e0).2.2).testBit
        (nbits + 1 + (HashSplitter_roll r nbits buf e0).2.1) = false ∧
      (HashSplitter_roll r nbits buf e0).2.1 ≤ 32 - nbits - 1) := by
  have hmax := (hashsplit_init_ok p e g hg).1
  have hn : nbits ≤ 31 := by omega
  have hvar := split_found_variants d nbits e0 hd
  have hval : (split_found d nbits e0).2 = count_ones_loop 32 (d >>> nbits >>> 1) 0 := by
    rw [← hvar]
    have hf1 : (split_found_loop d nbits e0).1 = true := by rw [hvar]; exact hf
    unfold split_found_loop at hf1 ⊢
    simp only at hf1 ⊢
    split_ifs at hf1 ⊢ with h
    rfl
  obtain ⟨c1, c2, c3⟩ := count_ones_shifted d nbits hd hn
  have hb : ∀ j, (d >>> nbits >>> 1).testBit j = d.testBit (nbits + 1 + j) := by
    intro j
    rw [Nat.testBit_shiftRight, Nat.testBit_shiftRight]
    congr 1; omega
  rw [hval]
  refine ⟨fun j hj => by rw [hb]; exact c1 j hj, by rw [hb]; exact c2, c1, c2, c3,
    hvar, ?_⟩
  intro r buf hne
  exact roll_loop_extrabits nbits _ _ hn buf 0 r e0 hne

/-- C8 at a concrete digest: `d = 0x081fffff` with `nbits = 13` has seven extra bits. -/
theorem legacy_extrabits_trailing_ones_witness :
    (split_found 136314879 13 0).2 = 7 ∧ (split_found 136314879 13 0).2 ≤ 32 - 13 - 1 :=
  ⟨by decide,
   (legacy_extrabits_trailing_ones 4096 0 glob4k 13 136314879 0 rfl (by decide) (by decide)
      (by decide)).2.2.2.2.1⟩

/-- C9.  Every chunk a call of `next()` hands out carries a level that is a natural number.
With `t` the object at the moment of emission and `(ofs, extrabits)` the answer of the
scanner there: if `ofs > 0` the chunk has `ofs` bytes and its level is
`extrabits / fanbits` rounded down; if `ofs = 0` the split is forced, either because the
live region reached `max_blob` or by the end-of-file and boundary rule, and the level is
exactly 0. -/
theorem emitted_levels (s s1 : HashSplitter) (c : List Nat) (level : Nat)
    (hstep : HashSplitter_iternext s = Except.ok (Next.chunk c level, s1)) :
    0 ≤ level ∧
    ∃ t : HashSplitter, s1 = { t with start := t.start + c.length } ∧
      ((iternext_scan t).1 ≠ 0 →
        c.length = (iternext_scan t).1 ∧ level = (iternext_scan t).2 / t.fanbits) ∧
      ((iternext_scan t).1 = 0 → level = 0 ∧
        ((t.max_blob ≤ t.end_ - t.start ∧ c.length = t.max_blob) ∨
         (t.end_ - t.start < t.max_blob ∧ t.eof = true ∧
           (t.boundaries = true ∨ t.fobj.isNone = true) ∧ c.length = t.end_ - t.start))) := by
  obtain ⟨t, _, _, _, _, _, t6, t7⟩ := iternext_loop_emit _ _ _ _ _ hstep
  refine ⟨Nat.zero_le _, t, t6, ?_, ?_⟩
  · intro hne
    rcases t7 with ⟨_, a2, a3⟩ | ⟨a1, _⟩ | ⟨a1, _⟩
    · exact ⟨a2, a3⟩
    · exact absurd a1 hne
    · exact absurd a1 hne
  · intro hz
    rcases t7 with ⟨a1, _⟩ | ⟨_, a2, a3, a4⟩ | ⟨_, a2, _, a4, a5, a6, a7⟩
    · exact absurd hz a1
    · exact ⟨a4, Or.inl ⟨a2, a3⟩⟩
    · exact ⟨a7, Or.inr ⟨a2, a4, a5, a6⟩⟩

/-- C9 at a concrete call: the first `next()` on `sample_object` hands out `[94, 1]` at
level 0. -/
theorem emitted_levels_witness :
    0 ≤ 0 ∧
    ∃ t : HashSplitter, sample_after = { t with start := t.start + [94, 1].length } ∧
      ((iternext_scan t).1 ≠ 0 →
        [94, 1].length = (iternext_scan t).1 ∧ 0 = (iternext_scan t).2 / t.fanbits) ∧
      ((iternext_scan t).1 = 0 → 0 = 0 ∧
        ((t.max_blob ≤ t.end_ - t.start ∧ [94, 1].length = t.max_blob) ∨
         (t.end_ - t.start < t.max_blob ∧ t.eof = true ∧
           (t.boundaries = true ∨ t.fobj.isNone = true) ∧
           [94, 1].length = t.end_ - t.start))) :=
  emitted_levels sample_object sample_after [94, 1] 0 rfl

/-- C11 (counterexample).  In FastCDC mode with `bits = 13`, over one source holding the
bytes 1, 2, 3, the scanner is applied to the 3 live bytes and answers `ofs = 3`
(`extrabits = 0`), so `next()` hands out the chunk `[1, 2, 3]` through the branch
`if (ofs)`; its length 3 is below `2^(bits - 2) = 2048`. -/
theorem fastcdc_short_chunk_through_scanner :
    ((HashSplitter_init glob4k zero_heap (args13 [[1, 2, 3]] true "fastcdc")).toOption.bind
        (fun s0 => (iternext_fill s0).toOption.map
          (fun s1 => (s1.start, s1.end_, iternext_scan s1))))
      = some (0, 3, (3, 0)) ∧
    hashsplit glob4k zero_heap (args13 [[1, 2, 3]] true "fastcdc") 2
      = ([([1, 2, 3], 0)], RunEnd.stopped) ∧
    [1, 2, 3].length < 2 ^ (13 - 2) := by
  decide

/-- C11 (amended).  In FastCDC mode, after a successful construction and any number of calls
that handed out chunks, a chunk that the next call of `next()` hands out because the scanner
answered `ofs > 0` at the emission state `t` has length `ofs`, and either its length is at
least `2^(bits - 2)`, or the live bytes at emission are no more than `2^(bits - 2)` and the
chunk is all of them, at level 0. -/
theorem fastcdc_band_or_all_live (p e : Int) (g : Globals) (heap : Nat → Nat → Nat)
    (args : InitArgs) (s0 s s1 : HashSplitter) (n : Nat) (c : List Nat) (level : Nat)
    (hg : hashsplit_init p e = Except.ok g)
    (h0 : HashSplitter_init g heap args = Except.ok s0)
    (hs : HashSplitter_after n s0 = some s)
    (hmode : s.mode = bup_splitter_mode.SPLIT_MODE_FASTCDC)
    (hstep : HashSplitter_iternext s = Except.ok (Next.chunk c level, s1)) :
    ∃ t : HashSplitter, t.mode = bup_splitter_mode.SPLIT_MODE_FASTCDC ∧ t.bits = s.bits ∧
      c = slice t.buf t.start c.length ∧ s1 = { t with start := t.start + c.length } ∧
      ((iternext_scan t).1 ≠ 0 →
        c.length = (iternext_scan t).1 ∧
        (2 ^ (s.bits - 2) ≤ c.length ∨
          (t.end_ - t.start ≤ 2 ^ (s.bits - 2) ∧ c.length = t.end_ - t.start ∧
            level = 0))) := by
  have hc0 := (init_cfg p e g heap args s0 hg h0).1
  have hc : CfgOk s := CfgOk.of_same (after_cfg n s0 s hs) hc0
  obtain ⟨t, t1, t2, t3, t4, t5, t6, t7⟩ := iternext_loop_emit _ _ _ _ _ hstep
  have hct : CfgOk t := CfgOk.of_same t1 hc
  obtain ⟨c1, c2, c3, c4, c5⟩ := hct
  have hbits : t.bits = s.bits := t1.1
  have hm : t.mode = bup_splitter_mode.SPLIT_MODE_FASTCDC := t1.2.2.2.1.trans hmode
  refine ⟨t, hm, hbits, t4, t6, ?_⟩
  intro hne
  rcases t7 with ⟨_, a2, a3⟩ | ⟨a1, _⟩ | ⟨a1, _⟩
  · refine ⟨a2, ?_⟩
    have hscan : iternext_scan t = HashSplitter_find_offs_fastcdc t.bits
        (fun i => t.buf (t.start + i)) (min (t.end_ - t.start) t.max_blob) 0 := by
      unfold iternext_scan
      rw [hm]
    obtain ⟨f1, f2, _⟩ := fastcdc_contract_aux t.bits (fun i => t.buf (t.start + i))
      (min (t.end_ - t.start) t.max_blob) 0 c2
    have hsh : 1 <<< (t.bits - 2) = 2 ^ (t.bits - 2) := by
      rw [Nat.shiftLeft_eq, one_mul]
    have hlt : 2 ^ (t.bits - 2) < t.max_blob := by
      rw [c3]
      exact Nat.pow_lt_pow_right (by decide) (by omega)
    rw [hsh] at f1 f2
    rw [← hbits]
    rcases Nat.lt_or_ge (2 ^ (t.bits - 2)) (min (t.end_ - t.start) t.max_blob) with hlen | hlen
    · left
      rcases f2 hlen with hz | ⟨k, _, k2, _⟩
      · rw [← hscan] at hz
        exact absurd hz hne
      · rw [← hscan] at k2
        omega
    · right
      have hres := f1 hlen
      rw [← hscan] at hres
      have hlive : t.end_ - t.start ≤ 2 ^ (t.bits - 2) := by
        rcases Nat.le_total (t.end_ - t.start) t.max_blob with hle | hle
        · rw [Nat.min_eq_left hle] at hlen
          exact hlen
        · rw [Nat.min_eq_right hle] at hlen
          omega
      have hmin : min (t.end_ - t.start) t.max_blob = t.end_ - t.start :=
        Nat.min_eq_left (by omega)
      refine ⟨hlive, ?_, ?_⟩
      · rw [a2, hres, hmin]
      · rw [a3, hres]
        exact Nat.zero_div _
  · exact absurd a1 hne
  · exact absurd a1 hne

/-- C11 (amended) at a concrete run: one source with the bytes 1, 2, 3 in FastCDC mode; the
first call hands out the three bytes as one chunk at level 0. -/
theorem fastcdc_band_or_all_live_witness :
    ∃ t : HashSplitter, t.mode = bup_splitter_mode.SPLIT_MODE_FASTCDC ∧
      t.bits = short_object.bits ∧
      [1, 2, 3] = slice t.buf t.start [1, 2, 3].length ∧
      short_after = { t with start := t.start + [1, 2, 3].length } ∧
      ((iternext_scan t).1 ≠ 0 →
        [1, 2, 3].length = (iternext_scan t).1 ∧
        (2 ^ (short_object.bits - 2) ≤ [1, 2, 3].length ∨
          (t.end_ - t.start ≤ 2 ^ (short_object.bits - 2) ∧
            [1, 2, 3].length = t.end_ - t.start ∧ 0 = 0))) :=
  fastcdc_band_or_all_live 4096 0 glob4k zero_heap (args13 [[1, 2, 3]] true "fastcdc")
    short_object short_object short_after 0 [1, 2, 3] 0 rfl rfl rfl rfl rfl

/-- The outcomes of construction, for the module globals `g` that `hashsplit_init` leaves,
arguments that `bup_uint_from_py` converts, an iterable `files` and a buffer allocation that
succeeds, in terms of the value `parsed_mode args.mode args.stale_mode` that the local
variable `mode` holds after the argument parsing.  `HashSplitter_init` succeeds if and only if
`bits` is given and lies in `[13, max_bits]`, `fanbits` is not zero and that value is null or
points to `"legacy"` or `"fastcdc"`.  A failure is the `TypeError` of a missing `bits`, the
end of the process on a pointer that cannot be read, or `ValueError`; it is `ValueError` for
`bits = max_bits + 1` and, when `bits` is given, for `fanbits = 0`.  On success `bits` is the
argument, the mode is legacy exactly when the value is null or points to `"legacy"`,
`max_blob = 1 << (bits + 2)`, `bufsz = advise_chunk` and `start = end = 0`. -/
theorem construction_outcomes (p e : Int) (g : Globals)
    (hg : hashsplit_init p e = Except.ok g) (heap : Nat → Nat → Nat) (args : InitArgs) :
    ((∃ s, HashSplitter_init g heap args = Except.ok s) ↔
      ((∃ b, args.bits = some b ∧ 13 ≤ b ∧ b ≤ g.max_bits) ∧ args.fanbits ≠ some 0 ∧
        (parsed_mode args.mode args.stale_mode = CharPtr.null ∨
          parsed_mode args.mode args.stale_mode = CharPtr.str "legacy" ∨
          parsed_mode args.mode args.stale_mode = CharPtr.str "fastcdc"))) ∧
    (∀ f, HashSplitter_init g heap args = Except.error f →
      (args.bits = none ∧ f = Fault.raised PyError.TypeError) ∨
      (args.bits ≠ none ∧ parsed_mode args.mode args.stale_mode = CharPtr.wild ∧
        f = Fault.crashed) ∨
      (args.bits ≠ none ∧ f = Fault.raised PyError.ValueError)) ∧
    (args.bits = some (g.max_bits + 1) →
      HashSplitter_init g heap args = Except.error (Fault.raised PyError.ValueError)) ∧
    (args.bits ≠ none → args.fanbits = some 0 →
      HashSplitter_init g heap args = Except.error (Fault.raised PyError.ValueError)) ∧
    (∀ s, HashSplitter_init g heap args = Except.ok s →
      args.bits = some s.bits ∧
      (s.mode = bup_splitter_mode.SPLIT_MODE_LEGACY ↔
        (parsed_mode args.mode args.stale_mode = CharPtr.null ∨
          parsed_mode args.mode args.stale_mode = CharPtr.str "legacy")) ∧
      s.max_blob = 1 <<< (s.bits + 2) ∧ s.bufsz = g.advise_chunk ∧
      s.start = 0 ∧ s.end_ = 0) := by
  obtain ⟨g21, _, _, _⟩ := hashsplit_init_ok p e g hg
  refine ⟨⟨?_, ?_⟩, init_error g heap args, ?_, ?_, ?_⟩
  · rintro ⟨s, hs⟩
    obtain ⟨v1, v2, v3⟩ := init_valid g heap args s hs
    exact ⟨v1, v2, or_assoc.mp v3⟩
  · rintro ⟨v1, v2, v3⟩
    exact init_ok_of_valid g heap args g21 ⟨v1, v2, or_assoc.mpr v3⟩
  · intro hb
    unfold HashSplitter_init
    rw [hb]
    dsimp only
    unfold bits_from_py_kw
    dsimp only
    rw [if_pos (Or.inr (by omega))]
  · intro hb hf
    rcases hres : HashSplitter_init g heap args with f | s
    · rcases init_error g heap args f hres with ⟨h1, _⟩ | ⟨_, _, h3⟩ | ⟨_, h3⟩
      · exact absurd h1 hb
      · exfalso
        subst h3
        unfold HashSplitter_init at hres
        split at hres
        · exact Except.noConfusion hres (fun h => Fault.noConfusion h)
        · split at hres
          · exact Except.noConfusion hres (fun h => Fault.noConfusion h)
          · dsimp only at hres
            rw [hf] at hres
            dsimp only at hres
            rw [if_pos rfl] at hres
            exact Except.noConfusion hres (fun h => Fault.noConfusion h)
      · rw [h3]
    · exact absurd hf (init_valid g heap args s hres).2.1
  · intro s hs
    exact init_fields g heap args s hs

/-- C12 (failing input).  `HashSplitter([b"\x01\x02\x03"], bits=13)` on a platform with
4096-byte pages: `bits` lies in `[13, max_bits]`, `fanbits` keeps its default 4, and `mode` is
left out, for which the specification gives the default `"legacy"`.  The local variable
`char *mode` of `HashSplitter_init` has no initialiser and the argument parsing does not write
it for an argument that is left out, so the outcome is that of whatever the variable holds:
with a pointer to other bytes (here `"x"`) construction fails with `ValueError`, with a
pointer that cannot be read the process ends, with a pointer to `"fastcdc"` the splitter is
built in FastCDC mode, and only with a null pointer in legacy mode.  With `mode="legacy"`
given the splitter is built in legacy mode whatever the variable held. -/
theorem left_out_mode_read_uninitialised :
    fault_of (HashSplitter_init glob4k zero_heap (args_no_mode [[1, 2, 3]] (CharPtr.str "x")))
      = some (Fault.raised PyError.ValueError) ∧
    fault_of (HashSplitter_init glob4k zero_heap (args_no_mode [[1, 2, 3]] CharPtr.wild))
      = some Fault.crashed ∧
    (HashSplitter_init glob4k zero_heap
        (args_no_mode [[1, 2, 3]] (CharPtr.str "fastcdc"))).toOption.map (fun s => s.mode)
      = some bup_splitter_mode.SPLIT_MODE_FASTCDC ∧
    (HashSplitter_init glob4k zero_heap
        (args_no_mode [[1, 2, 3]] CharPtr.null)).toOption.map (fun s => s.mode)
      = some bup_splitter_mode.SPLIT_MODE_LEGACY ∧
    ∀ stale, (HashSplitter_init glob4k zero_heap
        { args_no_mode [[1, 2, 3]] stale with mode := some (some "legacy") }).toOption.map
          (fun s => s.mode)
      = some bup_splitter_mode.SPLIT_MODE_LEGACY := by
  refine ⟨by decide, by decide, by decide, by decide, ?_⟩
  intro stale
  rfl

/-- C13.  A record splitter with a fresh rollsum (just constructed or just reset) and `bits`
up to 31 (construction admits 13 to 21) is fed the records `prev`, each feed returning
`(False, None)`, and then the record `rec`.  Let `mem` be any memory that holds the
concatenation of all these records at its start.  The feed of `rec` reports a content split
(`bits_out` is not `None`) if and only if `HashSplitter_find_offs_legacy`, applied from its
fresh state to `mem` with the length of the concatenation, returns an offset inside `rec`
(above the length of `prev`, within the length of the concatenation); and then
`bits_out = bits + extrabits` of that scan.  The rollsum of `bupsplit.h` is taken as the
spec describes it. -/
theorem record_stream_equivalence (s0 s s1 : RecordHashSplitter) (prev : List (List Nat))
    (rec : List Nat) (mem : Nat → Nat) (split : Bool) (bo : Option Nat)
    (hfresh : s0.r = rollsum_init) (hbits : s0.bits ≤ 31)
    (hprev : RecordHashSplitter_feeds s0 prev = some s)
    (hmem : ∀ i, i < (prev.flatten ++ rec).length → mem i = (prev.flatten ++ rec).getD i 0)
    (hfeed : RecordHashSplitter_feed s rec = Except.ok ((split, bo), s1)) :
    (bo ≠ none ↔
      (prev.flatten.length
          < (HashSplitter_find_offs_legacy s0.bits mem (prev.flatten ++ rec).length 0).1 ∧
        (HashSplitter_find_offs_legacy s0.bits mem (prev.flatten ++ rec).length 0).1
          ≤ (prev.flatten ++ rec).length)) ∧
    (bo ≠ none → bo = some (s0.bits +
      (HashSplitter_find_offs_legacy s0.bits mem (prev.flatten ++ rec).length 0).2)) := by
  have hinv0 : RollInv mem 0 s0.r := by rw [hfresh]; exact roll_inv_init mem
  simp only [List.length_append] at hmem ⊢
  have hmem1 : ∀ j, j < prev.flatten.length → prev.flatten.getD j 0 = mem (0 + j) := by
    intro j hj
    rw [Nat.zero_add, hmem j (by omega), List.getD_append _ _ _ _ hj]
  have hmem2 : ∀ j, j < rec.length → rec.getD j 0 = mem (0 + prev.flatten.length + j) := by
    intro j hj
    rw [Nat.zero_add, hmem (prev.flatten.length + j) (by omega),
      List.getD_append_right _ _ _ _ (by omega)]
    congr 1
    omega
  obtain ⟨i1, i2, i3⟩ := feeds_inv mem prev s0 s 0 hprev hinv0 (by omega) hmem1
  obtain ⟨f1, _⟩ := feed_inv s rec _ s1 hfeed
  simp only [Prod.mk.injEq] at f1
  obtain ⟨_, f1b⟩ := f1
  rw [i2] at f1b
  have hroll := roll_result s0.bits mem (by omega) rec s.r _ i1 hmem2
  simp only [Nat.zero_add] at hroll i3
  rcases hroll with ⟨r1, r2, _⟩ | ⟨o, o1, o2, o3, o4, o5, o6⟩
  · have hbo : bo = none := by rw [f1b, if_neg (by simpa using r1)]
    have hmiss : ∀ o, 0 < o → o ≤ prev.flatten.length + rec.length →
        split_at s0.bits mem o = false := by
      intro o p1 p2
      by_cases ho : o ≤ prev.flatten.length
      · exact i3 o p1 ho
      · exact r2 o (by omega) p2
    refine ⟨⟨fun h => absurd hbo h, ?_⟩, fun h => absurd hbo h⟩
    rintro ⟨l1, l2⟩
    exfalso
    rcases legacy_result s0.bits mem (prev.flatten.length + rec.length) 0 with
      ⟨e1, _⟩ | ⟨o, p1, _, p3, _, p5⟩
    · rw [e1] at l1
      exact Nat.not_lt_zero _ l1
    · rw [p5] at l1 l2
      have := hmiss o p1 l2
      rw [p3] at this
      exact Bool.noConfusion this
  · have hne : (HashSplitter_roll s.r s0.bits rec 0).1 ≠ 0 := by omega
    have hfirst : ∀ o', 0 < o' → o' < o → split_at s0.bits mem o' = false := by
      intro o' p1 p2
      by_cases ho : o' ≤ prev.flatten.length
      · exact i3 o' p1 ho
      · exact o4 o' (by omega) p2
    have hleg := legacy_first_hit s0.bits mem (prev.flatten.length + rec.length) 0 o
      (by omega) (by omega) o3 hfirst
    have hcount := split_found_count (rolled_digest mem o) s0.bits
      (legacy_digest_lt _ _) o3
    have hbo : bo = some (s0.bits + (split_found (rolled_digest mem o) s0.bits 0).2) := by
      rw [f1b, if_pos hne, o6, hcount, Nat.add_comm]
    rw [hleg]
    refine ⟨⟨fun _ => ⟨o1, o2⟩, fun _ => by rw [hbo]; exact Option.some_ne_none _⟩,
      fun _ => hbo⟩

/-- C13 at a concrete stream: a fresh splitter for 13 bits is fed `[94]`, then `[1, 0]`, then
61 zero bytes; the third feed returns `(True, 20)`, and the scan of the 64 bytes in one
piece returns offset 64, inside the third record, with 7 extra bits. -/
theorem record_stream_equivalence_witness :
    ((some 20 : Option Nat) ≠ none ↔
      ([[94], [1, 0]].flatten.length
          < (HashSplitter_find_offs_legacy sample_recordsplitter.bits
              (fun i => sample_record.getD i 0)
              ([[94], [1, 0]].flatten ++ List.replicate 61 0).length 0).1 ∧
        (HashSplitter_find_offs_legacy sample_recordsplitter.bits
            (fun i => sample_record.getD i 0)
            ([[94], [1, 0]].flatten ++ List.replicate 61 0).length 0).1
          ≤ ([[94], [1, 0]].flatten ++ List.replicate 61 0).length)) ∧
    ((some 20 : Option Nat) ≠ none → (some 20 : Option Nat) =
      some (sample_recordsplitter.bits +
        (HashSplitter_find_offs_legacy sample_recordsplitter.bits
          (fun i => sample_record.getD i 0)
          ([[94], [1, 0]].flatten ++ List.replicate 61 0).length 0).2)) :=
  record_stream_equivalence sample_recordsplitter sample_prefix_fed
    { sample_recordsplitter with split_size := 61 } [[94], [1, 0]] (List.replicate 61 0)
    (fun i => sample_record.getD i 0) true (some 20) rfl (by decide) rfl
    (fun _ _ => rfl) rfl
/-- C14.  For a record splitter with `bits` up to 21 whose `split_size` is within
`max_split_size = 1 << (bits + 2)`, and every record (of a length a `Py_ssize_t` can hold),
`feed` returns normally.  With `out` the offset the scanner `HashSplitter_roll` returns for
the record: `split` is true if and only if `out` is not zero (a split offset inside the
record, `1 <= out <= len`) or the size after adding the record exceeds `max_split_size`; the
second component is `bits + extrabits` if `out` is not zero and `None` otherwise.  So a split
forced by the size alone gives `(True, None)` and no split at all gives `(False, None)`. -/
theorem record_feed_result (s : RecordHashSplitter) (buf : List Nat) (hb : s.bits ≤ 21)
    (hss : s.split_size ≤ s.max_split_size) (hmax : s.max_split_size = 1 <<< (s.bits + 2))
    (hlen : buf.length ≤ PY_SSIZE_T_MAX) :
    ∃ (split : Bool) (bo : Option Nat) (s1 : RecordHashSplitter),
      RecordHashSplitter_feed s buf = Except.ok ((split, bo), s1) ∧
      (split = true ↔ ((HashSplitter_roll s.r s.bits buf 0).1 ≠ 0 ∨
        (if (HashSplitter_roll s.r s.bits buf 0).1 ≠ 0 then 0 else s.split_size) + buf.length
          > s.max_split_size)) ∧
      ((HashSplitter_roll s.r s.bits buf 0).1 ≠ 0 →
        1 ≤ (HashSplitter_roll s.r s.bits buf 0).1 ∧
        (HashSplitter_roll s.r s.bits buf 0).1 ≤ buf.length ∧
        bo = some (s.bits + (HashSplitter_roll s.r s.bits buf 0).2.1)) ∧
      ((HashSplitter_roll s.r s.bits buf 0).1 = 0 → bo = none) ∧
      ((HashSplitter_roll s.r s.bits buf 0).1 = 0 →
        s.split_size + buf.length > s.max_split_size → (split, bo) = (true, none)) ∧
      ((HashSplitter_roll s.r s.bits buf 0).1 = 0 →
        s.split_size + buf.length ≤ s.max_split_size → (split, bo) = (false, none)) := by
  have hpow : s.max_split_size ≤ 2 ^ 23 := by
    rw [hmax, Nat.one_shiftLeft]
    exact Nat.pow_le_pow_right (by norm_num) (by omega)
  have hfeed := feed_ok s buf hb (le_trans hss hpow) hlen
  obtain ⟨hr1, _⟩ := roll_bounds s.r s.bits buf
  refine ⟨_, _, _, hfeed, ?_, ?_, ?_, ?_, ?_⟩
  · simp only [Bool.or_eq_true, decide_eq_true_eq]
  · intro hne
    refine ⟨by omega, hr1, ?_⟩
    rw [if_pos hne, Nat.add_comm]
  · intro h0
    rw [if_neg (by simpa using h0)]
  · intro h0 hgt
    simp [h0, hgt]
  · intro h0 hle
    simp [h0]
    omega

/-- C14 at a concrete record: the 64 bytes of `sample_record` fed to a fresh splitter for 13
bits. -/
theorem record_feed_result_witness :
    ∃ (split : Bool) (bo : Option Nat) (s1 : RecordHashSplitter),
      RecordHashSplitter_feed sample_recordsplitter sample_record
        = Except.ok ((split, bo), s1) ∧
      (split = true ↔
        ((HashSplitter_roll sample_recordsplitter.r sample_recordsplitter.bits
            sample_record 0).1 ≠ 0 ∨
        (if (HashSplitter_roll sample_recordsplitter.r sample_recordsplitter.bits
            sample_record 0).1 ≠ 0 then 0 else sample_recordsplitter.split_size)
          + sample_record.length > sample_recordsplitter.max_split_size)) :=
  match record_feed_result sample_recordsplitter sample_record (by decide) (by decide)
      (by decide) (by decide) with
  | ⟨split, bo, s1, h1, h2, _⟩ => ⟨split, bo, s1, h1, h2⟩

/-- C15 (failing input).  A fresh record splitter for 13 bits fed one record of 32769 zero
bytes returns `(True, None)`: the scanner finds no split point (its return value is 0), and
the size exceeds `max_split_size = 32768`.  The docstring of `feed` names two results,
`(True, bits)` if a split point is found and `(False, None)` otherwise; this result is
neither. -/
theorem record_feed_third_shape :
    (RecordHashSplitter_feed sample_recordsplitter (List.replicate 32769 0)).toOption.map
        (fun x => x.1) = some (true, none) ∧
    (HashSplitter_roll sample_recordsplitter.r sample_recordsplitter.bits
        (List.replicate 32769 0) 0).1 = 0 := by
  constructor
  · rw [feed_zeros_forced]
    rfl
  · exact roll_zeros 32769 0 rollsum_init 0 rfl rfl (fun _ => rfl)

/-- The results of `feed`.  Every result of a feed that returns normally has one of three shapes:
`(True, bits)` with `bits` an integer when the scanner finds a split point in the record;
`(True, None)` when it finds none but the size accumulated exceeds `max_split_size`; and
`(False, None)` otherwise. -/
theorem record_feed_shapes (s s1 : RecordHashSplitter) (buf : List Nat)
    (res : Bool × Option Nat) (h : RecordHashSplitter_feed s buf = Except.ok (res, s1)) :
    ((∃ b, res = (true, some b)) ∧ (HashSplitter_roll s.r s.bits buf 0).1 ≠ 0) ∨
    (res = (true, none) ∧ (HashSplitter_roll s.r s.bits buf 0).1 = 0 ∧
      s.split_size + buf.length > s.max_split_size) ∨
    (res = (false, none) ∧ (HashSplitter_roll s.r s.bits buf 0).1 = 0 ∧
      s.split_size + buf.length ≤ s.max_split_size) := by
  obtain ⟨h1, _⟩ := feed_inv s buf res s1 h
  by_cases ho : (HashSplitter_roll s.r s.bits buf 0).1 = 0
  · by_cases hf : s.split_size + buf.length > s.max_split_size
    · right; left
      refine ⟨?_, ho, hf⟩
      rw [h1]
      simp [ho, hf]
    · right; right
      refine ⟨?_, ho, by omega⟩
      rw [h1]
      simp [ho]
      omega
  · left
    refine ⟨⟨(HashSplitter_roll s.r s.bits buf 0).2.1 + s.bits, ?_⟩, ho⟩
    rw [h1]
    simp [ho]

/-- The results of `feed` at a concrete feed: `sample_record` fed to a fresh splitter for 13
bits returns `(True, 20)`. -/
theorem record_feed_shapes_witness :
    ((∃ b, ((true, some 20) : Bool × Option Nat) = (true, some b)) ∧
      (HashSplitter_roll sample_recordsplitter.r sample_recordsplitter.bits
        sample_record 0).1 ≠ 0) ∨
    (((true, some 20) : Bool × Option Nat) = (true, none) ∧
      (HashSplitter_roll sample_recordsplitter.r sample_recordsplitter.bits
        sample_record 0).1 = 0 ∧
      sample_recordsplitter.split_size + sample_record.length
        > sample_recordsplitter.max_split_size) ∨
    (((true, some 20) : Bool × Option Nat) = (false, none) ∧
      (HashSplitter_roll sample_recordsplitter.r sample_recordsplitter.bits
        sample_record 0).1 = 0 ∧
      sample_recordsplitter.split_size + sample_record.length
        ≤ sample_recordsplitter.max_split_size) :=
  record_feed_shapes sample_recordsplitter { sample_recordsplitter with split_size := 64 }
    sample_record (true, some 20) rfl

/-- C16.  After construction (whatever the arguments `bits` and `mode` and the value of the
uninitialised local `mode` with which it succeeds), and after every feed of every sequence of
records (of any lengths) in which each feed returns normally, `split_size <= max_split_size`
and `max_split_size = 1 << (bits + 2)`. -/
theorem record_forced_cap (g : Globals) (bits : Option Nat) (mode : Option (Option String))
    (stale : CharPtr) (s0 s : RecordHashSplitter) (recs : List (List Nat))
    (h0 : RecordHashSplitter_init g bits mode stale = Except.ok s0)
    (hs : RecordHashSplitter_feed_all s0 recs = some s) :
    s0.split_size ≤ s0.max_split_size ∧ s.split_size ≤ s.max_split_size ∧
    s.max_split_size = 1 <<< (s.bits + 2) := by
  obtain ⟨_, i2, i3, _⟩ := record_init_inv g bits mode stale s0 h0
  have h00 : s0.split_size ≤ s0.max_split_size := by rw [i2]; exact Nat.zero_le _
  obtain ⟨c1, c2, c3⟩ := feed_all_cap recs s0 s hs h00
  exact ⟨h00, c1, by rw [c2, c3, i3]⟩

/-- C16 at a concrete sequence: a splitter constructed with `bits=13, mode=None` and fed
`sample_record` and then `[1, 2, 3]`. -/
theorem record_forced_cap_witness :
    sample_recordsplitter.split_size ≤ sample_recordsplitter.max_split_size ∧
    sample_fed.split_size ≤ sample_fed.max_split_size ∧
    sample_fed.max_split_size = 1 <<< (sample_fed.bits + 2) :=
  record_forced_cap glob4k (some 13) (some none) CharPtr.wild sample_recordsplitter sample_fed
    [sample_record, [1, 2, 3]] rfl rfl

/-- C17.  After a feed that returns `(True, bits_out)` with `bits_out` not `None`, the
rolling checksum state of the object is the freshly initialised one, in `s1`, `s2`, window
contents and window offset.  Hence the scan of any next record gives what it gives on a
splitter whose rollsum is fresh, and the bytes of the record after the split offset have no
influence: with any other bytes in their place the scan of the record returns the same
offset, extra bits and rollsum. -/
theorem record_reset_on_hit (s s1 : RecordHashSplitter) (buf : List Nat) (b : Nat)
    (h : RecordHashSplitter_feed s buf = Except.ok ((true, some b), s1)) :
    s1.r = rollsum_init ∧ s1.bits = s.bits ∧
    (∀ (next : List Nat) (e : Nat),
      HashSplitter_roll s1.r s1.bits next e = HashSplitter_roll rollsum_init s.bits next e) ∧
    (HashSplitter_roll s.r s.bits buf 0).1 ≠ 0 ∧
    (∀ (tail : List Nat),
      HashSplitter_roll s.r s.bits
          (buf.take (HashSplitter_roll s.r s.bits buf 0).1 ++ tail) 0
        = HashSplitter_roll s.r s.bits buf 0) := by
  obtain ⟨h1, h2⟩ := feed_inv s buf _ s1 h
  have hout : (HashSplitter_roll s.r s.bits buf 0).1 ≠ 0 := by
    intro h0
    simp [h0] at h1
  have hr : s1.r = rollsum_init ∧ s1.bits = s.bits := by
    subst h2
    split_ifs <;> exact ⟨rfl, rfl⟩
  refine ⟨hr.1, hr.2, ?_, hout, ?_⟩
  · intro next e
    rw [hr.1, hr.2]
  · intro tail
    unfold HashSplitter_roll at hout ⊢
    simp only at hout ⊢
    have := roll_loop_prefix s.bits (((1 <<< s.bits) - 1) % 65536)
      (if s.bits ≤ 16 then 0 else ((1 <<< (s.bits - 16)) - 1) % 65536) buf 0 s.r 0 tail hout
    simpa using this

/-- C17 at a concrete feed: `sample_record` fed to a fresh splitter for 13 bits returns
`(True, 20)`. -/
theorem record_reset_on_hit_witness :
    { sample_recordsplitter with split_size := 64 }.r = rollsum_init ∧
    { sample_recordsplitter with split_size := 64 }.bits = sample_recordsplitter.bits :=
  match record_reset_on_hit sample_recordsplitter
      { sample_recordsplitter with split_size := 64 } sample_record 20 rfl with
  | ⟨h1, h2, _⟩ => ⟨h1, h2⟩


/-- C18 (failing input).  One source of 18 bytes `0xff`, `bits = 13`, legacy mode, over a
buffer whose allocation comes filled with the byte 1.  After the fill step `start = 0` and
`end = 18`; the scanner runs over 64 bytes, 46 of them behind the live bytes, and answers
`ofs = 33` with `extrabits = 0`; `next()` then fails the assertion `end - start >= ofs`, so
the run hands out no chunk.  Over a buffer filled with `0xff` the same source comes out as
one chunk of 18 bytes at level 0. -/
theorem all_ff_short_source_aborts :
    ((HashSplitter_init glob4k one_heap
        (args13 [List.replicate 18 255] true "legacy")).toOption.bind
        (fun s0 => (iternext_fill s0).toOption.map
          (fun s1 => (s1.start, s1.end_, iternext_scan s1))))
      = some (0, 18, (33, 0)) ∧
    hashsplit glob4k one_heap (args13 [List.replicate 18 255] true "legacy") 3
      = ([], RunEnd.failed Fault.assertion) ∧
    hashsplit glob4k ff_heap (args13 [List.replicate 18 255] true "legacy") 3
      = ([(List.replicate 18 255, 0)], RunEnd.stopped) := by
  decide
/-- C19 (counterexample).  With a page size of 16 MiB module initialisation leaves
`advise_chunk = 16777216` and `max_bits = 21`, while `floor(log2(advise_chunk)) - 2` is 22:
`max_bits` is computed from the 8 MiB default before `advise_chunk` is raised to the page
size. -/
theorem max_bits_not_from_final_advise_chunk :
    (hashsplit_init 16777216 0).toOption.map (fun g => (g.advise_chunk, g.max_bits))
      = some (16777216, 21) ∧
    log2 16777216 - 2 = 22 := by
  decide

/-- C19 (amended).  For every page size `p > 0` that a `long` can hold (and whatever `errno`
holds), module initialisation succeeds with `page_size = p`, `advise_chunk = max(8 MiB, p)` and
`max_bits = floor(log2(8 MiB)) - 2 = 21`; this is `floor(log2(advise_chunk)) - 2` whenever
`p` is below 16 MiB. -/
theorem tunables_after_init (p e : Int) (h0 : 0 < p) (hmax : p ≤ LONG_MAX) :
    ∃ g, hashsplit_init p e = Except.ok g ∧ g.page_size = p.toNat ∧
      g.advise_chunk = max 8388608 p.toNat ∧ g.max_bits = 21 ∧
      g.max_bits = log2 8388608 - 2 ∧
      (p < 16777216 → g.max_bits = log2 g.advise_chunk - 2) := by
  have h21 : (21 : Nat) = log2 8388608 - 2 := by decide
  refine ⟨_, hashsplit_init_total p e h0 hmax, rfl, ?_, rfl, h21, ?_⟩
  · simp only
    split_ifs <;> omega
  · intro hlt
    simp only
    have h23 : (2 : Nat) ^ 23 = 8388608 := by norm_num
    have h24 : (2 : Nat) ^ (23 + 1) = 16777216 := by norm_num
    have hl : log2 (if p.toNat > 8388608 then p.toNat else 8388608) = 23 := by
      unfold log2
      apply log2_loop_eq 23 64 _ (by norm_num)
      · rw [h23]; split_ifs <;> omega
      · rw [h24]; split_ifs <;> omega
    rw [hl]

/-- C19 (amended) at the usual page size of 4096 bytes. -/
theorem tunables_after_init_witness :
    ∃ g, hashsplit_init 4096 0 = Except.ok g ∧ g.page_size = (4096 : Int).toNat ∧
      g.advise_chunk = max 8388608 (4096 : Int).toNat ∧ g.max_bits = 21 ∧
      g.max_bits = log2 8388608 - 2 ∧
      ((4096 : Int) < 16777216 → g.max_bits = log2 g.advise_chunk - 2) :=
  tunables_after_init 4096 0 (by decide) (by decide)


/-- C20.  For an empty sequence of sources and any arguments that pass the validation of
`HashSplitter_init` (`bits` in `[13, max_bits]`, `fanbits` not zero, any `keep_boundaries` and
`progress`, and a known mode: the local `mode` ends up null, as for `mode=None`, or pointing
to `"legacy"` or `"fastcdc"`): construction succeeds, the first `next()` signals the end of
the iteration without a chunk and changes nothing in the object but dropping the buffer, no
progress call has been made, and every run of `next()` calls ends at once with nothing handed
out. -/
theorem empty_input_stops (p e : Int) (g : Globals) (hg : hashsplit_init p e = Except.ok g)
    (heap : Nat → Nat → Nat) (args : InitArgs) (hfiles : args.files = [])
    (hbits : ∃ b, args.bits = some b ∧ 13 ≤ b ∧ b ≤ g.max_bits)
    (hfan : args.fanbits ≠ some 0)
    (hmode : parsed_mode args.mode args.stale_mode = CharPtr.null ∨
      parsed_mode args.mode args.stale_mode = CharPtr.str "legacy" ∨
      parsed_mode args.mode args.stale_mode = CharPtr.str "fastcdc") :
    ∃ s0, HashSplitter_init g heap args = Except.ok s0 ∧ s0.calls = [] ∧
      HashSplitter_iternext s0 = Except.ok (Next.stop, { s0 with freed := true }) ∧
      ∀ n, hashsplit g heap args (n + 1) = ([], RunEnd.stopped) := by
  obtain ⟨g21, _, _, _⟩ := hashsplit_init_ok p e g hg
  obtain ⟨s0, h0⟩ := init_ok_of_valid g heap args g21 ⟨hbits, hfan, or_assoc.mpr hmode⟩
  obtain ⟨e1, e2, e3, e4⟩ := init_empty g heap args s0 h0 hfiles
  have hstop := iternext_stop s0 (by rw [e3, e4]) e1 (init_freed g heap args s0 h0)
  refine ⟨s0, h0, e2, hstop, ?_⟩
  intro n
  unfold hashsplit
  rw [h0]
  simp only
  unfold HashSplitter_run
  rw [hstop]

/-- C20 for `HashSplitter([], bits=13, keep_boundaries=True, mode="legacy")` on a platform
with 4096-byte pages. -/
theorem empty_input_stops_witness :
    ∃ s0, HashSplitter_init glob4k zero_heap (args13 [] true "legacy") = Except.ok s0 ∧
      s0.calls = [] ∧
      HashSplitter_iternext s0 = Except.ok (Next.stop, { s0 with freed := true }) ∧
      ∀ n, hashsplit glob4k zero_heap (args13 [] true "legacy") (n + 1)
        = ([], RunEnd.stopped) :=
  empty_input_stops 4096 0 glob4k rfl zero_heap (args13 [] true "legacy") rfl
    ⟨13, rfl, by decide, by decide⟩ (by decide) (Or.inr (Or.inl rfl))

/-- C21.  The rolling checksum starts at `s1 = W * O`, `s2 = W * (W - 1) * O` and is updated
by `s1 <- s1 + add - drop`, `s2 <- s2 + s1 - W * (drop + O)` modulo `2^32`, with `drop = 0`
while the window fills (`rolled_state`, the state the loops of
`HashSplitter_find_offs_legacy` go through).  For every buffer and every position
`pos >= 63` the state after byte `pos` is a function of the 64 bytes `buf[pos-63 .. pos]`:
`s1 = W * O + sum of the window bytes` and
`s2 = W * (W - 1) * O + sum of (64 - j) * buf[pos - 63 + j]` (no wrap occurs).  Two buffers
that agree on this window have the same state, the same digest and the same split decision
there, whatever precedes the window; and whenever the scanner returns `pos + 1`, the digest
that passed `split_found` is the one built from these two sums. -/
theorem window_locality (mem mem' : Nat → Nat) (pos : Nat) (h63 : 63 ≤ pos) :
    rolled_state mem (pos + 1) =
      (BUP_WINDOWSIZE * ROLLSUM_CHAR_OFFSET
          + ∑ j in Finset.range 64, mem (pos - 63 + j) % 256,
        BUP_WINDOWSIZE * (BUP_WINDOWSIZE - 1) * ROLLSUM_CHAR_OFFSET
          + ∑ j in Finset.range 64, (64 - j) * (mem (pos - 63 + j) % 256)) ∧
    ((∀ j, j < 64 → mem' (pos - 63 + j) % 256 = mem (pos - 63 + j) % 256) →
      rolled_state mem' (pos + 1) = rolled_state mem (pos + 1) ∧
      rolled_digest mem' (pos + 1) = rolled_digest mem (pos + 1) ∧
      ∀ nbits, split_at nbits mem' (pos + 1) = split_at nbits mem (pos + 1)) ∧
    (∀ nbits len e, (HashSplitter_find_offs_legacy nbits mem len e).1 = pos + 1 →
      (split_found
        (legacy_digest
          (BUP_WINDOWSIZE * ROLLSUM_CHAR_OFFSET
            + ∑ j in Finset.range 64, mem (pos - 63 + j) % 256)
          (BUP_WINDOWSIZE * (BUP_WINDOWSIZE - 1) * ROLLSUM_CHAR_OFFSET
            + ∑ j in Finset.range 64, (64 - j) * (mem (pos - 63 + j) % 256)))
        nbits 0).1 = true) := by
  have hw := rolled_state_window mem pos h63
  refine ⟨hw, ?_, ?_⟩
  · intro hag
    have hst : rolled_state mem' (pos + 1) = rolled_state mem (pos + 1) := by
      rw [hw, rolled_state_window mem' pos h63]
      have e1 : ∑ j in Finset.range 64, mem' (pos - 63 + j) % 256
          = ∑ j in Finset.range 64, mem (pos - 63 + j) % 256 :=
        Finset.sum_congr rfl (fun j hj => hag j (Finset.mem_range.mp hj))
      have e2 : ∑ j in Finset.range 64, (64 - j) * (mem' (pos - 63 + j) % 256)
          = ∑ j in Finset.range 64, (64 - j) * (mem (pos - 63 + j) % 256) :=
        Finset.sum_congr rfl (fun j hj => by rw [hag j (Finset.mem_range.mp hj)])
      rw [e1, e2]
    have hd : rolled_digest mem' (pos + 1) = rolled_digest mem (pos + 1) := by
      unfold rolled_digest
      rw [hst]
    refine ⟨hst, hd, ?_⟩
    intro nbits
    unfold split_at
    rw [hd]
  · intro nbits len e hres
    rcases legacy_result nbits mem len e with ⟨e1, _⟩ | ⟨o, _, _, p3, _, p5⟩
    · rw [e1] at hres
      exact absurd hres (by simp)
    · rw [p5] at hres
      simp only at hres
      subst hres
      unfold split_at rolled_digest at p3
      rw [hw] at p3
      exact p3

/-- C21 at the 64 bytes of `sample_record` (94, 1 and 62 zero bytes), `pos = 63`: the state
after the last byte is given by the two sums over the window. -/
theorem window_locality_witness :
    rolled_state (fun i => sample_record.getD i 0) (63 + 1) =
      (BUP_WINDOWSIZE * ROLLSUM_CHAR_OFFSET
          + ∑ j in Finset.range 64, (fun i => sample_record.getD i 0) (63 - 63 + j) % 256,
        BUP_WINDOWSIZE * (BUP_WINDOWSIZE - 1) * ROLLSUM_CHAR_OFFSET
          + ∑ j in Finset.range 64,
              (64 - j) * ((fun i => sample_record.getD i 0) (63 - 63 + j) % 256)) :=
  (window_locality (fun i => sample_record.getD i 0) (fun i => sample_record.getD i 0) 63
    (by decide)).1

/-- C22.  For every `nbits` from 1 to 31 and all `s1`, `s2` (32-bit or not): the test of
`HashSplitter_roll` on the two halves, `(s2 & s2_mask) == s2_mask && (s1 & s1_mask) == s1_mask`
with `s2_mask = (1 << nbits) - 1` cut to 16 bits and `s1_mask = 0` for `nbits <= 16`, else
`(1 << (nbits - 16)) - 1`, holds if and only if the digest `d = (s1 << 16) | (s2 & 0xffff)`
satisfies `(d & ((1 << nbits) - 1)) == (1 << nbits) - 1`, which is the test `split_found`
makes; so the loop of `HashSplitter_roll` stops at a byte exactly when `split_found` accepts
the digest after it. -/
theorem two_mask_test_equivalence (nbits s1 s2 : Nat) (h1 : 1 ≤ nbits) (h31 : nbits ≤ 31) :
    ((s2 &&& (((1 <<< nbits) - 1) % 65536) = ((1 <<< nbits) - 1) % 65536 ∧
      s1 &&& (if nbits ≤ 16 then 0 else ((1 <<< (nbits - 16)) - 1) % 65536)
        = (if nbits ≤ 16 then 0 else ((1 <<< (nbits - 16)) - 1) % 65536)) ↔
      legacy_digest s1 s2 &&& ((1 <<< nbits) - 1) = (1 <<< nbits) - 1) ∧
    (legacy_digest s1 s2 &&& ((1 <<< nbits) - 1) = (1 <<< nbits) - 1 ↔
      (split_found (legacy_digest s1 s2) nbits 0).1 = true) ∧
    (∀ (r : Rollsum) (b e : Nat),
      (HashSplitter_roll r nbits [b] e).1 = 1 ↔
        (split_found (rollsum_digest (rollsum_roll r b)) nbits e).1 = true) := by
  have hmask : ((1 <<< nbits) - 1) % U32 = (1 <<< nbits) - 1 := by
    apply Nat.mod_eq_of_lt
    rw [Nat.one_shiftLeft]
    have : 2 ^ nbits ≤ 2 ^ 31 := Nat.pow_le_pow_right (by norm_num) h31
    have : (2 : Nat) ^ 31 < U32 := by decide
    omega
  have hsf := split_found_iff (legacy_digest s1 s2) nbits 0
  rw [hmask] at hsf
  refine ⟨?_, hsf.symm, ?_⟩
  · rw [← hsf]
    exact two_mask_iff nbits s1 s2 (by omega)
  · intro r b e
    unfold HashSplitter_roll
    simp only
    rw [split_found_fst, rollsum_digest,
      ← two_mask_iff nbits (rollsum_roll r b).s1 (rollsum_roll r b).s2 (by omega)]
    generalize ((1 <<< nbits) - 1) % 65536 = m2
    generalize (if nbits ≤ 16 then 0 else ((1 <<< (nbits - 16)) - 1) % 65536) = m1
    rw [roll_loop]
    by_cases hc : (rollsum_roll r b).s2 &&& m2 = m2 ∧ (rollsum_roll r b).s1 &&& m1 = m1
    · rw [if_pos hc]
      exact ⟨fun _ => hc, fun _ => rfl⟩
    · rw [if_neg hc, roll_loop]
      exact ⟨fun h => (Nat.zero_ne_one h).elim, fun h => absurd h hc⟩

/-- C22 at `nbits = 13` with `s1 = 0x12345` and `s2 = 0x1fff`. -/
theorem two_mask_test_equivalence_witness :
    ((8191 &&& (((1 <<< 13) - 1) % 65536) = ((1 <<< 13) - 1) % 65536 ∧
      74565 &&& (if 13 ≤ 16 then 0 else ((1 <<< (13 - 16)) - 1) % 65536)
        = (if 13 ≤ 16 then 0 else ((1 <<< (13 - 16)) - 1) % 65536)) ↔
      legacy_digest 74565 8191 &&& ((1 <<< 13) - 1) = (1 <<< 13) - 1) :=
  (two_mask_test_equivalence 13 74565 8191 (by decide) (by decide)).1

/-- C23.  `tmask_c` has 21 set bits and differs from `tmask_j` in bit 16 alone.  For every
`nbits` from 1 to 21 the loop that scans the bits of `tmask_c` ends at a position
`pos <= 63` (with any larger bound on its rounds it ends at the same position);
`mask_j = tmask_j & ((1 << pos) - 1)` has `nbits - 1` set bits; the hit mask
`mask_c = mask_j | (tmask_c - tmask_j)` has `nbits` set bits and lies within `tmask_c`; and
for every fingerprint the two-step test of the scanner, `(fp & mask_j) == 0` and then
`(fp & (tmask_c - tmask_j)) == 0`, holds if and only if `(fp & mask_c) == 0`. -/
theorem fastcdc_mask_derivation (nbits fp : Nat) (h1 : 1 ≤ nbits) (h21 : nbits ≤ 21) :
    builtin_popcountll tmask_c = 21 ∧
    tmask_c ^^^ tmask_j = 1 <<< 16 ∧ tmask_c - tmask_j = 1 <<< 16 ∧
    mask_pos_loop 64 nbits 0 ≤ 63 ∧
    (∀ k, mask_pos_loop (64 + k) nbits 0 = mask_pos_loop 64 nbits 0) ∧
    fastcdc_mask_j nbits = tmask_j &&& ((1 <<< mask_pos_loop 64 nbits 0) - 1) ∧
    builtin_popcountll (fastcdc_mask_j nbits) = nbits - 1 ∧
    builtin_popcountll (fastcdc_mask_c nbits) = nbits ∧
    fastcdc_mask_c nbits &&& tmask_c = fastcdc_mask_c nbits ∧
    ((fp &&& fastcdc_mask_j nbits = 0 ∧ fp &&& (tmask_c - tmask_j) = 0) ↔
      fp &&& fastcdc_mask_c nbits = 0) := by
  have hpos : mask_pos_loop 64 nbits 0 ≤ 63 := by
    interval_cases nbits <;> decide
  refine ⟨by decide, by decide, by decide, hpos, ?_, ?_, ?_, ?_, ?_, (mask_c_test nbits fp).symm⟩
  · exact mask_pos_loop_stable 64 nbits 0 (by omega)
  · interval_cases nbits <;> decide
  · interval_cases nbits <;> decide
  · interval_cases nbits <;> decide
  · interval_cases nbits <;> decide

/-- C23 at `nbits = 13`: the loop ends at `pos = 51`, `mask_j` has 12 set bits and `mask_c`
has 13. -/
theorem fastcdc_mask_derivation_witness :
    mask_pos_loop 64 13 0 = 51 ∧
    builtin_popcountll (fastcdc_mask_j 13) = 13 - 1 ∧
    builtin_popcountll (fastcdc_mask_c 13) = 13 :=
  ⟨by decide, (fastcdc_mask_derivation 13 0 (by decide) (by decide)).2.2.2.2.2.2.1,
    (fastcdc_mask_derivation 13 0 (by decide) (by decide)).2.2.2.2.2.2.2.1⟩

/-- C24.  For every page map, every `uncached <= read` with `uncached` on a page boundary
(and `read` within the range of `off_t`), a call of `HashSplitter_uncache` returns normally.
It walks the pages `pgstart .. pgstart + pages - 1`, `pgstart = uncached / page_size`, and
issues the advisories `adv`, appended to those issued before.  Each advisory covers exactly
one run of pages `a .. b - 1` of the walked range (offset `(pgstart + a) * page_size`, length
`(b - a) * page_size`), none of them in core, with an in-core page or the end of the walked
range on either side; every page of the walked range that was not in core lies in an
advisory; the advisories come in increasing order, apart from each other, so no page lies in
two of them.  Afterwards `uncached` has advanced by `pages * page_size` and is still at most
`read`; nothing else in the object changes. -/
theorem uncache_advises_runs (s : HashSplitter) (last : Bool) (m : Nat → Nat)
    (hm : s.mincore = some m) (hle : s.uncached ≤ s.read) (hps : 0 < s.glob.page_size)
    (halign : s.uncached % s.glob.page_size = 0) (hread : s.read ≤ PY_SSIZE_T_MAX) :
    ∃ adv : List (Nat × Nat),
      HashSplitter_uncache s last = Except.ok
        { s with advised := s.advised ++ adv,
                 uncached := s.uncached + uncache_pages s last * s.glob.page_size } ∧
      s.uncached + uncache_pages s last * s.glob.page_size ≤ s.read ∧
      (∀ x ∈ adv, ∃ a b, b ≤ uncache_pages s last ∧
        IsRun s.glob.page_size m (s.uncached / s.glob.page_size) s.uncached a b x ∧
        x.1 = (s.uncached / s.glob.page_size + a) * s.glob.page_size ∧
        (b = uncache_pages s last ∨
          page_incore m (s.uncached / s.glob.page_size) b)) ∧
      (∀ k, k < uncache_pages s last →
        ¬ page_incore m (s.uncached / s.glob.page_size) k →
        ∃ x ∈ adv, x.1 ≤ s.uncached + k * s.glob.page_size ∧
          s.uncached + (k + 1) * s.glob.page_size ≤ x.1 + x.2) ∧
      adv.Pairwise (fun x y => x.1 + x.2 < y.1) := by
  have hP : PY_SSIZE_T_MAX < SIZE_MAX := by decide
  have hlen1 : (if ¬ last then (s.read - s.uncached) / s.glob.advise_chunk
      * s.glob.advise_chunk else s.read - s.uncached) ≤ s.read - s.uncached := by
    split_ifs
    · exact le_refl _
    · exact Nat.div_mul_le_self _ _
  have hpages : uncache_pages s last * s.glob.page_size ≤ s.read - s.uncached := by
    unfold uncache_pages
    exact le_trans (Nat.div_mul_le_self _ _) hlen1
  have hpg : uncache_pages s last ≤ s.read - s.uncached :=
    le_trans (Nat.le_mul_of_pos_right _ hps) hpages
  have hpgs : s.uncached / s.glob.page_size ≤ s.uncached := Nat.div_le_self _ _
  have hst : s.uncached = s.uncached / s.glob.page_size * s.glob.page_size := by
    have := Nat.div_add_mod s.uncached s.glob.page_size
    rw [halign, Nat.add_zero, Nat.mul_comm] at this
    exact this.symm
  have hinv0 : RunsInv s.glob.page_size m (s.uncached / s.glob.page_size) s.uncached
      0 s.uncached 0 [] 0 := by
    refine ⟨le_refl _, by simp, by simp, ?_, Or.inl rfl, ?_, ?_, List.Pairwise.nil, ?_⟩
    · intro k _ h; omega
    · intro x hx; exact absurd hx (List.not_mem_nil _)
    · intro k h; omega
    · intro x hx; exact absurd hx (List.not_mem_nil _)
  obtain ⟨start1, len1, adv1, a1, e1, e2⟩ :=
    uncache_loop_runs s.glob.page_size m (s.uncached / s.glob.page_size) s.uncached hps
      s.advised (uncache_pages s last) 0 s.uncached 0 [] 0 hinv0
  rw [List.append_nil] at e1
  rw [Nat.zero_add] at e2
  obtain ⟨i1, i2, i3, i4, i5, i6, i7, i8, i9⟩ := e2
  have hsum : start1 + len1 = s.uncached + uncache_pages s last * s.glob.page_size := by
    rw [i2, i3, Nat.add_assoc, ← Nat.add_mul]
    congr 2
    omega
  have hrunx : ∀ a b x, IsRun s.glob.page_size m (s.uncached / s.glob.page_size)
      s.uncached a b x → x.1 = (s.uncached / s.glob.page_size + a) * s.glob.page_size := by
    intro a b x hx
    rw [hx.2.1, Nat.add_mul, ← hst]
  refine ⟨if len1 ≠ 0 then adv1 ++ [(start1, len1)] else adv1, ?_, by omega, ?_, ?_, ?_⟩
  · unfold HashSplitter_uncache
    rw [hm]
    simp only
    rw [if_neg (by omega)]
    have hfold : (if ¬ last = true then (s.read - s.uncached) / s.glob.advise_chunk
        * s.glob.advise_chunk else s.read - s.uncached) / s.glob.page_size
        = uncache_pages s last := rfl
    rw [hfold, if_neg (by omega), if_neg (by omega), e1]
    simp only
    rw [if_neg (by omega), hsum]
    split_ifs
    · rw [List.append_assoc]
    · rfl
  · intro x hx
    have hold : x ∈ adv1 → ∃ a b, b ≤ uncache_pages s last ∧
        IsRun s.glob.page_size m (s.uncached / s.glob.page_size) s.uncached a b x ∧
        x.1 = (s.uncached / s.glob.page_size + a) * s.glob.page_size ∧
        (b = uncache_pages s last ∨
          page_incore m (s.uncached / s.glob.page_size) b) := by
      intro hx1
      obtain ⟨a', b', q1, q2, q3⟩ := i6 x hx1
      exact ⟨a', b', by omega, q2, hrunx a' b' x q2, Or.inr q3⟩
    split_ifs at hx with hl
    · rw [List.mem_append, List.mem_singleton] at hx
      rcases hx with hx | hx
      · exact hold hx
      · subst hx
        have hai : a1 < uncache_pages s last := by
          by_contra hcon
          have : uncache_pages s last - a1 = 0 := by omega
          rw [this, Nat.zero_mul] at i3
          exact hl i3
        have hrun : IsRun s.glob.page_size m (s.uncached / s.glob.page_size) s.uncached
            a1 (uncache_pages s last) (start1, len1) := ⟨hai, by rw [i2, i3], i4, i5⟩
        exact ⟨a1, uncache_pages s last, le_refl _, hrun, hrunx _ _ _ hrun, Or.inl rfl⟩
    · exact hold hx
  · intro k hk hnc
    by_cases hka : k < a1
    · obtain ⟨x, x1, x2, x3⟩ := i7 k hka hnc
      refine ⟨x, ?_, x2, x3⟩
      split_ifs
      · exact List.mem_append_left _ x1
      · exact x1
    · have hl : len1 ≠ 0 := by
        rw [i3]
        exact Nat.mul_ne_zero (by omega) (by omega)
      rw [if_pos hl]
      refine ⟨(start1, len1), List.mem_append_right _ (List.mem_singleton.mpr rfl), ?_, ?_⟩
      · simp only
        rw [i2]
        have : a1 * s.glob.page_size ≤ k * s.glob.page_size :=
          Nat.mul_le_mul_right _ (by omega)
        omega
      · simp only
        rw [hsum]
        have : (k + 1) * s.glob.page_size ≤ uncache_pages s last * s.glob.page_size :=
          Nat.mul_le_mul_right _ (by omega)
        omega
  · split_ifs
    · rw [List.pairwise_append]
      refine ⟨i8, List.pairwise_singleton _ _, ?_⟩
      intro x hx y hy
      rw [List.mem_singleton] at hy
      subst hy
      simp only
      rw [i2]
      exact i9 x hx
    · exact i8

/-- C24 on `sample_cached`: five pages read, pages 1 and 4 in core; the call at the end of
the file returns normally with its advisories appended. -/
theorem uncache_advises_runs_witness :
    ∃ adv : List (Nat × Nat),
      HashSplitter_uncache sample_cached true = Except.ok
        { sample_cached with
          advised := sample_cached.advised ++ adv
          uncached := sample_cached.uncached
            + uncache_pages sample_cached true * sample_cached.glob.page_size } ∧
      sample_cached.uncached
        + uncache_pages sample_cached true * sample_cached.glob.page_size
        ≤ sample_cached.read :=
  match uncache_advises_runs sample_cached true (fun k => if k = 1 ∨ k = 4 then 1 else 0)
      rfl (by decide) (by decide) (by decide) (by decide) with
  | ⟨adv, h1, h2, _⟩ => ⟨adv, h1, h2⟩

/-- C25 (failing input).  One source, a file of 8 MiB and one byte open on a descriptor, with
a page map (no page in core), split with `bits = 13` on a platform with 4096-byte pages, so
that `advise_chunk = bufsz = 8388608`.  Construction yields `fd_object` for these bytes; its
first `HashSplitter_read` fills the buffer with one read of `len = 8388608` bytes.  The
result lists `len`, whether a page map is active, the descriptor, `read`, `uncached`,
`advise_chunk` and the advisories issued: `read - uncached = 8388608 >= advise_chunk`, yet no
advisory has been issued and `uncached` is still 0.  The advisor is not called, because the
call is guarded by `len == 0`. -/
theorem advice_not_called_before_eof :
    HashSplitter_init glob4k zero_heap
        { files := [fd_file (List.replicate 8388609 7)], bits := some 13, progress := false,
          keep_boundaries := some true, fanbits := none, mode := some (some "legacy"),
          stale_mode := CharPtr.null }
      = Except.ok (fd_object (List.replicate 8388609 7)) ∧
    (HashSplitter_read (fd_object (List.replicate 8388609 7))).toOption.map
        (fun r => (r.1, r.2.mincore.isSome, r.2.fd, r.2.read, r.2.uncached,
          r.2.glob.advise_chunk, r.2.advised))
      = some (8388608, true, 3, 8388608, 0, 8388608, []) :=
  ⟨rfl, fd_object_read_summary (List.replicate 8388609 7) (List.length_replicate _ _)⟩

/-- C26.  For every page size that module initialisation accepts (with the 8-byte `size_t`
of an LP64 platform): every `bits` from 13 to `max_bits` is below the bound
`log2(sizeof(max_blob)) * 8 - 2 = 22` of the check "bits value is too large", so that check
rejects nothing that passed the range check and construction succeeds for every such `bits`
(with `fanbits` not zero and the local `mode` null or pointing to a known mode).  After a
successful construction `max_blob = 1 << (bits + 2) <= bufsz = advise_chunk`.  The rounds of
the loop of `next()` start from objects `t` that have the fixed fields of the constructed
object, `start <= end` and a buffer: so does every object between calls, and so does the
object with which a round goes on after `HashSplitter_realloc`.  In every such round, with
`s1` the object after the fill, `max_blob <= bufsz`, and when the buffer is full from its
start (`start = 0`, `end = bufsz`) and the scanner finds no split, the round returns the first
`max_blob` bytes at level 0, out of the same buffer: it does not get to
`HashSplitter_realloc`. -/
theorem max_blob_fits_buffer (p e : Int) (g : Globals)
    (hg : hashsplit_init p e = Except.ok g) :
    (∀ b, 13 ≤ b → b ≤ g.max_bits → ¬ (b ≥ log2 8 * 8 - 2)) ∧
    (∀ (heap : Nat → Nat → Nat) (args : InitArgs),
      (∃ b, args.bits = some b ∧ 13 ≤ b ∧ b ≤ g.max_bits) → args.fanbits ≠ some 0 →
      (parsed_mode args.mode args.stale_mode = CharPtr.null ∨
        parsed_mode args.mode args.stale_mode = CharPtr.str "legacy" ∨
        parsed_mode args.mode args.stale_mode = CharPtr.str "fastcdc") →
      ∃ s0, HashSplitter_init g heap args = Except.ok s0) ∧
    (∀ (heap : Nat → Nat → Nat) (args : InitArgs) (s0 : HashSplitter),
      HashSplitter_init g heap args = Except.ok s0 →
      s0.max_blob = 1 <<< (s0.bits + 2) ∧ s0.bufsz = g.advise_chunk ∧
      s0.max_blob ≤ s0.bufsz ∧
      (∀ (n : Nat) (s : HashSplitter), HashSplitter_after n s0 = some s →
        SameCfg s0 s ∧ s.start ≤ s.end_ ∧ s.freed = false) ∧
      (∀ (t s1 : HashSplitter), SameCfg s0 t → t.start ≤ t.end_ → t.freed = false →
        iternext_fill t = Except.ok s1 →
        s1.max_blob ≤ s1.bufsz ∧
        (∀ s2, HashSplitter_realloc s1 = Except.ok s2 →
          SameCfg s0 s2 ∧ s2.start ≤ s2.end_ ∧ s2.freed = false) ∧
        (s1.start = 0 → s1.end_ = s1.bufsz → (iternext_scan s1).1 = 0 →
          ∀ fuel, HashSplitter_iternext_loop (fuel + 1) t = Except.ok
            (Next.chunk (slice s1.buf 0 s1.max_blob) 0,
              { s1 with start := s1.max_blob })))) := by
  obtain ⟨g21, _, _, _⟩ := hashsplit_init_ok p e g hg
  have h22 : log2 8 * 8 - 2 = 22 := by decide
  refine ⟨?_, ?_, ?_⟩
  · intro b _ hb
    rw [h22]
    omega
  · intro heap args hb hf hm
    exact init_ok_of_valid g heap args g21 ⟨hb, hf, or_assoc.mpr hm⟩
  · intro heap args s0 h0
    obtain ⟨hc0, hst0, hen0, hbuf⟩ := init_cfg p e g heap args s0 hg h0
    have hf := init_fields g heap args s0 h0
    refine ⟨hf.2.2.1, hbuf, hc0.2.2.2.1, ?_, ?_⟩
    · intro n s hs
      have hb := reachable_bufinv p e g heap args s0 s n hg h0 hs
      exact ⟨after_cfg n s0 s hs, hb.1,
        after_freed n s0 s hs (init_freed g heap args s0 h0)⟩
    · intro t s1 hcfg hse hfr hfill
      obtain ⟨f1, f2, f3, f4, _⟩ := fill_frame t s1 hfill
      have hc1 : CfgOk s1 := CfgOk.of_same (SameCfg.trans hcfg f1) hc0
      obtain ⟨_, _, c3, c4, _⟩ := hc1
      have hpos : 0 < s1.max_blob := by rw [c3]; positivity
      have hfr1 : s1.freed = false := by rw [fill_freed t s1 hfill, hfr]
      refine ⟨c4, ?_, ?_⟩
      · intro s2 hre
        obtain ⟨r1, r2, _⟩ := realloc_frame s1 s2 hre
        obtain ⟨_, hre2, _, _, _, _, _, _, _, _, _, e10⟩ :=
          realloc_facts s1 (by rw [f2]; omega) (realloc_frame s1 s2 hre).2.2.2.2.1
        rw [hre] at hre2
        simp only [Except.ok.injEq] at hre2
        subst hre2
        exact ⟨SameCfg.trans (SameCfg.trans hcfg f1) r1, by rw [r2]; exact Nat.zero_le _,
          by rw [e10, hfr1]⟩
      · intro hst hend hscan fuel
        have h := full_round_forced fuel t s1 hse hfill hfr1 hpos (by omega) hscan
        rw [hst, Nat.zero_add] at h
        exact h

/-- C26 on a platform with 4096-byte pages, for a file of 8 MiB and one byte, all bytes
zero, split with `bits = 13` in legacy mode: the first fill of the first `next()` leaves the
buffer full from its start, the scanner finds no split, and the call hands out the first
`max_blob` bytes at level 0. -/
theorem max_blob_fits_buffer_witness :
    ∃ s1, HashSplitter_init glob4k zero_heap (fd_args (List.replicate 8388609 0))
        = Except.ok (fd_object (List.replicate 8388609 0)) ∧
      iternext_fill (fd_object (List.replicate 8388609 0)) = Except.ok s1 ∧
      s1.start = 0 ∧ s1.end_ = s1.bufsz ∧ (iternext_scan s1).1 = 0 ∧
      HashSplitter_iternext (fd_object (List.replicate 8388609 0)) = Except.ok
        (Next.chunk (slice s1.buf 0 s1.max_blob) 0, { s1 with start := s1.max_blob }) := by
  obtain ⟨s1, hfill, hst, hend, hbuf, _, _, hscan⟩ :=
    fd_object_fill (List.replicate 8388609 0) (List.length_replicate _ _)
  have hz := hscan (fun x hx => List.eq_of_mem_replicate hx)
  have hfull : s1.end_ = s1.bufsz := by rw [hend, hbuf]
  exact ⟨s1, rfl, hfill, hst, hfull, hz,
    (((max_blob_fits_buffer 4096 0 glob4k rfl).2.2 zero_heap
      (fd_args (List.replicate 8388609 0))
      (fd_object (List.replicate 8388609 0)) rfl).2.2.2.2
      (fd_object (List.replicate 8388609 0)) s1 (SameCfg.refl _) (Nat.le_refl 0) rfl
      hfill).2.2 hst hfull hz 7⟩

/-- C27.  For every `nbits` from 13 to 21: on every buffer with `len > 1 << (nbits - 2)` on
which the FastCDC scanner reports a hit (`ofs > 0`), with `fp` the fingerprint at the hit,
`extrabits = 64 - nbits - popcount(fp & tmask_c)`, and `43 <= extrabits <= 64 - nbits`.
Consequently a chunk that `next()` hands out on such a hit (FastCDC mode, `fanbits > 0`) has
level `extrabits / fanbits`, which is at least `43 / fanbits` rounded down, at least 10 for
`fanbits = 4`, and 0 only if `fanbits > 43`. -/
theorem fastcdc_extrabits_band (nbits : Nat) (h13 : 13 ≤ nbits) (h21 : nbits ≤ 21) :
    (∀ (buf : Nat → Nat) (len e0 : Nat), 1 <<< (nbits - 2) < len →
      (HashSplitter_find_offs_fastcdc nbits buf len e0).1 ≠ 0 →
      ∃ k, (fastcdc_visit nbits buf k).1
          = (HashSplitter_find_offs_fastcdc nbits buf len e0).1 ∧
        (HashSplitter_find_offs_fastcdc nbits buf len e0).2
          = 64 - nbits - builtin_popcountll ((fastcdc_visit nbits buf k).2 &&& tmask_c) ∧
        43 ≤ (HashSplitter_find_offs_fastcdc nbits buf len e0).2 ∧
        (HashSplitter_find_offs_fastcdc nbits buf len e0).2 ≤ 64 - nbits) ∧
    (∀ (s s1 : HashSplitter) (c : List Nat) (level : Nat), s.bits = nbits →
      s.mode = bup_splitter_mode.SPLIT_MODE_FASTCDC → 0 < s.fanbits →
      HashSplitter_iternext s = Except.ok (Next.chunk c level, s1) →
      ∃ t : HashSplitter, s1 = { t with start := t.start + c.length } ∧
        ((iternext_scan t).1 ≠ 0 →
          1 <<< (nbits - 2) < min (t.end_ - t.start) t.max_blob →
          level = (iternext_scan t).2 / t.fanbits ∧ 43 ≤ (iternext_scan t).2 ∧
          (iternext_scan t).2 ≤ 64 - nbits ∧ 43 / t.fanbits ≤ level ∧
          (level = 0 → 43 < t.fanbits) ∧ (t.fanbits = 4 → 10 ≤ level))) := by
  constructor
  · intro buf len e0 hlen hhit
    obtain ⟨k, k1, _, k3, k4, k5⟩ :=
      fastcdc_hit_extrabits nbits buf len e0 (by omega) h21 hlen hhit
    exact ⟨k, k1, k3, k4, k5⟩
  · intro s s1 c level hb hm hf hstep
    obtain ⟨t, t1, _, _, _, _, t6, t7⟩ := iternext_loop_emit _ _ _ _ _ hstep
    refine ⟨t, t6, ?_⟩
    intro hne hlen
    have hbits : t.bits = nbits := t1.1.trans hb
    have hmode : t.mode = bup_splitter_mode.SPLIT_MODE_FASTCDC := t1.2.2.2.1.trans hm
    have hfan : 0 < t.fanbits := by rw [t1.2.2.2.2.1]; exact hf
    have hscan : iternext_scan t = HashSplitter_find_offs_fastcdc nbits
        (fun i => t.buf (t.start + i)) (min (t.end_ - t.start) t.max_blob) 0 := by
      unfold iternext_scan
      rw [hmode, hbits]
    rw [hscan] at hne ⊢
    obtain ⟨_, _, _, _, k4, k5⟩ :=
      fastcdc_hit_extrabits nbits _ _ 0 (by omega) h21 hlen hne
    rcases t7 with ⟨_, _, a3⟩ | ⟨a1, _⟩ | ⟨a1, _⟩
    · rw [hscan] at a3
      refine ⟨a3, k4, k5, ?_, ?_, ?_⟩
      · rw [a3]
        exact Nat.div_le_div_right k4
      · intro h0
        rw [a3, Nat.div_eq_zero_iff hfan] at h0
        omega
      · intro h4
        rw [a3, h4]
        omega
    · rw [hscan] at a1
      exact absurd a1 hne
    · rw [hscan] at a1
      exact absurd a1 hne

/-- C27 at a concrete buffer: for 13 bits the scan over `fastcdc_sample` hits at index 2049
with 48 extra bits, within 43 and 51. -/
theorem fastcdc_extrabits_band_witness :
    ∃ k, (fastcdc_visit 13 fastcdc_sample k).1
        = (HashSplitter_find_offs_fastcdc 13 fastcdc_sample 3000 0).1 ∧
      (HashSplitter_find_offs_fastcdc 13 fastcdc_sample 3000 0).2
        = 64 - 13 - builtin_popcountll ((fastcdc_visit 13 fastcdc_sample k).2 &&& tmask_c) ∧
      43 ≤ (HashSplitter_find_offs_fastcdc 13 fastcdc_sample 3000 0).2 ∧
      (HashSplitter_find_offs_fastcdc 13 fastcdc_sample 3000 0).2 ≤ 64 - 13 :=
  (fastcdc_extrabits_band 13 (by decide) (by decide)).1 fastcdc_sample 3000 0 (by decide)
    (by decide)

/-- C28 (failing input).  One source holding the bytes 94, 1, legacy mode, `bits = 13`,
zero-filled buffer.  The first call of `next()` leaves its loop in the first round through
the failed assertion `end - start >= ofs`: it neither hands out a chunk nor signals the end.
However many calls are allowed, the iteration ends there and never signals its end. -/
theorem next_aborts_instead_of_ending :
    ((HashSplitter_init glob4k zero_heap (args13 [[94, 1]] true "legacy")).toOption.bind
        (fun s0 => fault_of (HashSplitter_iternext_loop 1 s0)))
      = some Fault.assertion ∧
    ∀ n, hashsplit glob4k zero_heap (args13 [[94, 1]] true "legacy") (n + 1)
      = ([], RunEnd.failed Fault.assertion) := by
  refine ⟨by decide, ?_⟩
  intro n
  rfl
end Hashsplit
